import Mathlib

/-!
# readlink.c : the line tokenizer of `initialize_main`

A shallow embedding of `initialize_main` (src/coreutils/src/readlink.c, lines 94-216)
and theorems about it.

Modelling decisions, all read off the source:

* the fixed arrays `temp[SIZE]` and `env_var[SIZE]` are total maps `Nat → Char`
  that start out all NUL (`= {'\0'}`); every store carries the bounds check
  `index < SIZE`, and a store outside the array ends the run with
  `Fault.outOfBounds`;
* `iargv[0 .. iargc)` is a list, `iargc` is its length, and the store
  `iargv[iargc++] = p` appends (after the bounds check `iargc < SIZE`);
* a stored argument is the block of `pos` bytes that `malloc (pos)` returned and
  `strncpy (_, temp, pos)` filled;
* `getenv` and `malloc` are parameters: `getenv name` is the value or `none`
  (NULL), `malloc iargc size` says whether the allocation succeeds;
* `fgets` is modelled after the C standard.
-/

namespace Readlink

/-! ## C library helpers -/

/-- The size of every array in `initialize_main`: `#define SIZE 99999`. -/
def SIZE : Nat := 99999

/-- The string terminator. -/
def NUL : Char := Char.ofNat 0

/-- The character that introduces a variable reference. -/
def DOLLAR : Char := Char.ofNat 36

/-- The double quote character. -/
def DQUOTE : Char := Char.ofNat 34

/-- The single quote character. -/
def SQUOTE : Char := Char.ofNat 39

/-- How a run of `initialize_main` can end without returning. -/
inductive Fault where
  /-- The call `exit (EXIT_FAILURE)`. -/
  | exitFailure
  /-- A store to `temp`, `env_var` or `iargv` at an index that is not below `SIZE`. -/
  | outOfBounds
  /-- The call `strncpy (NULL, temp, pos)` after an unchecked failed `malloc`. -/
  | nullDeref
  deriving DecidableEq, Repr

/-- The result of running a piece of the program. -/
inductive Outcome (α : Type) where
  | ok (a : α)
  | fault (f : Fault)
  deriving DecidableEq, Repr

/-- Sequencing of two pieces of the program. -/
def Outcome.bind {α β : Type} (x : Outcome α) (f : α → Outcome β) : Outcome β :=
  match x with
  | .ok a => f a
  | .fault e => .fault e

/-- Post-processing of a result. -/
def Outcome.map {α β : Type} (f : α → β) (x : Outcome α) : Outcome β :=
  match x with
  | .ok a => .ok (f a)
  | .fault e => .fault e

/-- A C array of characters: cell contents by index. -/
abbrev CArray := Nat → Char

/-- The array declared as `= {'\0'}`: every cell is NUL. -/
def zeroArray : CArray := fun _ => NUL

/-- The store `a[i] = c`. -/
def store (a : CArray) (i : Nat) (c : Char) : CArray :=
  fun j => if j = i then c else a j

/-- The stores `a[i] = v[0]; a[i+1] = v[1]; ...` of a block copy. -/
def blit (a : CArray) (i : Nat) (v : List Char) : CArray :=
  fun j => if i ≤ j ∧ j < i + v.length then v.getD (j - i) NUL else a j

/-- The C string that starts at `a[start]`, read from an array with `n` cells left. -/
def cstr (a : CArray) (start : Nat) : Nat → List Char
  | 0 => []
  | n + 1 => if a start = NUL then [] else a start :: cstr a (start + 1) n

/-- The call `strlen (a)` on an array of `cap` cells. -/
def strlen (a : CArray) (cap : Nat) : Nat := (cstr a 0 cap).length

/-- The C string held by a `char *` value: the characters before the first NUL. -/
def cstrL (v : List Char) : List Char := v.takeWhile (fun c => c != NUL)

/-- The call `strlen (v)` on a `char *` value. -/
def strlenL (v : List Char) : Nat := (cstrL v).length

/-- The `n` bytes that `strncpy (dst, src, n)` stores at `dst`: the characters of the
C string `src`, cut at `n`, and NUL padding when the string is shorter than `n`. -/
def strncpy (src : List Char) (n : Nat) : List Char :=
  (cstrL src).take n ++ List.replicate (n - (cstrL src).length) NUL

/-- The test of line 124: space, tab, newline or carriage return. -/
def isBlank (c : Char) : Bool :=
  c == Char.ofNat 32 || c == Char.ofNat 9 || c == Char.ofNat 10 || c == Char.ofNat 13

/-- The test of line 163: double or single quote. -/
def isQuote (c : Char) : Bool := c == DQUOTE || c == SQUOTE

/-- The call `fgets (str, n, stdin)`: `none` (NULL) at end of input, otherwise the
characters up to and including the first newline, at most `n - 1` of them. -/
def fgetsAux : Nat → List Char → List Char
  | 0, _ => []
  | _ + 1, [] => []
  | k + 1, c :: cs => if c = Char.ofNat 10 then [c] else c :: fgetsAux k cs

/-- The call `fgets (str, n, stdin)` on the unread input. -/
def fgets (n : Nat) (stdin : List Char) : Option (List Char) :=
  match stdin with
  | [] => none
  | _ :: _ => some (fgetsAux (n - 1) stdin)

/-! ## The state of the scan -/

/-- The local variables of `initialize_main` that the loop reads and writes. -/
structure State where
  /-- The cells `iargv[0 .. iargc)`. -/
  iargv : List (List Char)
  /-- The token buffer `temp`. -/
  temp : CArray
  /-- The variable buffer `env_var`. -/
  env_var : CArray
  /-- The counter `quotes`. -/
  quotes : Nat
  /-- The length counter of `env_var`. -/
  env_var_size : Nat
  /-- The length counter of `temp`. -/
  pos : Nat
  /-- The flag `env_flag`. -/
  env_flag : Bool

/-- The variable `iargc`. -/
def State.iargc (s : State) : Nat := s.iargv.length

/-- The state at the head of the loop (lines 102-110 and 118-119). -/
def initState (arg0 : List Char) : State :=
  { iargv := [arg0], temp := zeroArray, env_var := zeroArray, quotes := 0,
    env_var_size := 0, pos := 0, env_flag := false }

/-- The environment: `getenv name` is the value of `name` or `none` for NULL. -/
abbrev Env := List Char → Option (List Char)

/-- The allocator: `malloc iargc size` is `true` when the call returns a block. -/
abbrev Malloc := Nat → Nat → Bool

/-- The store `temp[pos++] = c`. -/
def pushTemp (c : Char) (s : State) : Outcome State :=
  if s.pos < SIZE then .ok { s with temp := store s.temp s.pos c, pos := s.pos + 1 }
  else .fault .outOfBounds

/-- The store `env_var[env_var_size++] = c`. -/
def pushVar (c : Char) (s : State) : Outcome State :=
  if s.env_var_size < SIZE then
    .ok { s with env_var := store s.env_var s.env_var_size c,
                 env_var_size := s.env_var_size + 1 }
  else .fault .outOfBounds

/-- The body of `if (env_flag)` (lines 128-142 and 172-188): close the variable
reference and put its value into `temp`. -/
def resolve (getenv : Env) (s : State) : Outcome State :=
  if s.env_var_size < SIZE then
    let ev := store s.env_var s.env_var_size NUL
    let s1 : State := { s with env_flag := false, env_var := ev }
    let done (t : State) : State :=
      { t with env_var := store t.env_var 0 NUL, env_var_size := 0 }
    if strlen ev SIZE = 1 then
      (pushTemp DOLLAR s1).map done
    else
      match getenv (cstr ev 1 (SIZE - 1)) with
      | some v =>
        let n := strlenL v
        if n = 0 ∨ s1.pos + n ≤ SIZE then
          .ok (done { s1 with temp := blit s1.temp s1.pos (strncpy v n), pos := s1.pos + n })
        else .fault .outOfBounds
      | none => .ok (done s1)
  else .fault .outOfBounds

/-- The body of `if (strlen (temp) > 0)` (lines 148-157 and 192-196): store the
token. `checked` tells whether the result of `malloc` is tested (line 150). -/
def finalize (malloc : Malloc) (checked : Bool) (s : State) : Outcome State :=
  if s.pos < SIZE then
    let t := store s.temp s.pos NUL
    if s.iargc < SIZE then
      if malloc s.iargc s.pos then
        .ok { s with iargv := s.iargv ++ [strncpy (cstr t 0 SIZE) s.pos],
                     temp := store t 0 NUL, pos := 0 }
      else if checked then .fault .exitFailure
      else .fault .nullDeref
    else .fault .outOfBounds
  else .fault .outOfBounds

/-- The branch of lines 126-161: a blank character. -/
def stepBlank (getenv : Env) (malloc : Malloc) (c : Char) (s : State) : Outcome State :=
  (if s.env_flag then resolve getenv s else .ok s).bind fun s1 =>
    if s1.quotes = 0 then
      if 0 < strlen s1.temp SIZE then finalize malloc true s1 else .ok s1
    else pushTemp c s1

/-- The branch of lines 165-198: a quote character. -/
def stepQuote (getenv : Env) (malloc : Malloc) (s : State) : Outcome State :=
  if s.quotes = 0 then .ok { s with quotes := s.quotes + 1 }
  else
    let s0 : State := { s with quotes := s.quotes - 1 }
    (if s0.env_flag then resolve getenv s0 else .ok s0).bind fun s1 =>
      if 0 < strlen s1.temp SIZE then finalize malloc false s1 else .ok s1

/-- The body of the loop (lines 124-211) for the character `c = str[i]`. -/
def step (getenv : Env) (malloc : Malloc) (c : Char) (s : State) : Outcome State :=
  if isBlank c then stepBlank getenv malloc c s
  else if isQuote c then stepQuote getenv malloc s
  else if c = DOLLAR then pushVar c { s with env_flag := true }
  else if s.env_flag then pushVar c s
  else pushTemp c s

/-- The loop of lines 122-212 over the characters `str[0 .. len)`. -/
def scan (getenv : Env) (malloc : Malloc) : List Char → State → Outcome State
  | [], s => .ok s
  | c :: cs, s => (step getenv malloc c s).bind (scan getenv malloc cs)

/-- Lines 118-215 for the buffer contents `str`: the pair stored in `*argc` and
`*argv`. The loop runs over `len = strlen (str)` characters. -/
def run (getenv : Env) (malloc : Malloc) (arg0 : List Char) (str : List Char) :
    Outcome (Nat × List (List Char)) :=
  (scan getenv malloc (cstrL str) (initState arg0)).map fun s => (s.iargc, s.iargv)

/-- The function `initialize_main`: read one line and replace the argument vector. -/
def initialize_main (getenv : Env) (malloc : Malloc) (argv : List (List Char))
    (stdin : List Char) : Outcome (Nat × List (List Char)) :=
  match fgets SIZE stdin with
  | none => .fault .exitFailure
  | some str => run getenv malloc (argv.headD []) str

/-- The allocator that never fails. -/
def mallocOk : Malloc := fun _ _ => true

/-- The tokens of a line: the cells `iargv[1 .. iargc)` after the loop, with every
allocation succeeding. -/
def tokenize (getenv : Env) (line : List Char) : Outcome (List (List Char)) :=
  (run getenv mallocOk [] line).map fun r => r.2.tail

/-! ## The list view of the state

The scan is easier to follow on the strings the counted prefixes of the two
buffers hold. `View` is that reading of a `State`, and the `v`-functions below
are the steps of the loop on it; `step_rep` shows that they compute what the
embedded code computes, faults included. -/

/-- The cells `a[start .. start + n)`. -/
def slice (a : CArray) (start : Nat) : Nat → List Char
  | 0 => []
  | n + 1 => a start :: slice a (start + 1) n

/-- The strings held by the buffers of a state. -/
structure View where
  /-- The stored arguments `iargv[0 .. iargc)`. -/
  out : List (List Char)
  /-- The token under construction, `temp[0 .. pos)`. -/
  tok : List Char
  /-- The pending reference, `env_var[0 .. env_var_size)`. -/
  var : List Char
  /-- The counter `quotes`. -/
  quotes : Nat
  /-- The flag `env_flag`. -/
  env_flag : Bool
  deriving DecidableEq

/-- The list view of a state. -/
def view (s : State) : View :=
  { out := s.iargv, tok := slice s.temp 0 s.pos, var := slice s.env_var 0 s.env_var_size,
    quotes := s.quotes, env_flag := s.env_flag }

/-- The step `pushTemp` on the list view. -/
def vPushTemp (c : Char) (v : View) : Outcome View :=
  if v.tok.length < SIZE then .ok { v with tok := v.tok ++ [c] }
  else .fault .outOfBounds

/-- The step `pushVar` on the list view. -/
def vPushVar (c : Char) (v : View) : Outcome View :=
  if v.var.length < SIZE then .ok { v with var := v.var ++ [c] }
  else .fault .outOfBounds

/-- The step `resolve` on the list view. -/
def vResolve (getenv : Env) (v : View) : Outcome View :=
  if v.var.length < SIZE then
    if v.var.length = 1 then
      (vPushTemp DOLLAR { v with env_flag := false }).map fun t => { t with var := [] }
    else
      match getenv v.var.tail with
      | some val =>
        if strlenL val = 0 ∨ v.tok.length + strlenL val ≤ SIZE then
          .ok { v with env_flag := false, tok := v.tok ++ cstrL val, var := [] }
        else .fault .outOfBounds
      | none => .ok { v with env_flag := false, var := [] }
  else .fault .outOfBounds

/-- The step `finalize` on the list view. -/
def vFinalize (malloc : Malloc) (checked : Bool) (v : View) : Outcome View :=
  if v.tok.length < SIZE then
    if v.out.length < SIZE then
      if malloc v.out.length v.tok.length then
        .ok { v with out := v.out ++ [v.tok], tok := [] }
      else if checked then .fault .exitFailure
      else .fault .nullDeref
    else .fault .outOfBounds
  else .fault .outOfBounds

/-- The step `stepBlank` on the list view. -/
def vStepBlank (getenv : Env) (malloc : Malloc) (c : Char) (v : View) : Outcome View :=
  (if v.env_flag then vResolve getenv v else .ok v).bind fun v1 =>
    if v1.quotes = 0 then
      if 0 < v1.tok.length then vFinalize malloc true v1 else .ok v1
    else vPushTemp c v1

/-- The step `stepQuote` on the list view. -/
def vStepQuote (getenv : Env) (malloc : Malloc) (v : View) : Outcome View :=
  if v.quotes = 0 then .ok { v with quotes := v.quotes + 1 }
  else
    let v0 : View := { v with quotes := v.quotes - 1 }
    (if v0.env_flag then vResolve getenv v0 else .ok v0).bind fun v1 =>
      if 0 < v1.tok.length then vFinalize malloc false v1 else .ok v1

/-- The step `step` on the list view. -/
def vStep (getenv : Env) (malloc : Malloc) (c : Char) (v : View) : Outcome View :=
  if isBlank c then vStepBlank getenv malloc c v
  else if isQuote c then vStepQuote getenv malloc v
  else if c = DOLLAR then vPushVar c { v with env_flag := true }
  else if v.env_flag then vPushVar c v
  else vPushTemp c v

/-- The loop `scan` on the list view. -/
def vScan (getenv : Env) (malloc : Malloc) : List Char → View → Outcome View
  | [], v => .ok v
  | c :: cs, v => (vStep getenv malloc c v).bind (vScan getenv malloc cs)

/-- The list view of `initState`. -/
def initView (arg0 : List Char) : View :=
  { out := [arg0], tok := [], var := [], quotes := 0, env_flag := false }

/-- What the loop maintains about the two buffers: the counted prefixes hold no
NUL, `temp[0]` is NUL when `pos` is 0, and a pending reference is not empty. -/
structure Inv (s : State) : Prop where
  temp_ne : ∀ j, j < s.pos → s.temp j ≠ NUL
  temp_zero : s.pos = 0 → s.temp 0 = NUL
  var_ne : ∀ j, j < s.env_var_size → s.env_var j ≠ NUL
  var_pos : s.env_flag = true → 0 < s.env_var_size

/-- A state with its invariant and its list view. -/
def Rep (s : State) (v : View) : Prop := Inv s ∧ view s = v

/-- Two results agree: the same fault, or states of which one is the view of the other. -/
def OutRep : Outcome State → Outcome View → Prop
  | .ok s, .ok v => Rep s v
  | .fault e, .fault f => e = f
  | _, _ => False

/-! ## Vocabulary of the statements -/

/-- The tokens stored by the scan of a line: the cells `iargv[1 .. iargc)` after
the loop, whatever `iargv[0]` is. -/
def scanTokens (getenv : Env) (malloc : Malloc) (line : List Char) :
    Outcome (List (List Char)) :=
  (run getenv malloc [] line).map fun r => r.2.tail

/-- An ordinary character: not a blank, not a quote, not `$` and not NUL. -/
def ordinary (c : Char) : Bool := !isBlank c && !isQuote c && c != DOLLAR && c != NUL

/-- Two results are related: the same fault, or related values. -/
def Outcome.Rel {α β : Type} (R : α → β → Prop) : Outcome α → Outcome β → Prop
  | .ok a, .ok b => R a b
  | .fault e, .fault f => e = f
  | _, _ => False

/-- The view with the program name in `iargv[0]` replaced. -/
def relabel (p : List Char) (v : View) : View := { v with out := p :: v.out.tail }

/-- The environment in which no variable is defined. -/
def envNone : Env := fun _ => none

/-- The environment in which only `FOO` is defined, with value `bar`. -/
def envFoo : Env := fun n => if n = "FOO".toList then some "bar".toList else none

/-- The relation between a view and the same view under another program name. -/
def Relabelled (p : List Char) (v w : View) : Prop := v.out ≠ [] ∧ w = relabel p v

/-- The space character. -/
def SPACE : Char := Char.ofNat 32

/-- The newline character. -/
def NEWLINE : Char := Char.ofNat 10

/-- A value as long as the buffers: `SIZE` times the letter `a`. -/
def bigValue : List Char := List.replicate SIZE (Char.ofNat 97)

/-- The environment in which only `A` is defined, with the value `bigValue`. -/
def envBig : Env := fun n => if n = "A".toList then some bigValue else none

/-- The environment in which only `V` is defined; its value holds a blank, a quote and a `$`. -/
def envOdd : Env := fun n =>
  if n = "V".toList then some ("a b".toList ++ [DQUOTE] ++ "$c".toList) else none

/-- A state in which the reference `$` alone is pending, outside quotes. -/
def loneDollarState : State :=
  { iargv := [[]], temp := zeroArray, env_var := store zeroArray 0 DOLLAR, quotes := 0,
    env_var_size := 1, pos := 0, env_flag := true }

/-- The state a pending lone `$` leaves behind once it is closed, before the store of
the character `$` into `temp`: no reference pending and `env_var` cleared. -/
def clearLone (s : State) : State :=
  { s with env_flag := false, env_var := store (store s.env_var 1 NUL) 0 NUL,
           env_var_size := 0 }

/-- The counter `quotes` after the scan of the characters `p`: 0 when the scanner is
outside quotes. -/
def quotesAfter (getenv : Env) (p : List Char) : Outcome Nat :=
  (scan getenv mallocOk (cstrL p) (initState [])).map fun s => s.quotes

/-- The other quote character; any other character is left alone. -/
def swapQuote (c : Char) : Char :=
  if c = DQUOTE then SQUOTE else if c = SQUOTE then DQUOTE else c

/-- The line in which the quote characters at the selected positions (counted from `i`)
are replaced by the other quote character. -/
def swapSome (sel : Nat → Bool) : Nat → List Char → List Char
  | _, [] => []
  | i, c :: cs => (if sel i then swapQuote c else c) :: swapSome sel (i + 1) cs

/-- No expansion grows the text: every defined variable has a value that is not longer
than its reference `$NAME`. -/
def NoGrowth (getenv : Env) : Prop :=
  ∀ name val, getenv name = some val → strlenL val ≤ name.length + 1

/-- A pending reference holds at least its `$`. -/
def Pending (v : View) : Prop := v.env_flag = true → v.var ≠ []

/-- A value one character shorter than the buffers: `SIZE - 1` times the letter `a`. -/
def almostBigValue : List Char := List.replicate (SIZE - 1) (Char.ofNat 97)

/-- The environment in which only `A` is defined, with the value `almostBigValue`. -/
def envAlmostBig : Env := fun n => if n = "A".toList then some almostBigValue else none

/-- The characters a closed reference puts into the token buffer: `$` for the reference
`$` alone, the value of a defined variable, nothing for an undefined one. -/
def expand (getenv : Env) (var : List Char) : List Char :=
  if var.length = 1 then [DOLLAR]
  else
    match getenv var.tail with
    | some val => cstrL val
    | none => []

/-- The token under construction in a state: `temp[0 .. pos)`. -/
def State.tok (s : State) : List Char := slice s.temp 0 s.pos

/-- The pending reference in a state: `env_var[0 .. env_var_size)`. -/
def State.ref (s : State) : List Char := slice s.env_var 0 s.env_var_size

/-- The state after the characters `$FOO` inside quotes. -/
def quotedFooState : State :=
  { iargv := [[]], temp := zeroArray,
    env_var := fun j => "$FOO".toList.getD j NUL, quotes := 1,
    env_var_size := 4, pos := 0, env_flag := true }

/-! ## Vocabulary of the statements about bounds and failures -/

/-- The name passed to `getenv` (lines 134 and 180) while the character `c` is
processed in state `s`, if the call is made. -/
def lookupOf (c : Char) (s : State) : Option (List Char) :=
  if (isBlank c = true ∨ (isQuote c = true ∧ s.quotes ≠ 0)) ∧ s.env_flag = true ∧
      s.env_var_size < SIZE then
    if strlen (store s.env_var s.env_var_size NUL) SIZE = 1 then none
    else some (cstr (store s.env_var s.env_var_size NUL) 1 (SIZE - 1))
  else none

/-- The names passed to `getenv` during the scan of `cs` from state `s`, in order. -/
def lookups (getenv : Env) (malloc : Malloc) : List Char → State → List (List Char)
  | [], _ => []
  | c :: cs, s =>
    (lookupOf c s).toList ++
      (match step getenv malloc c s with
       | .ok s1 => lookups getenv malloc cs s1
       | .fault _ => [])

/-- The variables a line references: the names passed to `getenv` during its scan. -/
def referenced (getenv : Env) (malloc : Malloc) (line : List Char) : List (List Char) :=
  lookups getenv malloc (cstrL line) (initState [])

/-- The variable `name` is undefined or has a value no longer than its reference `$name`. -/
def Fits (getenv : Env) (name : List Char) : Prop :=
  ∀ val, getenv name = some val → strlenL val ≤ name.length + 1

/-- The call `lookupOf` on the list view. -/
def vLookupOf (c : Char) (v : View) : Option (List Char) :=
  if (isBlank c = true ∨ (isQuote c = true ∧ v.quotes ≠ 0)) ∧ v.env_flag = true ∧
      v.var.length < SIZE then
    if v.var.length = 1 then none else some v.var.tail
  else none

/-- The trace `lookups` on the list view. -/
def vLookups (getenv : Env) (malloc : Malloc) : List Char → View → List (List Char)
  | [], _ => []
  | c :: cs, v =>
    (vLookupOf c v).toList ++
      (match vStep getenv malloc c v with
       | .ok v1 => vLookups getenv malloc cs v1
       | .fault _ => [])

/-- A character that can end a token: a blank or a quote. -/
def isBreak (c : Char) : Bool := isBlank c || isQuote c

/-- The allocator that always fails. -/
def mallocFail : Malloc := fun _ _ => false

/-- The result `x` is not a store outside an array, and when it is a view, `P` holds of it. -/
def Within (x : Outcome View) (P : View → Prop) : Prop :=
  match x with
  | .ok v => P v
  | .fault e => e ≠ Fault.outOfBounds

/-- A line with mismatched and unbalanced quotes, a defined and an undefined variable and
a `$` alone: `"a' $FOO $ $NOPE x"` and a newline. -/
def oddLine : List Char :=
  DQUOTE :: "a".toList ++ SQUOTE :: " $FOO $ $NOPE x".toList ++ [DQUOTE, NEWLINE]

/-- The text with every quote character removed and every blank that lies outside a
quoted region removed; `q` tells whether the text starts inside a quoted region. -/
def unquote : Bool → List Char → List Char
  | _, [] => []
  | q, c :: cs =>
    if isQuote c then unquote (!q) cs
    else if isBlank c && !q then unquote q cs
    else c :: unquote q cs

/-- Whether the scanner is inside a quoted region. -/
def View.inQ (v : View) : Bool := v.quotes != 0

/-- The characters kept so far: the stored tokens and the token under construction. -/
def View.kept (v : View) : List Char := v.out.tail.flatten ++ v.tok

/-- The allocator that returns a block only to a request for exactly `n` bytes. -/
def mallocExactly (n : Nat) : Malloc := fun _ k => decide (k = n)

/-- The environment in which only `FOO` is defined, as the empty string. -/
def envEmptyFoo : Env := fun n => if n = "FOO".toList then some [] else none

/-- The state in which `strlen (temp) > 0` is evaluated while the character `c` is
processed (lines 146 and 190), if the step reaches that test: on a blank with
`quotes == 0` and on a closing quote, in both cases after the pending reference has been
resolved. -/
def testPoint (getenv : Env) (c : Char) (s : State) : Option State :=
  if isBlank c then
    match (if s.env_flag then resolve getenv s else .ok s) with
    | .ok s1 => if s1.quotes = 0 then some s1 else none
    | .fault _ => none
  else if isQuote c then
    if s.quotes = 0 then none
    else
      let s0 : State := { s with quotes := s.quotes - 1 }
      match (if s0.env_flag then resolve getenv s0 else .ok s0) with
      | .ok s1 => some s1
      | .fault _ => none
  else none

/-- The number of characters by which the value of `name` is longer than its reference
`$name`: 0 for an undefined variable and for a value that is not longer. -/
def growth (getenv : Env) (name : List Char) : Nat :=
  match getenv name with
  | some val => strlenL val - (name.length + 1)
  | none => 0

/-- The growth of a list of variables, added up. -/
def growthOf (getenv : Env) (names : List (List Char)) : Nat :=
  (names.map (growth getenv)).sum

/-- The growth of the variables a line references, added up over the calls of `getenv`. -/
def totalGrowth (getenv : Env) (line : List Char) : Nat :=
  growthOf getenv (referenced getenv mallocOk line)

/-- The environment in which only `FOO` is defined, with value `barbaz`. -/
def envLong : Env := fun n => if n = "FOO".toList then some "barbaz".toList else none

/-! ## Facts about the C library helpers -/

theorem slice_length (a : CArray) (start n : Nat) : (slice a start n).length = n := by
  induction n generalizing start with
  | zero => rfl
  | succ n ih => simp [slice, ih]

theorem slice_succ (a : CArray) (start n : Nat) :
    slice a start (n + 1) = slice a start n ++ [a (start + n)] := by
  induction n generalizing start with
  | zero => simp [slice]
  | succ n ih =>
    rw [slice, ih (start + 1), slice]
    simp [Nat.add_assoc, Nat.add_comm 1 n]

theorem slice_congr (a b : CArray) (start n : Nat)
    (h : ∀ j, start ≤ j → j < start + n → a j = b j) : slice a start n = slice b start n := by
  induction n generalizing start with
  | zero => rfl
  | succ n ih =>
    simp only [slice]
    rw [h start (Nat.le_refl _) (by omega), ih (start + 1) (fun j h1 h2 => h j (by omega) (by omega))]

theorem mem_slice (a : CArray) (start n : Nat) (c : Char) (hc : c ∈ slice a start n) :
    ∃ j, start ≤ j ∧ j < start + n ∧ a j = c := by
  induction n generalizing start with
  | zero => simp [slice] at hc
  | succ n ih =>
    simp only [slice, List.mem_cons] at hc
    rcases hc with h | h
    · exact ⟨start, Nat.le_refl _, by omega, h.symm⟩
    · obtain ⟨j, h1, h2, h3⟩ := ih (start + 1) h
      exact ⟨j, by omega, by omega, h3⟩

theorem slice_blit (a : CArray) (i : Nat) (w : List Char) (start : Nat) (hs : start ≤ i) :
    slice (blit a i w) start (i - start + w.length) = slice a start (i - start) ++ w := by
  induction w using List.reverseRecOn with
  | nil =>
    simp only [List.length_nil, Nat.add_zero, List.append_nil]
    apply slice_congr
    intro j _ _
    simp [blit]
  | append_singleton w c ih =>
    have e : i - start + (w ++ [c]).length = (i - start + w.length) + 1 := by simp; omega
    rw [e, slice_succ, ← List.append_assoc, ← ih]
    congr 1
    · apply slice_congr
      intro j h1 h2
      simp only [blit, List.length_append, List.length_singleton]
      by_cases hj : i ≤ j
      · have h3 : j < i + w.length := by omega
        have h4 : j < i + (w.length + 1) := by omega
        simp only [hj, h3, h4, and_self, if_true]
        rw [List.getD_append _ _ _ _ (by omega)]
      · simp [hj]
    · have e2 : start + (i - start + w.length) = i + w.length := by omega
      simp only [blit, e2, List.length_append, List.length_singleton]
      have h5 : i ≤ i + w.length ∧ i + w.length < i + (w.length + 1) := ⟨by omega, by omega⟩
      simp only [h5, and_self, if_true]
      have e3 : i + w.length - i = w.length := by omega
      rw [e3, List.getD_append_right _ _ _ _ (Nat.le_refl _)]
      simp

theorem cstr_slice (a : CArray) (start n fuel : Nat)
    (hne : ∀ j, start ≤ j → j < start + n → a j ≠ NUL) (hz : a (start + n) = NUL)
    (hf : n < fuel) : cstr a start fuel = slice a start n := by
  induction n generalizing start fuel with
  | zero =>
    cases fuel with
    | zero => omega
    | succ f => simp [cstr, slice]; simpa using hz
  | succ n ih =>
    cases fuel with
    | zero => omega
    | succ f =>
      have h0 := hne start (Nat.le_refl _) (by omega)
      simp only [cstr, h0, if_false, slice]
      rw [ih (start + 1) f (fun j h1 h2 => hne j (by omega) (by omega))
        (by rw [← hz]; congr 1; omega) (by omega)]

theorem strlen_pos_iff (a : CArray) (cap : Nat) (hc : 0 < cap) :
    0 < strlen a cap ↔ a 0 ≠ NUL := by
  cases cap with
  | zero => omega
  | succ n =>
    unfold strlen cstr
    by_cases h : a 0 = NUL <;> simp [h]

theorem cstrL_eq_self (v : List Char) (h : ∀ c ∈ v, c ≠ NUL) : cstrL v = v := by
  unfold cstrL
  rw [List.takeWhile_eq_self_iff]
  intro c hc
  simpa using h c hc

theorem cstrL_ne (v : List Char) : ∀ c ∈ cstrL v, c ≠ NUL := by
  intro c hc
  have := List.mem_takeWhile_imp hc
  simpa using this

theorem strncpy_strlenL (v : List Char) : strncpy v (strlenL v) = cstrL v := by
  simp [strncpy, strlenL]

theorem strncpy_of_ne (v : List Char) (h : ∀ c ∈ v, c ≠ NUL) : strncpy v v.length = v := by
  simp [strncpy, cstrL_eq_self v h]

/-! ## The list view computes what the code computes -/

theorem slice_store_ge (a : CArray) (i : Nat) (c : Char) (start n : Nat) (h : start + n ≤ i) :
    slice (store a i c) start n = slice a start n := by
  apply slice_congr
  intro j _ h2
  have : j ≠ i := by omega
  simp [store, this]

theorem DOLLAR_ne_NUL : DOLLAR ≠ NUL := by decide

theorem outRep_bind {x : Outcome State} {y : Outcome View} {f : State → Outcome State}
    {g : View → Outcome View} (h : OutRep x y) (hfg : ∀ s v, Rep s v → OutRep (f s) (g v)) :
    OutRep (x.bind f) (y.bind g) := by
  cases x <;> cases y <;> simp only [OutRep] at h
  · exact hfg _ _ h
  · exact h

theorem pushTemp_rep (c : Char) (hc : c ≠ NUL) (s : State) (v : View) (h : Rep s v) :
    OutRep (pushTemp c s) (vPushTemp c v) := by
  obtain ⟨hi, rfl⟩ := h
  unfold pushTemp vPushTemp
  simp only [view, slice_length]
  by_cases hp : s.pos < SIZE
  · simp only [hp, if_true, OutRep, Rep]
    refine ⟨⟨?_, ?_, hi.var_ne, hi.var_pos⟩, ?_⟩
    · intro j hj
      by_cases e : j = s.pos
      · simpa [store, e] using hc
      · simpa [store, e] using hi.temp_ne j (by simp at hj; omega)
    · intro h0; simp at h0
    · simp only [view, slice_succ, Nat.zero_add]
      rw [slice_store_ge _ _ _ _ _ (by omega)]
      simp [store]
  · simp [hp, OutRep]

theorem pushVar_rep (c : Char) (hc : c ≠ NUL) (b : Bool) (s : State) (v : View) (h : Rep s v) :
    OutRep (pushVar c { s with env_flag := b }) (vPushVar c { v with env_flag := b }) := by
  obtain ⟨hi, rfl⟩ := h
  unfold pushVar vPushVar
  simp only [view, slice_length]
  by_cases hp : s.env_var_size < SIZE
  · simp only [hp, if_true, OutRep, Rep]
    refine ⟨⟨hi.temp_ne, hi.temp_zero, ?_, ?_⟩, ?_⟩
    · intro j hj
      by_cases e : j = s.env_var_size
      · simpa [store, e] using hc
      · simpa [store, e] using hi.var_ne j (by simp at hj; omega)
    · intro _; simp
    · simp only [view, slice_succ, Nat.zero_add]
      rw [slice_store_ge _ _ _ _ _ (by omega)]
      simp [store]
  · simp [hp, OutRep]

theorem finalize_rep (malloc : Malloc) (checked : Bool) (s : State) (v : View) (h : Rep s v) :
    OutRep (finalize malloc checked s) (vFinalize malloc checked v) := by
  obtain ⟨hi, rfl⟩ := h
  unfold finalize vFinalize
  simp only [view, slice_length, State.iargc]
  by_cases hp : s.pos < SIZE
  · by_cases hc : s.iargv.length < SIZE
    · by_cases hm : malloc s.iargv.length s.pos = true
      case neg => cases checked <;> simp [hp, hc, hm, OutRep]
      case pos =>
        simp only [hp, hc, hm, if_true, OutRep, Rep]
        refine ⟨⟨?_, ?_, hi.var_ne, hi.var_pos⟩, ?_⟩
        · intro j hj; simp at hj
        · intro _; simp [store]
        · have e1 : cstr (store s.temp s.pos NUL) 0 SIZE = slice s.temp 0 s.pos := by
            rw [cstr_slice _ 0 s.pos SIZE ?_ (by simp [store]) hp]
            · exact slice_store_ge _ _ _ _ _ (by omega)
            · intro j _ hj
              have : j ≠ s.pos := by omega
              simpa [store, this] using hi.temp_ne j (by omega)
          have e2 : strncpy (slice s.temp 0 s.pos) s.pos = slice s.temp 0 s.pos := by
            have := strncpy_of_ne (slice s.temp 0 s.pos) (by
              intro c hc
              obtain ⟨j, _, h2, h3⟩ := mem_slice _ _ _ _ hc
              rw [← h3]; exact hi.temp_ne j (by omega))
            rwa [slice_length] at this
          simp only [view, e1, e2, slice]
    · simp [hp, hc, OutRep]
  · simp [hp, OutRep]

theorem strlen_store_var (s : State) (hi : Inv s) (hp : s.env_var_size < SIZE) :
    cstr (store s.env_var s.env_var_size NUL) 0 SIZE = slice s.env_var 0 s.env_var_size := by
  rw [cstr_slice _ 0 s.env_var_size SIZE ?_ (by simp [store]) hp]
  · exact slice_store_ge _ _ _ _ _ (by omega)
  · intro j _ hj
    have : j ≠ s.env_var_size := by omega
    simpa [store, this] using hi.var_ne j (by omega)

theorem name_store_var (s : State) (hi : Inv s) (hp : s.env_var_size < SIZE)
    (hf : 0 < s.env_var_size) :
    cstr (store s.env_var s.env_var_size NUL) 1 (SIZE - 1)
      = (slice s.env_var 0 s.env_var_size).tail := by
  obtain ⟨n, hn⟩ : ∃ n, s.env_var_size = n + 1 := ⟨s.env_var_size - 1, by omega⟩
  rw [hn, cstr_slice _ 1 n (SIZE - 1) ?_ (by simp [store, Nat.add_comm]) (by omega)]
  · simp only [slice, List.tail_cons, Nat.zero_add]
    exact slice_store_ge _ _ _ _ _ (by omega)
  · intro j _ hj
    have : j ≠ n + 1 := by omega
    simpa [store, this] using hi.var_ne j (by omega)

theorem outRep_map {x : Outcome State} {y : Outcome View} {f : State → State}
    {g : View → View} (h : OutRep x y) (hfg : ∀ s v, Rep s v → Rep (f s) (g v)) :
    OutRep (x.map f) (y.map g) := by
  cases x <;> cases y <;> simp only [OutRep] at h
  · exact hfg _ _ h
  · exact h

theorem resolve_rep (getenv : Env) (s : State) (v : View) (h : Rep s v)
    (hf : s.env_flag = true) : OutRep (resolve getenv s) (vResolve getenv v) := by
  obtain ⟨hi, rfl⟩ := h
  have hpos := hi.var_pos hf
  unfold resolve vResolve
  simp only [view, slice_length]
  by_cases hp : s.env_var_size < SIZE
  · simp only [hp, if_true, strlen, strlen_store_var s hi hp, name_store_var s hi hp hpos,
      slice_length]
    by_cases h1 : s.env_var_size = 1
    · rw [if_pos h1, if_pos h1]
      unfold pushTemp vPushTemp
      simp only [slice_length]
      by_cases hpp : s.pos < SIZE
      · simp only [hpp, if_true, Outcome.map, OutRep]
        refine ⟨⟨?_, ?_, fun j hj => by simp at hj, fun h0 => by simp at h0⟩, ?_⟩
        · intro j hj
          by_cases e : j = s.pos
          · simpa [store, e] using DOLLAR_ne_NUL
          · simpa [store, e] using hi.temp_ne j (by simp at hj; omega)
        · intro h0; simp at h0
        · simp only [view, slice_succ, Nat.zero_add]
          rw [slice_store_ge _ _ _ _ _ (by omega)]
          simp [store, slice]
      · simp [hpp, Outcome.map, OutRep]
    · rw [if_neg h1, if_neg h1]
      cases hg : getenv (slice s.env_var 0 s.env_var_size).tail with
      | none =>
        simp only [OutRep]
        exact ⟨⟨hi.temp_ne, hi.temp_zero, fun j hj => by simp at hj, fun h0 => by simp at h0⟩,
          by simp [view, slice]⟩
      | some val =>
        simp only [strncpy_strlenL]
        by_cases hb : strlenL val = 0 ∨ s.pos + strlenL val ≤ SIZE
        · simp only [hb, if_true, OutRep]
          refine ⟨⟨?_, ?_, fun j hj => by simp at hj, fun h0 => by simp at h0⟩, ?_⟩
          · intro j hj
            simp only [blit]
            by_cases hr : s.pos ≤ j ∧ j < s.pos + (cstrL val).length
            · simp only [hr, and_self, if_true]
              rw [List.getD_eq_getElem _ _ (by omega)]
              exact cstrL_ne val _ (List.getElem_mem _)
            · simp only [hr, if_false]
              apply hi.temp_ne
              simp only [strlenL] at hj
              by_contra hlt
              exact hr ⟨by omega, hj⟩
          · intro h0
            simp only [strlenL] at h0
            have hp0 : s.pos = 0 := by omega
            have hl0 : (cstrL val).length = 0 := by omega
            simp only [blit, hl0, hp0]
            simpa using hi.temp_zero hp0
          · have := slice_blit s.temp s.pos (cstrL val) 0 (Nat.zero_le _)
            simp only [Nat.sub_zero] at this
            simp [view, strlenL, this, slice]
        · simp [hb, OutRep]
  · simp [hp, OutRep]

theorem strlen_temp_pos (s : State) (hi : Inv s) : 0 < strlen s.temp SIZE ↔ 0 < s.pos := by
  rw [strlen_pos_iff _ _ (by decide)]
  constructor
  · intro h
    by_contra h0
    exact h (hi.temp_zero (by omega))
  · intro h
    exact hi.temp_ne 0 h

theorem maybeResolve_rep (getenv : Env) (s : State) (v : View) (h : Rep s v) :
    OutRep (if s.env_flag = true then resolve getenv s else .ok s)
      (if v.env_flag = true then vResolve getenv v else .ok v) := by
  have e : v.env_flag = s.env_flag := by rw [← h.2]; rfl
  rw [e]
  by_cases hf : s.env_flag = true
  · simp only [hf, if_true]
    exact resolve_rep getenv s v h hf
  · simp only [hf, if_false]
    exact h

theorem maybeFinalize_rep (malloc : Malloc) (checked : Bool) (s : State) (v : View)
    (h : Rep s v) :
    OutRep (if 0 < strlen s.temp SIZE then finalize malloc checked s else .ok s)
      (if 0 < v.tok.length then vFinalize malloc checked v else .ok v) := by
  have e : v.tok.length = s.pos := by rw [← h.2]; simp [view, slice_length]
  rw [e]
  by_cases hf : 0 < s.pos
  · simp only [hf, (strlen_temp_pos s h.1).mpr hf, if_true]
    exact finalize_rep malloc checked s v h
  · have : ¬ 0 < strlen s.temp SIZE := fun hh => hf ((strlen_temp_pos s h.1).mp hh)
    simp only [hf, this, if_false]
    exact h

theorem stepBlank_rep (getenv : Env) (malloc : Malloc) (c : Char) (hc : c ≠ NUL)
    (s : State) (v : View) (h : Rep s v) :
    OutRep (stepBlank getenv malloc c s) (vStepBlank getenv malloc c v) := by
  unfold stepBlank vStepBlank
  refine outRep_bind (maybeResolve_rep getenv s v h) ?_
  intro s1 v1 h1
  have e : v1.quotes = s1.quotes := by rw [← h1.2]; rfl
  rw [e]
  by_cases hq : s1.quotes = 0
  · simp only [hq, if_true]
    exact maybeFinalize_rep malloc true s1 v1 h1
  · simp only [hq, if_false]
    exact pushTemp_rep c hc s1 v1 h1

theorem stepQuote_rep (getenv : Env) (malloc : Malloc) (s : State) (v : View) (h : Rep s v) :
    OutRep (stepQuote getenv malloc s) (vStepQuote getenv malloc v) := by
  unfold stepQuote vStepQuote
  have e : v.quotes = s.quotes := by rw [← h.2]; rfl
  rw [e]
  by_cases hq : s.quotes = 0
  · simp only [hq, if_true, OutRep]
    exact ⟨⟨h.1.temp_ne, h.1.temp_zero, h.1.var_ne, h.1.var_pos⟩, by rw [← h.2]; simp [view, hq]⟩
  · simp only [hq, if_false]
    have h0 : Rep { s with quotes := s.quotes - 1 } { v with quotes := s.quotes - 1 } :=
      ⟨⟨h.1.temp_ne, h.1.temp_zero, h.1.var_ne, h.1.var_pos⟩, by rw [← h.2]; simp [view]⟩
    refine outRep_bind (maybeResolve_rep getenv _ _ h0) ?_
    intro s1 v1 h1
    exact maybeFinalize_rep malloc false s1 v1 h1

theorem step_rep (getenv : Env) (malloc : Malloc) (c : Char) (hc : c ≠ NUL)
    (s : State) (v : View) (h : Rep s v) :
    OutRep (step getenv malloc c s) (vStep getenv malloc c v) := by
  unfold step vStep
  have e : v.env_flag = s.env_flag := by rw [← h.2]; rfl
  rw [e]
  by_cases h1 : isBlank c = true
  · rw [if_pos h1, if_pos h1]; exact stepBlank_rep getenv malloc c hc s v h
  · rw [if_neg h1, if_neg h1]
    by_cases h2 : isQuote c = true
    · rw [if_pos h2, if_pos h2]; exact stepQuote_rep getenv malloc s v h
    · rw [if_neg h2, if_neg h2]
      by_cases h3 : c = DOLLAR
      · rw [if_pos h3, if_pos h3]
        exact pushVar_rep c hc true s v h
      · rw [if_neg h3, if_neg h3]
        by_cases h4 : s.env_flag = true
        · rw [if_pos h4, if_pos h4]
          have hv : ({ v with env_flag := s.env_flag } : View) = v := by rw [← e]
          have := pushVar_rep c hc s.env_flag s v h
          rw [hv] at this
          exact this
        · rw [if_neg h4, if_neg h4]
          exact pushTemp_rep c hc s v h

theorem scan_rep (getenv : Env) (malloc : Malloc) (cs : List Char) (hcs : ∀ c ∈ cs, c ≠ NUL)
    (s : State) (v : View) (h : Rep s v) :
    OutRep (scan getenv malloc cs s) (vScan getenv malloc cs v) := by
  induction cs generalizing s v with
  | nil => exact h
  | cons c cs ih =>
    simp only [scan, vScan]
    refine outRep_bind (step_rep getenv malloc c (hcs c (List.mem_cons_self _ _)) s v h) ?_
    intro s1 v1 h1
    exact ih (fun d hd => hcs d (List.mem_cons_of_mem _ hd)) s1 v1 h1

theorem initState_rep (arg0 : List Char) : Rep (initState arg0) (initView arg0) :=
  ⟨⟨fun j hj => by simp [initState] at hj, fun _ => rfl, fun j hj => by simp [initState] at hj,
    fun h => by simp [initState] at h⟩, rfl⟩

/-- The result of `run`, read off the list view of the scan. -/
theorem run_eq_view (getenv : Env) (malloc : Malloc) (arg0 str : List Char) :
    run getenv malloc arg0 str
      = (vScan getenv malloc (cstrL str) (initView arg0)).map fun v => (v.out.length, v.out) := by
  have h := scan_rep getenv malloc (cstrL str) (cstrL_ne str) _ _ (initState_rep arg0)
  unfold run
  revert h
  cases scan getenv malloc (cstrL str) (initState arg0) <;>
    cases vScan getenv malloc (cstrL str) (initView arg0) <;>
    simp only [OutRep, Outcome.map, imp_self, false_imp_iff]
  · rintro ⟨_, rfl⟩; rfl
  · rintro rfl; rfl

/-- The result of `tokenize`, read off the list view of the scan. -/
theorem tokenize_eq_view (getenv : Env) (line : List Char) :
    tokenize getenv line
      = (vScan getenv mallocOk (cstrL line) (initView [])).map fun v => v.out.tail := by
  unfold tokenize
  rw [run_eq_view]
  cases vScan getenv mallocOk (cstrL line) (initView []) <;> rfl

/-! ## The scan on the list view: words, names, independence of the environment -/

theorem bind_ok_eq {α β : Type} (a : α) (f : α → Outcome β) : (Outcome.ok a).bind f = f a := rfl

theorem vScan_append (getenv : Env) (malloc : Malloc) (cs ds : List Char) (v : View) :
    vScan getenv malloc (cs ++ ds) v = (vScan getenv malloc cs v).bind (vScan getenv malloc ds) := by
  induction cs generalizing v with
  | nil => rfl
  | cons c cs ih =>
    simp only [List.cons_append, vScan]
    cases vStep getenv malloc c v with
    | ok v1 => exact ih v1
    | fault e => rfl

theorem vScan_word (getenv : Env) (malloc : Malloc) (w : List Char)
    (hw : ∀ c ∈ w, isBlank c = false ∧ isQuote c = false ∧ c ≠ DOLLAR) (v : View)
    (hf : v.env_flag = false) (hcap : v.tok.length + w.length ≤ SIZE) :
    vScan getenv malloc w v = .ok { v with tok := v.tok ++ w } := by
  induction w generalizing v with
  | nil => simp [vScan]
  | cons c w ih =>
    obtain ⟨h1, h2, h3⟩ := hw c (List.mem_cons_self _ _)
    have hlt : v.tok.length < SIZE := by simp at hcap; omega
    simp only [vScan, vStep, h1, h2, h3, hf, vPushTemp, hlt, if_true, if_false, bind_ok_eq,
      Bool.false_eq_true]
    rw [ih (fun d hd => hw d (List.mem_cons_of_mem _ hd)) _ rfl (by simp at hcap ⊢; omega)]
    simp

theorem vScan_name (getenv : Env) (malloc : Malloc) (w : List Char)
    (hw : ∀ c ∈ w, isBlank c = false ∧ isQuote c = false) (v : View)
    (hf : v.env_flag = true) (hcap : v.var.length + w.length ≤ SIZE) :
    vScan getenv malloc w v = .ok { v with var := v.var ++ w } := by
  induction w generalizing v with
  | nil => simp [vScan]
  | cons c w ih =>
    obtain ⟨h1, h2⟩ := hw c (List.mem_cons_self _ _)
    have hlt : v.var.length < SIZE := by simp at hcap; omega
    have hv : ({ v with env_flag := true } : View) = v := by rw [← hf]
    simp only [vScan, vStep, h1, h2, hf, hv, vPushVar, hlt, if_true, if_false, bind_ok_eq,
      Bool.false_eq_true, ite_self]
    rw [ih (fun d hd => hw d (List.mem_cons_of_mem _ hd)) _ rfl (by simp at hcap ⊢; omega)]
    simp

/-- A step on a character other than `$`, with no reference pending, does not
consult the environment and leaves no reference pending. -/
theorem vStep_noDollar (g1 g2 : Env) (malloc : Malloc) (c : Char) (hc : c ≠ DOLLAR) (v : View)
    (hf : v.env_flag = false) :
    vStep g1 malloc c v = vStep g2 malloc c v ∧
      ∀ v1, vStep g1 malloc c v = .ok v1 → v1.env_flag = false := by
  unfold vStep vStepBlank vStepQuote vFinalize vPushTemp
  simp only [hc, hf, if_false, Bool.false_eq_true, bind_ok_eq, true_and]
  intro v1
  split_ifs <;> intro h <;> simp only [Outcome.ok.injEq, reduceCtorEq] at h <;> subst h <;> first | rfl | exact hf

theorem vScan_noDollar (g1 g2 : Env) (malloc : Malloc) (cs : List Char) (hcs : DOLLAR ∉ cs)
    (v : View) (hf : v.env_flag = false) :
    vScan g1 malloc cs v = vScan g2 malloc cs v := by
  induction cs generalizing v with
  | nil => rfl
  | cons c cs ih =>
    have hc : c ≠ DOLLAR := fun e => hcs (by simp [e])
    obtain ⟨h1, h2⟩ := vStep_noDollar g1 g2 malloc c hc v hf
    simp only [vScan, ← h1]
    cases hs : vStep g1 malloc c v with
    | ok v1 => exact ih (fun hm => hcs (List.mem_cons_of_mem _ hm)) v1 (h2 v1 hs)
    | fault e => rfl

/-- A line without `$` is tokenized the same way in every environment. -/
theorem tokenize_noDollar (g1 g2 : Env) (line : List Char) (h : DOLLAR ∉ line) :
    tokenize g1 line = tokenize g2 line := by
  rw [tokenize_eq_view, tokenize_eq_view,
    vScan_noDollar g1 g2 mallocOk (cstrL line)
      (fun hm => h (List.takeWhile_subset _ hm)) _ rfl]

/-! ## The program name in `iargv[0]` does not influence the scan -/

theorem outcomeRel_bind {α β : Type} {R : α → β → Prop} {x : Outcome α} {y : Outcome β}
    {f : α → Outcome α} {g : β → Outcome β} (h : Outcome.Rel R x y)
    (hfg : ∀ a b, R a b → Outcome.Rel R (f a) (g b)) : Outcome.Rel R (x.bind f) (y.bind g) := by
  cases x <;> cases y <;> simp only [Outcome.Rel] at h
  · exact hfg _ _ h
  · exact h

theorem vPushTemp_relabel (p : List Char) (c : Char) (v w : View) (h : Relabelled p v w) :
    Outcome.Rel (Relabelled p) (vPushTemp c v) (vPushTemp c w) := by
  obtain ⟨h1, rfl⟩ := h
  unfold vPushTemp relabel
  by_cases hc : v.tok.length < SIZE
  · simp only [hc, if_true, Outcome.Rel]; exact ⟨h1, rfl⟩
  · simp only [hc, if_false, Outcome.Rel]

theorem vPushVar_relabel (p : List Char) (c : Char) (b : Bool) (v w : View)
    (h : Relabelled p v w) :
    Outcome.Rel (Relabelled p) (vPushVar c { v with env_flag := b })
      (vPushVar c { w with env_flag := b }) := by
  obtain ⟨h1, rfl⟩ := h
  unfold vPushVar relabel
  by_cases hc : v.var.length < SIZE
  · simp only [hc, if_true, Outcome.Rel]; exact ⟨h1, rfl⟩
  · simp only [hc, if_false, Outcome.Rel]

theorem vResolve_relabel (getenv : Env) (p : List Char) (v w : View) (h : Relabelled p v w) :
    Outcome.Rel (Relabelled p) (vResolve getenv v) (vResolve getenv w) := by
  obtain ⟨h1, rfl⟩ := h
  unfold vResolve vPushTemp relabel
  simp only
  by_cases hc : v.var.length < SIZE
  · rw [if_pos hc, if_pos hc]
    by_cases h2 : v.var.length = 1
    · rw [if_pos h2, if_pos h2]
      by_cases h3 : v.tok.length < SIZE
      · rw [if_pos h3, if_pos h3]; exact ⟨h1, rfl⟩
      · rw [if_neg h3, if_neg h3]; rfl
    · rw [if_neg h2, if_neg h2]
      cases getenv v.var.tail with
      | none => exact ⟨h1, rfl⟩
      | some val =>
        simp only
        by_cases h4 : strlenL val = 0 ∨ v.tok.length + strlenL val ≤ SIZE
        · rw [if_pos h4, if_pos h4]; exact ⟨h1, rfl⟩
        · rw [if_neg h4, if_neg h4]; rfl
  · rw [if_neg hc, if_neg hc]; rfl

theorem vFinalize_relabel (malloc : Malloc) (checked : Bool) (p : List Char) (v w : View)
    (h : Relabelled p v w) :
    Outcome.Rel (Relabelled p) (vFinalize malloc checked v) (vFinalize malloc checked w) := by
  obtain ⟨h1, rfl⟩ := h
  obtain ⟨a, o, ho⟩ := List.exists_cons_of_ne_nil h1
  unfold vFinalize relabel
  simp only [ho, List.tail_cons, List.length_cons]
  by_cases hc : v.tok.length < SIZE
  · by_cases h2 : o.length + 1 < SIZE
    · by_cases h3 : malloc (o.length + 1) v.tok.length = true
      · simp only [hc, h2, h3, if_true, Outcome.Rel]
        exact ⟨by simp, by simp [relabel, ho]⟩
      · cases checked <;> simp [hc, h2, h3, Outcome.Rel]
    · simp only [hc, h2, if_true, if_false, Outcome.Rel]
  · simp only [hc, if_false, Outcome.Rel]

theorem vMaybeResolve_relabel (getenv : Env) (p : List Char) (v w : View)
    (h : Relabelled p v w) :
    Outcome.Rel (Relabelled p) (if v.env_flag = true then vResolve getenv v else .ok v)
      (if w.env_flag = true then vResolve getenv w else .ok w) := by
  have e1 : w.env_flag = v.env_flag := by rw [h.2]; rfl
  by_cases hf : v.env_flag = true
  · rw [if_pos hf, if_pos (e1.trans hf)]; exact vResolve_relabel getenv p v w h
  · rw [if_neg hf, if_neg (by rw [e1]; exact hf)]; exact h

theorem vMaybeFinalize_relabel (malloc : Malloc) (checked : Bool) (p : List Char) (v w : View)
    (h : Relabelled p v w) :
    Outcome.Rel (Relabelled p) (if 0 < v.tok.length then vFinalize malloc checked v else .ok v)
      (if 0 < w.tok.length then vFinalize malloc checked w else .ok w) := by
  have e1 : w.tok = v.tok := by rw [h.2]; rfl
  by_cases hf : 0 < v.tok.length
  · rw [if_pos hf, if_pos (by rw [e1]; exact hf)]; exact vFinalize_relabel malloc checked p v w h
  · rw [if_neg hf, if_neg (by rw [e1]; exact hf)]; exact h

theorem vStep_relabel (getenv : Env) (malloc : Malloc) (p : List Char) (c : Char) (v w : View)
    (h : Relabelled p v w) :
    Outcome.Rel (Relabelled p) (vStep getenv malloc c v) (vStep getenv malloc c w) := by
  have e1 : w.env_flag = v.env_flag := by rw [h.2]; rfl
  have e2 : w.quotes = v.quotes := by rw [h.2]; rfl
  unfold vStep vStepBlank vStepQuote
  by_cases h1 : isBlank c = true
  · rw [if_pos h1, if_pos h1]
    refine outcomeRel_bind (vMaybeResolve_relabel getenv p v w h) ?_
    intro a b hab
    have e4 : b.quotes = a.quotes := by rw [hab.2]; rfl
    by_cases hq : a.quotes = 0
    · rw [if_pos hq, if_pos (e4.trans hq)]; exact vMaybeFinalize_relabel malloc true p a b hab
    · rw [if_neg hq, if_neg (by rw [e4]; exact hq)]; exact vPushTemp_relabel p c a b hab
  · rw [if_neg h1, if_neg h1]
    by_cases h2 : isQuote c = true
    · rw [if_pos h2, if_pos h2]
      by_cases hq : v.quotes = 0
      · rw [if_pos hq, if_pos (e2.trans hq)]
        exact ⟨h.1, by rw [h.2]; rfl⟩
      · rw [if_neg hq, if_neg (by rw [e2]; exact hq)]
        have h0 : Relabelled p { v with quotes := v.quotes - 1 }
            { w with quotes := w.quotes - 1 } := ⟨h.1, by rw [h.2]; rfl⟩
        exact outcomeRel_bind (vMaybeResolve_relabel getenv p _ _ h0)
          (vMaybeFinalize_relabel malloc false p)
    · rw [if_neg h2, if_neg h2]
      by_cases h3 : c = DOLLAR
      · rw [if_pos h3, if_pos h3]; exact vPushVar_relabel p c true v w h
      · rw [if_neg h3, if_neg h3]
        by_cases h4 : v.env_flag = true
        · rw [if_pos h4, if_pos (e1.trans h4)]
          have hw : ({ w with env_flag := v.env_flag } : View) = w := by rw [← e1]
          have t := vPushVar_relabel p c v.env_flag v w h
          rw [hw] at t
          exact t
        · rw [if_neg h4, if_neg (by rw [e1]; exact h4)]; exact vPushTemp_relabel p c v w h

theorem vScan_relabel (getenv : Env) (malloc : Malloc) (p : List Char) (cs : List Char)
    (v w : View) (h : Relabelled p v w) :
    Outcome.Rel (Relabelled p) (vScan getenv malloc cs v) (vScan getenv malloc cs w) := by
  induction cs generalizing v w with
  | nil => exact h
  | cons c cs ih =>
    simp only [vScan]
    exact outcomeRel_bind (vStep_relabel getenv malloc p c v w h) ih

/-- The run under the program name `p`, from the run under the empty name. -/
theorem run_arg0 (getenv : Env) (malloc : Malloc) (p line : List Char) :
    run getenv malloc p line
      = (scanTokens getenv malloc line).map fun toks => (toks.length + 1, p :: toks) := by
  have h := vScan_relabel getenv malloc p (cstrL line) (initView []) (initView p)
    ⟨by simp [initView], rfl⟩
  unfold scanTokens
  rw [run_eq_view, run_eq_view]
  revert h
  cases vScan getenv malloc (cstrL line) (initView []) <;>
    cases vScan getenv malloc (cstrL line) (initView p) <;>
    simp only [Outcome.Rel, Outcome.map, imp_self, false_imp_iff]
  · rintro ⟨h1, rfl⟩
    obtain ⟨a, o, ho⟩ := List.exists_cons_of_ne_nil h1
    simp [relabel, ho]
  · rintro rfl; rfl

/-- C1. For every argument list with program name `P` in element 0, every line obtained
from the input, every environment and every allocator, `initialize_main` ends as the scan
of the line ends, and when the scan stores the tokens `toks` it returns the vector
`P :: toks` with the count `toks.length + 1`: element 0 is `P`, the elements after it are
the stored tokens in order, and the other original arguments are gone. -/
theorem initialize_main_frame (getenv : Env) (malloc : Malloc) (P : List Char)
    (rest : List (List Char)) (stdin line : List Char) (hline : fgets SIZE stdin = some line) :
    initialize_main getenv malloc (P :: rest) stdin
      = (scanTokens getenv malloc line).map fun toks => (toks.length + 1, P :: toks) := by
  unfold initialize_main
  rw [hline]
  exact run_arg0 getenv malloc P line

/-- C1, at the line `-f "/tmp/my link" ` with its newline and the program name `readlink`. -/
theorem initialize_main_frame_witness :
    fgets SIZE "-f \"/tmp/my link\" \nnext line\n".toList = some "-f \"/tmp/my link\" \n".toList ∧
    initialize_main envFoo mallocOk ["readlink".toList, "-n".toList, "x".toList]
        "-f \"/tmp/my link\" \nnext line\n".toList
      = .ok (3, ["readlink".toList, "-f".toList, "/tmp/my link".toList]) :=
  ⟨by decide,
   (initialize_main_frame envFoo mallocOk "readlink".toList ["-n".toList, "x".toList]
      "-f \"/tmp/my link\" \nnext line\n".toList "-f \"/tmp/my link\" \n".toList
      (by decide)).trans (by decide)⟩

/-! ## Words separated by blanks -/

theorem ordinary_iff (c : Char) :
    ordinary c = true ↔ isBlank c = false ∧ isQuote c = false ∧ c ≠ DOLLAR ∧ c ≠ NUL := by
  simp [ordinary, and_assoc]

theorem isBlank_ne_NUL (c : Char) (h : isBlank c = true) : c ≠ NUL := by
  intro e; subst e; revert h; decide

theorem isQuote_ne_NUL (c : Char) (h : isQuote c = true) : c ≠ NUL := by
  intro e; subst e; revert h; decide

/-- A blank that follows a token, outside quotes and with no reference pending, stores
the token. -/
theorem vStep_blank_store (getenv : Env) (c : Char) (hc : isBlank c = true) (v : View)
    (hf : v.env_flag = false) (hq : v.quotes = 0) (ht : 0 < v.tok.length)
    (hcap : v.tok.length < SIZE) (hout : v.out.length < SIZE) :
    vStep getenv mallocOk c v = .ok { v with out := v.out ++ [v.tok], tok := [] } := by
  simp [vStep, vStepBlank, vFinalize, mallocOk, hc, hf, hq, ht, hcap, hout, bind_ok_eq]

/-- A blank outside quotes with nothing pending and an empty token buffer does nothing. -/
theorem vStep_blank_idle (getenv : Env) (malloc : Malloc) (c : Char) (hc : isBlank c = true)
    (v : View) (hf : v.env_flag = false) (hq : v.quotes = 0) (ht : v.tok = []) :
    vStep getenv malloc c v = .ok v := by
  simp [vStep, vStepBlank, hc, hf, hq, ht, bind_ok_eq]

theorem vScan_word_blank (getenv : Env) (w : List Char) (c : Char)
    (hw : ∀ d ∈ w, ordinary d = true) (hne : w ≠ []) (hc : isBlank c = true) (v : View)
    (hf : v.env_flag = false) (hq : v.quotes = 0) (ht : v.tok = [])
    (hcap : w.length < SIZE) (hout : v.out.length < SIZE) :
    vScan getenv mallocOk (w ++ [c]) v = .ok { v with out := v.out ++ [w] } := by
  obtain ⟨out, tok, var, quotes, flag⟩ := v
  simp only at hf hq ht hout
  subst hf hq ht
  rw [vScan_append, vScan_word getenv mallocOk w
    (fun d hd => by
      have := (ordinary_iff d).mp (hw d hd)
      exact ⟨this.1, this.2.1, this.2.2.1⟩) _ rfl (by simp; omega)]
  simp only [bind_ok_eq, vScan, List.nil_append]
  rw [vStep_blank_store getenv c hc _ rfl rfl (List.length_pos.mpr hne) hcap hout]
  rfl

theorem vScan_words (getenv : Env) (words : List (List Char)) (c : Char)
    (hw : ∀ w ∈ words, w ≠ [] ∧ ∀ d ∈ w, ordinary d = true) (hc : isBlank c = true)
    (v : View) (hf : v.env_flag = false) (hq : v.quotes = 0) (ht : v.tok = [])
    (hcap : v.out.length + ([SPACE].intercalate words ++ [c]).length ≤ SIZE) :
    vScan getenv mallocOk ([SPACE].intercalate words ++ [c]) v
      = .ok { v with out := v.out ++ words } := by
  induction words generalizing v with
  | nil =>
    simp only [List.intercalate, List.intersperse, List.flatten, List.nil_append, vScan]
    rw [vStep_blank_idle getenv mallocOk c hc v hf hq ht]
    simp [bind_ok_eq]
  | cons w ws ih =>
    obtain ⟨hne, hord⟩ := hw w (List.mem_cons_self _ _)
    cases ws with
    | nil =>
      have e : [SPACE].intercalate [w] ++ [c] = w ++ [c] := by
        simp [List.intercalate, List.intersperse, List.flatten]
      rw [e] at hcap ⊢
      rw [vScan_word_blank getenv w c hord hne hc v hf hq ht
        (by simp at hcap; omega) (by simp at hcap; omega)]
    | cons w2 ws =>
      have e : [SPACE].intercalate (w :: w2 :: ws) ++ [c]
          = (w ++ [SPACE]) ++ ([SPACE].intercalate (w2 :: ws) ++ [c]) := by
        simp [List.intercalate, List.intersperse, List.flatten]
      rw [e] at hcap ⊢
      obtain ⟨out, tok, var, quotes, flag⟩ := v
      simp only at hf hq ht hcap
      subst hf hq ht
      rw [vScan_append, vScan_word_blank getenv w SPACE hord hne (by decide) _ rfl rfl rfl
        (by simp at hcap; omega) (by simp at hcap ⊢; omega)]
      simp only [bind_ok_eq]
      rw [ih (fun x hx => hw x (List.mem_cons_of_mem _ hx)) _ rfl rfl rfl
        (by simp at hcap ⊢; omega)]
      simp

theorem mem_intercalate (sep : List Char) (words : List (List Char)) (d : Char)
    (hd : d ∈ sep.intercalate words) : d ∈ sep ∨ ∃ w ∈ words, d ∈ w := by
  induction words with
  | nil => simp [List.intercalate, List.intersperse, List.flatten] at hd
  | cons w ws ih =>
    cases ws with
    | nil =>
      have e : sep.intercalate [w] = w := by
        simp [List.intercalate, List.intersperse, List.flatten]
      rw [e] at hd
      exact Or.inr ⟨w, List.mem_cons_self _ _, hd⟩
    | cons w2 ws =>
      have e : sep.intercalate (w :: w2 :: ws) = w ++ sep ++ sep.intercalate (w2 :: ws) := by
        simp [List.intercalate, List.intersperse, List.flatten]
      rw [e] at hd
      simp only [List.mem_append] at hd
      rcases hd with (h | h) | h
      · exact Or.inr ⟨w, List.mem_cons_self _ _, h⟩
      · exact Or.inl h
      · rcases ih h with h1 | ⟨x, hx, hdx⟩
        · exact Or.inl h1
        · exact Or.inr ⟨x, List.mem_cons_of_mem _ hx, hdx⟩

theorem cstrL_words (words : List (List Char)) (c : Char)
    (hw : ∀ w ∈ words, w ≠ [] ∧ ∀ d ∈ w, ordinary d = true) (hc : isBlank c = true) :
    cstrL ([SPACE].intercalate words ++ [c]) = [SPACE].intercalate words ++ [c] := by
  apply cstrL_eq_self
  intro d hd
  simp only [List.mem_append, List.mem_singleton] at hd
  rcases hd with hd | hd
  · rcases mem_intercalate _ _ _ hd with h1 | ⟨w, hw1, hdw⟩
    · simp only [List.mem_singleton] at h1
      subst h1; decide
    · exact ((ordinary_iff d).mp ((hw w hw1).2 d hdw)).2.2.2
  · subst hd; exact isBlank_ne_NUL _ hc

/-- C2. For every environment and every list of non-empty words of ordinary characters
(no blank, no quote, no `$`, no NUL), the line made of the words joined by single spaces
and a final newline, when it fits the line buffer, is tokenized to exactly these words in
order. -/
theorem tokenize_words (getenv : Env) (words : List (List Char))
    (hw : ∀ w ∈ words, w ≠ [] ∧ ∀ d ∈ w, ordinary d = true)
    (hlen : ([SPACE].intercalate words ++ [NEWLINE]).length < SIZE) :
    tokenize getenv ([SPACE].intercalate words ++ [NEWLINE]) = .ok words := by
  rw [tokenize_eq_view, cstrL_words words NEWLINE hw (by decide),
    vScan_words getenv words NEWLINE hw (by decide) _ rfl rfl rfl
      (by simp only [initView, List.length_singleton]; omega)]
  simp [Outcome.map, initView]

/-- C2, at the words `-f` and `/tmp/x`. -/
theorem tokenize_words_witness :
    ((∀ w ∈ ["-f".toList, "/tmp/x".toList], w ≠ [] ∧ ∀ d ∈ w, ordinary d = true) ∧
      ([SPACE].intercalate ["-f".toList, "/tmp/x".toList] ++ [NEWLINE]).length < SIZE) ∧
    tokenize envFoo "-f /tmp/x\n".toList = .ok ["-f".toList, "/tmp/x".toList] :=
  ⟨⟨by decide, by decide⟩,
   tokenize_words envFoo ["-f".toList, "/tmp/x".toList] (by decide) (by decide)⟩

/-! ## Quoted regions -/

theorem isQuote_cases (c : Char) (h : isQuote c = true) : c = DQUOTE ∨ c = SQUOTE := by
  simpa [isQuote] using h

theorem isQuote_not_blank (c : Char) (h : isQuote c = true) : isBlank c = false := by
  rcases isQuote_cases c h with e | e <;> subst e <;> decide

theorem isQuote_ne_DOLLAR (c : Char) (h : isQuote c = true) : c ≠ DOLLAR := by
  rcases isQuote_cases c h with e | e <;> subst e <;> decide

theorem vScan_cons (getenv : Env) (malloc : Malloc) (c : Char) (cs : List Char) (v : View) :
    vScan getenv malloc (c :: cs) v = (vStep getenv malloc c v).bind (vScan getenv malloc cs) :=
  rfl

/-- An opening quote only sets the counter `quotes`. -/
theorem vStep_quote_open (getenv : Env) (malloc : Malloc) (c : Char) (hc : isQuote c = true)
    (v : View) (hq : v.quotes = 0) :
    vStep getenv malloc c v = .ok { v with quotes := 1 } := by
  simp [vStep, vStepQuote, hc, isQuote_not_blank c hc, hq]

/-- A closing quote with no reference pending stores the token, when there is one. -/
theorem vStep_quote_close (getenv : Env) (c : Char) (hc : isQuote c = true) (v : View)
    (hf : v.env_flag = false) (hq : v.quotes ≠ 0) (ht : 0 < v.tok.length)
    (hcap : v.tok.length < SIZE) (hout : v.out.length < SIZE) :
    vStep getenv mallocOk c v
      = .ok { v with out := v.out ++ [v.tok], tok := [], quotes := v.quotes - 1 } := by
  simp [vStep, vStepQuote, vFinalize, mallocOk, hc, isQuote_not_blank c hc, hf, hq, ht, hcap,
    hout, bind_ok_eq]

/-- Inside quotes, with no reference pending, every character that is neither a quote
nor `$` is appended to the token: blanks are data. -/
theorem vScan_quoted (getenv : Env) (malloc : Malloc) (s : List Char)
    (hs : ∀ c ∈ s, isQuote c = false ∧ c ≠ DOLLAR) (v : View)
    (hf : v.env_flag = false) (hq : v.quotes ≠ 0) (hcap : v.tok.length + s.length ≤ SIZE) :
    vScan getenv malloc s v = .ok { v with tok := v.tok ++ s } := by
  induction s generalizing v with
  | nil => simp [vScan]
  | cons c s ih =>
    obtain ⟨h2, h3⟩ := hs c (List.mem_cons_self _ _)
    have hlt : v.tok.length < SIZE := by simp at hcap; omega
    have hstep : vStep getenv malloc c v = .ok { v with tok := v.tok ++ [c] } := by
      by_cases h1 : isBlank c = true
      · simp [vStep, vStepBlank, vPushTemp, h1, hf, hq, hlt, bind_ok_eq]
      · simp [vStep, vPushTemp, h1, h2, h3, hf, hlt]
    simp only [vScan, hstep, bind_ok_eq]
    rw [ih (fun d hd => hs d (List.mem_cons_of_mem _ hd)) { v with tok := v.tok ++ [c] } hf hq
      (by simp at hcap ⊢; omega)]
    simp

/-- C3. Blanks inside a quoted region are data: for every environment, every two quote
characters `q1` and `q2` and every non-empty string `s` without quote, `$` and NUL (blanks
allowed), the line `q1 s q2`, when it fits the line buffer, is tokenized to the one token
`s`; and the line `"a b" c` with its newline is tokenized to `a b` and `c`. -/
theorem tokenize_quoted (getenv : Env) (q1 q2 : Char) (s : List Char)
    (hq1 : isQuote q1 = true) (hq2 : isQuote q2 = true) (hne : s ≠ [])
    (hs : ∀ c ∈ s, isQuote c = false ∧ c ≠ DOLLAR ∧ c ≠ NUL)
    (hlen : (q1 :: s ++ [q2]).length < SIZE) :
    tokenize getenv (q1 :: s ++ [q2]) = .ok [s] ∧
    tokenize getenv (DQUOTE :: "a b".toList ++ DQUOTE :: " c".toList ++ [NEWLINE])
      = .ok ["a b".toList, "c".toList] := by
  refine ⟨?_, rfl⟩
  have hn : cstrL (q1 :: s ++ [q2]) = q1 :: s ++ [q2] := by
    apply cstrL_eq_self
    intro d hd
    simp only [List.cons_append, List.mem_cons, List.mem_append, List.mem_singleton,
      List.not_mem_nil, or_false] at hd
    rcases hd with e | h | e
    · subst e; exact isQuote_ne_NUL _ hq1
    · exact (hs d h).2.2
    · subst e; exact isQuote_ne_NUL _ hq2
  simp only [List.cons_append, List.length_cons, List.length_append, List.length_singleton,
    List.length_nil] at hlen
  rw [tokenize_eq_view, hn, List.cons_append, vScan_cons,
    vStep_quote_open getenv mallocOk q1 hq1 _ rfl]
  simp only [bind_ok_eq, initView]
  rw [vScan_append, vScan_quoted getenv mallocOk s (fun c hc => ⟨(hs c hc).1, (hs c hc).2.1⟩) _
    rfl (by decide) (by simp; omega)]
  simp only [bind_ok_eq, vScan, List.nil_append]
  rw [vStep_quote_close getenv q2 hq2 _ rfl (by simp) (List.length_pos.mpr hne)
    (by simp; omega) (by simp [SIZE])]
  rfl

/-- C3, at the string `a b` between a double and a single quote. -/
theorem tokenize_quoted_witness :
    ((isQuote DQUOTE = true ∧ isQuote SQUOTE = true ∧ "a b".toList ≠ [] ∧
      (∀ c ∈ "a b".toList, isQuote c = false ∧ c ≠ DOLLAR ∧ c ≠ NUL) ∧
      (DQUOTE :: "a b".toList ++ [SQUOTE]).length < SIZE)) ∧
    tokenize envFoo (DQUOTE :: "a b".toList ++ [SQUOTE]) = .ok ["a b".toList] :=
  ⟨⟨by decide, by decide, by decide, by decide, by decide⟩,
   (tokenize_quoted envFoo DQUOTE SQUOTE "a b".toList (by decide) (by decide) (by decide)
      (by decide) (by decide)).1⟩

/-! ## Variable references -/

/-- The characters `$N` with no reference pending before: the reference `$N` is pending after. -/
theorem vScan_reference (getenv : Env) (malloc : Malloc) (N : List Char)
    (hN : ∀ d ∈ N, isBlank d = false ∧ isQuote d = false) (v : View)
    (hvar : v.var = []) (hcap : N.length + 1 ≤ SIZE) :
    vScan getenv malloc (DOLLAR :: N) v
      = .ok { v with env_flag := true, var := DOLLAR :: N } := by
  have h1 : isBlank DOLLAR = false := by decide
  have h2 : isQuote DOLLAR = false := by decide
  have hs : 0 < SIZE := by decide
  rw [vScan_cons]
  simp only [vStep, h1, h2, vPushVar, hvar, List.length_nil, hs, if_true, if_false,
    Bool.false_eq_true, bind_ok_eq, List.nil_append]
  rw [vScan_name getenv malloc N hN _ rfl (by simp; omega)]
  simp

theorem vResolve_defined (getenv : Env) (N val : List Char) (v : View)
    (hvar : v.var = DOLLAR :: N) (hN : N ≠ []) (hlen : N.length + 1 < SIZE)
    (hval : getenv N = some val) (hcap : v.tok.length + strlenL val ≤ SIZE) :
    vResolve getenv v = .ok { v with env_flag := false, tok := v.tok ++ cstrL val, var := [] } := by
  have h1 : ¬ (N.length + 1 = 1) := by
    have := List.length_pos.mpr hN
    omega
  simp [vResolve, hvar, hlen, h1, hval, hcap]

theorem vResolve_undefined (getenv : Env) (N : List Char) (v : View)
    (hvar : v.var = DOLLAR :: N) (hN : N ≠ []) (hlen : N.length + 1 < SIZE)
    (hval : getenv N = none) :
    vResolve getenv v = .ok { v with env_flag := false, var := [] } := by
  have h1 : ¬ (N.length + 1 = 1) := by
    have := List.length_pos.mpr hN
    omega
  simp [vResolve, hvar, hlen, h1, hval]

theorem vResolve_lone (getenv : Env) (v : View) (hvar : v.var = [DOLLAR])
    (hcap : v.tok.length < SIZE) :
    vResolve getenv v = .ok { v with env_flag := false, tok := v.tok ++ [DOLLAR], var := [] } := by
  have hs : 1 < SIZE := by decide
  simp [vResolve, vPushTemp, hvar, hs, hcap, Outcome.map]

/-- The value of a reference followed by a blank, outside quotes and at the start of a
token, is stored as one token. -/
theorem vScan_variable (getenv : Env) (N val : List Char) (c : Char)
    (hN : N ≠ []) (hNo : ∀ d ∈ N, ordinary d = true) (hval : getenv N = some val)
    (hne : cstrL val ≠ []) (hc : isBlank c = true) (v : View)
    (hf : v.env_flag = false) (hvar : v.var = []) (hq : v.quotes = 0) (ht : v.tok = [])
    (hlen : N.length + 1 < SIZE) (hcap : strlenL val < SIZE) (hout : v.out.length < SIZE) :
    vScan getenv mallocOk (DOLLAR :: N ++ [c]) v = .ok { v with out := v.out ++ [cstrL val] } := by
  obtain ⟨out, tok, var, quotes, flag⟩ := v
  simp only at hf hvar hq ht hout
  subst hf hvar hq ht
  rw [vScan_append, vScan_reference getenv mallocOk N
    (fun d hd => by
      have := (ordinary_iff d).mp (hNo d hd)
      exact ⟨this.1, this.2.1⟩) _ rfl (by omega)]
  simp only [bind_ok_eq, vScan, vStep, vStepBlank, hc, if_true]
  rw [vResolve_defined getenv N val _ rfl hN hlen hval (by simp; omega)]
  have hpos : 0 < (cstrL val).length := List.length_pos.mpr hne
  have hc2 : (cstrL val).length < SIZE := hcap
  simp [bind_ok_eq, vFinalize, mallocOk, hpos, hc2, hout]

theorem cstrL_bigValue : cstrL bigValue = bigValue :=
  cstrL_eq_self _ (fun c hc => by
    rw [bigValue, List.mem_replicate] at hc
    rw [hc.2]; decide)

theorem length_bigValue : bigValue.length = SIZE := by simp [bigValue]

theorem strlenL_bigValue : strlenL bigValue = SIZE := by
  unfold strlenL; rw [cstrL_bigValue, length_bigValue]

theorem bigValue_ne_nil : bigValue ≠ [] := by
  intro h
  have := congrArg List.length h
  rw [length_bigValue] at this
  simp [SIZE] at this

theorem envBig_A : envBig "A".toList = some bigValue := by simp [envBig]

/-- A value that does not leave room for the terminator in `temp` ends the scan in a
store outside the array. -/
theorem vScan_variable_overflow (getenv : Env) (N val : List Char) (c : Char)
    (hN : N ≠ []) (hNo : ∀ d ∈ N, ordinary d = true) (hval : getenv N = some val)
    (hbig : SIZE ≤ strlenL val) (hc : isBlank c = true) (v : View)
    (hf : v.env_flag = false) (hvar : v.var = []) (hq : v.quotes = 0) (ht : v.tok = [])
    (hlen : N.length + 1 < SIZE) :
    vScan getenv mallocOk (DOLLAR :: N ++ [c]) v = .fault .outOfBounds := by
  obtain ⟨out, tok, var, quotes, flag⟩ := v
  simp only at hf hvar hq ht
  subst hf hvar hq ht
  rw [vScan_append, vScan_reference getenv mallocOk N
    (fun d hd => by
      have := (ordinary_iff d).mp (hNo d hd)
      exact ⟨this.1, this.2.1⟩) _ rfl (by omega)]
  simp only [bind_ok_eq, vScan, vStep, vStepBlank, hc, if_true]
  have hs : 0 < SIZE := by decide
  by_cases he : strlenL val = SIZE
  · rw [vResolve_defined getenv N val _ rfl hN hlen hval (by simp; omega)]
    have hpos : 0 < (cstrL val).length := by rw [← strlenL, he]; exact hs
    have hnot : ¬ ((cstrL val).length < SIZE) := by rw [← strlenL, he]; exact Nat.lt_irrefl _
    simp only [bind_ok_eq, List.nil_append, hpos, hnot, vFinalize, if_true, if_false]
    rfl
  · have h1 : ¬ (N.length + 1 = 1) := by
      have := List.length_pos.mpr hN
      omega
    have h2 : ¬ (strlenL val = 0 ∨ 0 + strlenL val ≤ SIZE) := by omega
    simp only [vResolve, List.length_cons, hlen, h1, hval, List.tail_cons, List.length_nil, h2,
      if_true, if_false]
    rfl

/-- C4 as stated fails: the value of `A` in `envBig` has `SIZE` characters, and the line
`$A` with a space ends in a store outside `temp` instead of the token. -/
theorem tokenize_variable_overflow :
    envBig "A".toList = some bigValue ∧ bigValue ≠ [] ∧
    tokenize envBig (DOLLAR :: "A".toList ++ [SPACE]) = .fault .outOfBounds ∧
    tokenize envBig (DOLLAR :: "A".toList ++ [SPACE]) ≠ .ok [bigValue] := by
  have hmain : tokenize envBig (DOLLAR :: "A".toList ++ [SPACE]) = .fault .outOfBounds := by
    have hn : cstrL (DOLLAR :: "A".toList ++ [SPACE]) = DOLLAR :: "A".toList ++ [SPACE] := by
      decide
    rw [tokenize_eq_view, hn, vScan_variable_overflow envBig "A".toList bigValue SPACE
      (by decide) (by decide) envBig_A (by rw [strlenL_bigValue]) (by decide) _ rfl rfl rfl rfl
      (by decide)]
    rfl
  refine ⟨envBig_A, bigValue_ne_nil, hmain, ?_⟩
  rw [hmain]; simp

/-- C4, amended. For every environment, every non-empty name `N` of ordinary characters
with `getenv N = some v`, where `v` is a non-empty C string (no NUL) shorter than `SIZE`,
and every blank `c`, the line `$N c` (when it fits the line buffer) is tokenized to the
one token `v`, whatever characters `v` holds; and where `FOO` has the value `bar`, the
line `$FOO baz` with its newline is tokenized to `bar` and `baz`. -/
theorem tokenize_variable (getenv : Env) (N v : List Char) (c : Char)
    (hN : N ≠ []) (hNo : ∀ d ∈ N, ordinary d = true) (hval : getenv N = some v)
    (hne : v ≠ []) (hnul : ∀ d ∈ v, d ≠ NUL) (hc : isBlank c = true)
    (hlen : (DOLLAR :: N ++ [c]).length < SIZE) (hcap : v.length < SIZE) :
    tokenize getenv (DOLLAR :: N ++ [c]) = .ok [v] ∧
    (getenv "FOO".toList = some "bar".toList →
      tokenize getenv (DOLLAR :: "FOO baz".toList ++ [NEWLINE])
        = .ok ["bar".toList, "baz".toList]) := by
  have hs : cstrL v = v := cstrL_eq_self v hnul
  constructor
  · have hn : cstrL (DOLLAR :: N ++ [c]) = DOLLAR :: N ++ [c] := by
      apply cstrL_eq_self
      intro d hd
      simp only [List.cons_append, List.mem_cons, List.mem_append, List.mem_singleton,
        List.not_mem_nil, or_false] at hd
      rcases hd with e | h | e
      · subst e; decide
      · exact ((ordinary_iff d).mp (hNo d h)).2.2.2
      · subst e; exact isBlank_ne_NUL _ hc
    simp only [List.cons_append, List.length_cons, List.length_append, List.length_singleton,
      List.length_nil] at hlen
    rw [tokenize_eq_view, hn, vScan_variable getenv N v c hN hNo hval (by rw [hs]; exact hne) hc
      _ rfl rfl rfl rfl (by omega) (by rw [strlenL, hs]; exact hcap) (by simp [initView, SIZE])]
    simp [Outcome.map, initView, hs]
  · intro hfoo
    have hn : cstrL (DOLLAR :: "FOO baz".toList ++ [NEWLINE])
        = (DOLLAR :: "FOO".toList ++ [SPACE]) ++ ("baz".toList ++ [NEWLINE]) := by decide
    rw [tokenize_eq_view, hn, vScan_append,
      vScan_variable getenv "FOO".toList "bar".toList SPACE (by decide) (by decide) hfoo
        (by decide) (by decide) _ rfl rfl rfl rfl (by decide) (by decide) (by decide)]
    simp only [bind_ok_eq]
    rw [vScan_word_blank getenv "baz".toList NEWLINE (by decide) (by decide) (by decide) _
      rfl rfl rfl (by decide) (by decide)]
    rfl

/-- C4 amended, at the name `V` whose value `a b"$c` holds a blank, a quote and a `$`. -/
theorem tokenize_variable_witness :
    ("V".toList ≠ [] ∧ (∀ d ∈ "V".toList, ordinary d = true) ∧
      envOdd "V".toList = some ("a b".toList ++ [DQUOTE] ++ "$c".toList) ∧
      "a b".toList ++ [DQUOTE] ++ "$c".toList ≠ [] ∧
      (∀ d ∈ "a b".toList ++ [DQUOTE] ++ "$c".toList, d ≠ NUL) ∧ isBlank SPACE = true ∧
      (DOLLAR :: "V".toList ++ [SPACE]).length < SIZE ∧
      ("a b".toList ++ [DQUOTE] ++ "$c".toList).length < SIZE) ∧
    tokenize envOdd "$V ".toList = .ok ["a b".toList ++ [DQUOTE] ++ "$c".toList] :=
  ⟨⟨by decide, by decide, by decide, by decide, by decide, by decide, by decide, by decide⟩,
   (tokenize_variable envOdd "V".toList ("a b".toList ++ [DQUOTE] ++ "$c".toList) SPACE
      (by decide) (by decide) (by decide) (by decide) (by decide) (by decide) (by decide)
      (by decide)).1⟩

/-- A word, a reference to an undefined variable and a blank, outside quotes: the word is
stored when it is not empty, and nothing else is. -/
theorem vScan_undefined (getenv : Env) (a N : List Char) (c : Char)
    (ha : ∀ d ∈ a, ordinary d = true) (hN : N ≠ []) (hNo : ∀ d ∈ N, ordinary d = true)
    (hval : getenv N = none) (hc : isBlank c = true) (v : View)
    (hf : v.env_flag = false) (hvar : v.var = []) (hq : v.quotes = 0) (ht : v.tok = [])
    (hlen : a.length + N.length + 1 < SIZE) (hout : v.out.length < SIZE) :
    vScan getenv mallocOk (a ++ DOLLAR :: N ++ [c]) v
      = .ok { v with out := v.out ++ (if a = [] then [] else [a]) } := by
  obtain ⟨out, tok, var, quotes, flag⟩ := v
  simp only at hf hvar hq ht hout
  subst hf hvar hq ht
  rw [vScan_append, vScan_append, vScan_word getenv mallocOk a
    (fun d hd => by
      have := (ordinary_iff d).mp (ha d hd)
      exact ⟨this.1, this.2.1, this.2.2.1⟩) _ rfl (by simp; omega)]
  simp only [bind_ok_eq, List.nil_append]
  rw [vScan_reference getenv mallocOk N
    (fun d hd => by
      have := (ordinary_iff d).mp (hNo d hd)
      exact ⟨this.1, this.2.1⟩) _ rfl (by omega)]
  simp only [bind_ok_eq, vScan, vStep, vStepBlank, hc, if_true]
  rw [vResolve_undefined getenv N _ rfl hN (by omega) hval]
  by_cases he : a = []
  · subst he
    simp [bind_ok_eq]
  · have hpos : 0 < a.length := List.length_pos.mpr he
    have hcap : a.length < SIZE := by omega
    simp [bind_ok_eq, vFinalize, mallocOk, hpos, hcap, hout, he]

/-- C5. A reference to an undefined variable contributes nothing and keeps the word before
it: for every environment, every word `a` (possibly empty) and every non-empty name `N` of
ordinary characters with `getenv N = none`, and every blank `c`, the line `a$N c` (when it
fits the line buffer) is tokenized without fault to `[a]` when `a` is not empty and to `[]`
when it is; and where `MISSING` is undefined, the lines `$MISSING x` and `a$MISSING x` with
their newline are tokenized to `x` and to `a`, `x`. -/
theorem tokenize_undefined (getenv : Env) (a N : List Char) (c : Char)
    (ha : ∀ d ∈ a, ordinary d = true) (hN : N ≠ []) (hNo : ∀ d ∈ N, ordinary d = true)
    (hval : getenv N = none) (hc : isBlank c = true)
    (hlen : (a ++ DOLLAR :: N ++ [c]).length < SIZE) :
    tokenize getenv (a ++ DOLLAR :: N ++ [c]) = .ok (if a = [] then [] else [a]) ∧
    (getenv "MISSING".toList = none →
      tokenize getenv (DOLLAR :: "MISSING x".toList ++ [NEWLINE]) = .ok ["x".toList] ∧
      tokenize getenv ("a".toList ++ DOLLAR :: "MISSING x".toList ++ [NEWLINE])
        = .ok ["a".toList, "x".toList]) := by
  constructor
  · have hn : cstrL (a ++ DOLLAR :: N ++ [c]) = a ++ DOLLAR :: N ++ [c] := by
      apply cstrL_eq_self
      intro d hd
      simp only [List.mem_cons, List.mem_append, List.mem_singleton,
        List.not_mem_nil, or_false] at hd
      rcases hd with (h | e | h) | e
      · exact ((ordinary_iff d).mp (ha d h)).2.2.2
      · subst e; decide
      · exact ((ordinary_iff d).mp (hNo d h)).2.2.2
      · subst e; exact isBlank_ne_NUL _ hc
    simp only [List.length_cons, List.length_append, List.length_singleton,
      List.length_nil] at hlen
    rw [tokenize_eq_view, hn, vScan_undefined getenv a N c ha hN hNo hval hc _ rfl rfl rfl rfl
      (by omega) (by simp [initView, SIZE])]
    by_cases he : a = [] <;> simp [Outcome.map, initView, he]
  · intro hmiss
    constructor
    · have hn : cstrL (DOLLAR :: "MISSING x".toList ++ [NEWLINE])
          = ([] ++ DOLLAR :: "MISSING".toList ++ [SPACE]) ++ ("x".toList ++ [NEWLINE]) := by
        decide
      rw [tokenize_eq_view, hn, vScan_append,
        vScan_undefined getenv [] "MISSING".toList SPACE (by decide) (by decide) (by decide)
          hmiss (by decide) _ rfl rfl rfl rfl (by decide) (by decide)]
      simp only [bind_ok_eq]
      rw [vScan_word_blank getenv "x".toList NEWLINE (by decide) (by decide) (by decide) _
        rfl rfl rfl (by decide) (by decide)]
      rfl
    · have hn : cstrL ("a".toList ++ DOLLAR :: "MISSING x".toList ++ [NEWLINE])
          = ("a".toList ++ DOLLAR :: "MISSING".toList ++ [SPACE]) ++ ("x".toList ++ [NEWLINE]) := by
        decide
      rw [tokenize_eq_view, hn, vScan_append,
        vScan_undefined getenv "a".toList "MISSING".toList SPACE (by decide) (by decide)
          (by decide) hmiss (by decide) _ rfl rfl rfl rfl (by decide) (by decide)]
      simp only [bind_ok_eq]
      rw [vScan_word_blank getenv "x".toList NEWLINE (by decide) (by decide) (by decide) _
        rfl rfl rfl (by decide) (by decide)]
      rfl

/-- C5, at the word `ab`, the name `MISSING` and a tab, in an environment that defines
only `FOO`. -/
theorem tokenize_undefined_witness :
    ((∀ d ∈ "ab".toList, ordinary d = true) ∧ "MISSING".toList ≠ [] ∧
      (∀ d ∈ "MISSING".toList, ordinary d = true) ∧ envFoo "MISSING".toList = none ∧
      isBlank (Char.ofNat 9) = true ∧
      ("ab".toList ++ DOLLAR :: "MISSING".toList ++ [Char.ofNat 9]).length < SIZE) ∧
    tokenize envFoo ("ab".toList ++ DOLLAR :: "MISSING".toList ++ [Char.ofNat 9])
      = .ok ["ab".toList] :=
  ⟨⟨by decide, by decide, by decide, by decide, by decide, by decide⟩,
   (tokenize_undefined envFoo "ab".toList "MISSING".toList (Char.ofNat 9) (by decide)
      (by decide) (by decide) (by decide) (by decide) (by decide)).1⟩

/-! ## A `$` with no name -/

theorem strlen_lone (a : CArray) (h0 : a 0 = DOLLAR) : strlen (store a 1 NUL) SIZE = 1 := by
  unfold strlen
  rw [cstr_slice (store a 1 NUL) 0 1 SIZE ?_ (by simp [store]) (by decide)]
  · simp [slice]
  · intro j _ hj
    have : j = 0 := by omega
    subst this
    simp only [store, Nat.zero_ne_one, if_false, h0]
    decide

/-- Closing a pending lone `$` stores the character `$` and does not consult the
environment. -/
theorem resolve_lone (getenv : Env) (s : State) (hsize : s.env_var_size = 1)
    (h0 : s.env_var 0 = DOLLAR) :
    resolve getenv s = pushTemp DOLLAR (clearLone s) := by
  have hs : (1 : Nat) < SIZE := by decide
  simp only [resolve, hsize, hs, if_true, strlen_lone s.env_var h0, pushTemp, clearLone]
  by_cases hp : s.pos < SIZE
  · simp [hp, Outcome.map]
  · simp [hp, Outcome.map]

/-- C6. A `$` with no name after it is kept as a literal: in every state in which the
pending reference is the `$` alone, a blank or a closing quote is processed, in every
environment, as the store `temp[pos++] = '$'` (with the reference cleared) followed by the
processing of the same character with no reference pending, in any other environment: the
environment is not consulted. The line `$ x` with its newline is tokenized to `$` and `x`,
and the line `"$"` to `$`, in every environment. -/
theorem lone_dollar_literal (getenv getenv2 : Env) (malloc : Malloc) (c : Char) (s : State)
    (hflag : s.env_flag = true) (hsize : s.env_var_size = 1) (h0 : s.env_var 0 = DOLLAR)
    (hc : isBlank c = true ∨ (isQuote c = true ∧ s.quotes ≠ 0)) :
    step getenv malloc c s = (pushTemp DOLLAR (clearLone s)).bind (step getenv2 malloc c) ∧
    tokenize getenv (DOLLAR :: " x".toList ++ [NEWLINE]) = .ok [[DOLLAR], "x".toList] ∧
    tokenize getenv [DQUOTE, DOLLAR, DQUOTE] = .ok [[DOLLAR]] := by
  refine ⟨?_, rfl, rfl⟩
  obtain ⟨iargv, temp, env_var, quotes, evs, pos, flag⟩ := s
  simp only at hflag hsize h0 hc
  subst hflag hsize
  rcases hc with hb | ⟨hq, hn⟩
  · have e := resolve_lone getenv
      { iargv := iargv, temp := temp, env_var := env_var, quotes := quotes, env_var_size := 1,
        pos := pos, env_flag := true } rfl h0
    simp only [step, hb, if_true, stepBlank, e]
    simp only [pushTemp, clearLone]
    by_cases hp : pos < SIZE
    · simp [hp, Outcome.bind, step, stepBlank, hb, pushTemp]
    · simp [hp, Outcome.bind]
  · have hnb := isQuote_not_blank c hq
    have e := resolve_lone getenv
      { iargv := iargv, temp := temp, env_var := env_var, quotes := quotes - 1,
        env_var_size := 1, pos := pos, env_flag := true } rfl h0
    simp only [step, hnb, hq, if_true, if_false, Bool.false_eq_true, stepQuote, hn, e]
    simp only [pushTemp, clearLone]
    by_cases hp : pos < SIZE
    · simp [hp, Outcome.bind, step, stepQuote, hnb, hq, hn]
    · simp [hp, Outcome.bind]

/-- C6, at the state `loneDollarState` and a space, with two different environments. -/
theorem lone_dollar_literal_witness :
    (loneDollarState.env_flag = true ∧ loneDollarState.env_var_size = 1 ∧
      loneDollarState.env_var 0 = DOLLAR ∧
      (isBlank SPACE = true ∨ (isQuote SPACE = true ∧ loneDollarState.quotes ≠ 0))) ∧
    step envFoo mallocOk SPACE loneDollarState
      = (pushTemp DOLLAR (clearLone loneDollarState)).bind (step envNone mallocOk SPACE) :=
  ⟨⟨rfl, rfl, rfl, Or.inl (by decide)⟩,
   (lone_dollar_literal envFoo envNone mallocOk SPACE loneDollarState rfl rfl rfl
      (Or.inl (by decide))).1⟩

/-! ## Runs of blanks outside quotes -/

theorem cstrL_append_of_mem (p x : List Char) (h : NUL ∈ p) : cstrL (p ++ x) = cstrL p := by
  induction p with
  | nil => simp at h
  | cons a p ih =>
    by_cases ha : a = NUL
    · simp [cstrL, List.takeWhile, ha]
    · have hp : NUL ∈ p := by
        rcases List.mem_cons.mp h with e | e
        · exact absurd e.symm ha
        · exact e
      have := ih hp
      simp only [cstrL] at this ⊢
      simp [List.takeWhile, ha, this]

theorem cstrL_append_of_not_mem (p x : List Char) (h : NUL ∉ p) :
    cstrL (p ++ x) = p ++ cstrL x := by
  unfold cstrL
  rw [List.takeWhile_append_of_pos]
  intro a ha
  have : a ≠ NUL := fun e => h (e ▸ ha)
  simpa using this

theorem quotesAfter_eq_view (getenv : Env) (p : List Char) :
    quotesAfter getenv p
      = (vScan getenv mallocOk (cstrL p) (initView [])).map fun v => v.quotes := by
  have h := scan_rep getenv mallocOk (cstrL p) (cstrL_ne p) _ _ (initState_rep [])
  unfold quotesAfter
  revert h
  cases scan getenv mallocOk (cstrL p) (initState []) <;>
    cases vScan getenv mallocOk (cstrL p) (initView []) <;>
    simp only [OutRep, Outcome.map, imp_self, false_imp_iff]
  · rintro ⟨_, rfl⟩; rfl
  · rintro rfl; rfl

theorem vResolve_fields (getenv : Env) (v v1 : View) (h : vResolve getenv v = .ok v1) :
    v1.quotes = v.quotes ∧ v1.env_flag = false ∧ v1.out = v.out ∧ v1.var = [] := by
  unfold vResolve vPushTemp at h
  split_ifs at h
  · simp only [Outcome.map, Outcome.ok.injEq] at h
    subst h; exact ⟨rfl, rfl, rfl, rfl⟩
  · simp [Outcome.map] at h
  · split at h
    · split_ifs at h
      simp only [Outcome.ok.injEq] at h
      subst h; exact ⟨rfl, rfl, rfl, rfl⟩
    · simp only [Outcome.ok.injEq] at h
      subst h; exact ⟨rfl, rfl, rfl, rfl⟩

theorem vFinalize_fields (malloc : Malloc) (checked : Bool) (v v1 : View)
    (h : vFinalize malloc checked v = .ok v1) :
    v1.quotes = v.quotes ∧ v1.env_flag = v.env_flag ∧ v1.tok = [] ∧ v1.var = v.var ∧
      v1.out = v.out ++ [v.tok] := by
  unfold vFinalize at h
  split_ifs at h
  simp only [Outcome.ok.injEq] at h
  subst h; exact ⟨rfl, rfl, rfl, rfl, rfl⟩

/-- Outside quotes every blank does the same, and leaves the scanner with an empty token
buffer and no reference pending. -/
theorem vStep_blank_outside (getenv : Env) (malloc : Malloc) (c d : Char)
    (hc : isBlank c = true) (hd : isBlank d = true) (v : View) (hq : v.quotes = 0) :
    vStep getenv malloc c v = vStep getenv malloc d v ∧
      ∀ v1, vStep getenv malloc c v = .ok v1 →
        v1.env_flag = false ∧ v1.quotes = 0 ∧ v1.tok = [] := by
  have key : ∀ (x : Outcome View), (∀ a, x = .ok a → a.quotes = 0 ∧ a.env_flag = false) →
      (x.bind fun a => if a.quotes = 0 then
          if 0 < a.tok.length then vFinalize malloc true a else .ok a else vPushTemp c a)
        = (x.bind fun a => if a.quotes = 0 then
          if 0 < a.tok.length then vFinalize malloc true a else .ok a else vPushTemp d a) ∧
      ∀ v1, (x.bind fun a => if a.quotes = 0 then
          if 0 < a.tok.length then vFinalize malloc true a else .ok a else vPushTemp c a)
            = .ok v1 → v1.env_flag = false ∧ v1.quotes = 0 ∧ v1.tok = [] := by
    intro x hx
    cases x with
    | fault e => exact ⟨rfl, fun v1 h => by simp [Outcome.bind] at h⟩
    | ok a =>
      obtain ⟨h1, h2⟩ := hx a rfl
      simp only [bind_ok_eq, h1, if_true]
      refine ⟨trivial, ?_⟩
      intro v1 h
      by_cases ht : 0 < a.tok.length
      · rw [if_pos ht] at h
        obtain ⟨e1, e2, e3, _, _⟩ := vFinalize_fields malloc true a v1 h
        exact ⟨e2.trans h2, e1.trans h1, e3⟩
      · rw [if_neg ht] at h
        simp only [Outcome.ok.injEq] at h
        subst h
        exact ⟨h2, h1, List.length_eq_zero.mp (by omega)⟩
  simp only [vStep, hc, hd, if_true, vStepBlank]
  apply key
  intro a ha
  by_cases hf : v.env_flag = true
  · rw [if_pos hf] at ha
    obtain ⟨e1, e2, _, _⟩ := vResolve_fields getenv v a ha
    exact ⟨e1.trans hq, e2⟩
  · rw [if_neg hf] at ha
    simp only [Outcome.ok.injEq] at ha
    subst ha
    exact ⟨hq, by simpa using hf⟩

/-- Outside quotes a non-empty run of blanks does what one blank does. -/
theorem vScan_blank_run (getenv : Env) (malloc : Malloc) (w : List Char) (c : Char)
    (hne : w ≠ []) (hw : ∀ d ∈ w, isBlank d = true) (hc : isBlank c = true) (v : View)
    (hq : v.quotes = 0) :
    vScan getenv malloc w v = vStep getenv malloc c v := by
  obtain ⟨d, w, rfl⟩ := List.exists_cons_of_ne_nil hne
  have hd := hw d (List.mem_cons_self _ _)
  obtain ⟨h1, h2⟩ := vStep_blank_outside getenv malloc d c hd hc v hq
  rw [vScan_cons, ← h1]
  cases hs : vStep getenv malloc d v with
  | fault e => rfl
  | ok v1 =>
    obtain ⟨e1, e2, e3⟩ := h2 v1 hs
    simp only [bind_ok_eq]
    have hidle : ∀ (u : List Char), (∀ x ∈ u, isBlank x = true) →
        vScan getenv malloc u v1 = .ok v1 := by
      intro u
      induction u with
      | nil => intro _; rfl
      | cons x u ih =>
        intro hu
        rw [vScan_cons, vStep_blank_idle getenv malloc x (hu x (List.mem_cons_self _ _)) v1 e1 e2 e3]
        exact ih (fun y hy => hu y (List.mem_cons_of_mem _ hy))
    exact hidle w (fun x hx => hw x (List.mem_cons_of_mem _ hx))

/-- C7. Collapsing of blanks: for every environment, every prefix `p` after which the
scanner is outside quotes (`quotes` is 0), every non-empty run `w` of blanks (any mix of
space, tab, carriage return and newline), every blank `c` and every suffix `s`, the lines
`p w s` and `p c s` are tokenized to the same result. -/
theorem blank_run_collapse (getenv : Env) (p w s : List Char) (c : Char)
    (hne : w ≠ []) (hw : ∀ d ∈ w, isBlank d = true) (hc : isBlank c = true)
    (hq : quotesAfter getenv p = .ok 0) :
    tokenize getenv (p ++ w ++ s) = tokenize getenv (p ++ [c] ++ s) := by
  by_cases hp : NUL ∈ p
  · rw [List.append_assoc, List.append_assoc, tokenize_eq_view, tokenize_eq_view,
      cstrL_append_of_mem p _ hp, cstrL_append_of_mem p _ hp]
  · have hwn : NUL ∉ w := fun h => isBlank_ne_NUL _ (hw _ h) rfl
    have hcn : NUL ∉ [c] := by
      intro h
      simp only [List.mem_singleton] at h
      exact isBlank_ne_NUL _ hc h.symm
    rw [List.append_assoc, List.append_assoc, tokenize_eq_view, tokenize_eq_view,
      cstrL_append_of_not_mem p _ hp, cstrL_append_of_not_mem p _ hp,
      cstrL_append_of_not_mem w _ hwn, cstrL_append_of_not_mem [c] _ hcn,
      vScan_append, vScan_append getenv mallocOk p]
    rw [quotesAfter_eq_view, cstrL_eq_self p (fun x hx e => hp (e ▸ hx))] at hq
    cases hv : vScan getenv mallocOk p (initView []) with
    | fault e => rfl
    | ok v =>
      rw [hv] at hq
      simp only [Outcome.map, Outcome.ok.injEq] at hq
      simp only [bind_ok_eq]
      rw [vScan_append, vScan_append, vScan_blank_run getenv mallocOk w c hne hw hc v hq,
        vScan_blank_run getenv mallocOk [c] c (by simp) (by simpa using hc) hc v hq]

/-- C7, at the prefix `"a b" c`, the run tab, newline, space, and the suffix `d` with a
newline. -/
theorem blank_run_collapse_witness :
    ([Char.ofNat 9, NEWLINE, SPACE] ≠ [] ∧
      (∀ d ∈ [Char.ofNat 9, NEWLINE, SPACE], isBlank d = true) ∧ isBlank SPACE = true ∧
      quotesAfter envFoo (DQUOTE :: "a b".toList ++ DQUOTE :: " c".toList) = .ok 0) ∧
    tokenize envFoo ((DQUOTE :: "a b".toList ++ DQUOTE :: " c".toList)
        ++ [Char.ofNat 9, NEWLINE, SPACE] ++ "d".toList ++ [NEWLINE])
      = tokenize envFoo ((DQUOTE :: "a b".toList ++ DQUOTE :: " c".toList)
        ++ [SPACE] ++ "d".toList ++ [NEWLINE]) :=
  ⟨⟨by decide, by decide, by decide, by decide⟩, by
    have h := blank_run_collapse envFoo (DQUOTE :: "a b".toList ++ DQUOTE :: " c".toList)
      [Char.ofNat 9, NEWLINE, SPACE] ("d".toList ++ [NEWLINE]) SPACE (by decide) (by decide)
      (by decide) (by decide)
    simpa only [List.append_assoc] using h⟩

/-! ## The two quote characters -/

/-- The loop body does not distinguish the two quote characters. -/
theorem step_swapQuote (getenv : Env) (malloc : Malloc) (c : Char) (s : State) :
    step getenv malloc (swapQuote c) s = step getenv malloc c s := by
  have b1 : isBlank DQUOTE = false := by decide
  have b2 : isBlank SQUOTE = false := by decide
  have q1 : isQuote DQUOTE = true := by decide
  have q2 : isQuote SQUOTE = true := by decide
  unfold swapQuote
  by_cases h1 : c = DQUOTE
  · subst h1
    simp only [if_true, step, b1, b2, q1, q2, if_false, Bool.false_eq_true]
  · by_cases h2 : c = SQUOTE
    · subst h2
      simp only [h1, if_true, if_false, step, b1, b2, q1, q2, Bool.false_eq_true]
    · simp only [h1, h2, if_false]

theorem swapQuote_eq_NUL (c : Char) : swapQuote c = NUL ↔ c = NUL := by
  unfold swapQuote
  by_cases h1 : c = DQUOTE
  · subst h1; simp only [if_true]; decide
  · by_cases h2 : c = SQUOTE
    · subst h2; simp only [h1, if_true, if_false]; decide
    · simp only [h1, h2, if_false]

theorem cstrL_swapSome (sel : Nat → Bool) (i : Nat) (line : List Char) :
    cstrL (swapSome sel i line) = swapSome sel i (cstrL line) := by
  induction line generalizing i with
  | nil => rfl
  | cons c cs ih =>
    have ih2 := ih (i + 1)
    simp only [cstrL] at ih2 ⊢
    by_cases hc : c = NUL
    · have hx : (if sel i = true then swapQuote c else c) = NUL := by
        split_ifs
        · exact (swapQuote_eq_NUL c).mpr hc
        · exact hc
      rw [swapSome, List.takeWhile_cons_of_neg (by simp [hx]),
        List.takeWhile_cons_of_neg (by simp [hc])]
      rfl
    · have hx : ¬ (if sel i = true then swapQuote c else c) = NUL := by
        split_ifs
        · exact fun e => hc ((swapQuote_eq_NUL c).mp e)
        · exact hc
      rw [swapSome, List.takeWhile_cons_of_pos (by simpa using hx),
        List.takeWhile_cons_of_pos (by simpa using hc), ih2]
      rfl

theorem scan_swapSome (getenv : Env) (malloc : Malloc) (sel : Nat → Bool) (i : Nat)
    (cs : List Char) (s : State) :
    scan getenv malloc (swapSome sel i cs) s = scan getenv malloc cs s := by
  induction cs generalizing i s with
  | nil => rfl
  | cons c cs ih =>
    have hstep : step getenv malloc (if sel i = true then swapQuote c else c) s
        = step getenv malloc c s := by
      split_ifs
      · exact step_swapQuote getenv malloc c s
      · rfl
    simp only [swapSome, scan, hstep]
    cases step getenv malloc c s with
    | ok s1 => exact ih (i + 1) s1
    | fault e => rfl

/-- C8. The quote characters are interchangeable: for every environment, every line and
every selection of positions, replacing the quote characters at the selected positions by
the other quote character leaves the result of the tokenizer unchanged; the lines `"abc'`
and `"abc"` are both tokenized to the one token `abc`. -/
theorem quotes_interchangeable (getenv : Env) (sel : Nat → Bool) (line : List Char) :
    tokenize getenv (swapSome sel 0 line) = tokenize getenv line ∧
    swapSome (fun i => decide (i = 4)) 0 (DQUOTE :: "abc".toList ++ [DQUOTE])
      = DQUOTE :: "abc".toList ++ [SQUOTE] ∧
    tokenize getenv (DQUOTE :: "abc".toList ++ [SQUOTE]) = .ok ["abc".toList] ∧
    tokenize getenv (DQUOTE :: "abc".toList ++ [DQUOTE]) = .ok ["abc".toList] := by
  refine ⟨?_, by decide, rfl, rfl⟩
  unfold tokenize run
  rw [cstrL_swapSome, scan_swapSome]

/-! ## A trailing word -/

/-- A character that is neither a blank nor a quote is appended to one of the two
buffers, unless that buffer is full; nothing is stored. -/
theorem vStep_noBreak (getenv : Env) (malloc : Malloc) (c : Char)
    (hc : isBlank c = false ∧ isQuote c = false) (v : View) :
    (∃ v1, vStep getenv malloc c v = .ok v1 ∧ v1.out = v.out ∧
        v1.tok.length + v1.var.length = v.tok.length + v.var.length + 1) ∨
      (vStep getenv malloc c v = .fault .outOfBounds ∧
        (SIZE ≤ v.tok.length ∨ SIZE ≤ v.var.length)) := by
  simp only [vStep, hc.1, hc.2, if_false, Bool.false_eq_true, vPushVar, vPushTemp]
  by_cases h3 : c = DOLLAR
  · by_cases h4 : v.var.length < SIZE
    · left
      refine ⟨{ v with env_flag := true, var := v.var ++ [c] }, ?_, rfl, ?_⟩
      · simp only [h3, h4, if_true]
      · simp only [List.length_append, List.length_singleton]; omega
    · right; exact ⟨by simp only [h3, h4, if_true, if_false], Or.inr (by omega)⟩
  · by_cases h5 : v.env_flag = true
    · by_cases h4 : v.var.length < SIZE
      · left
        refine ⟨{ v with var := v.var ++ [c] }, ?_, rfl, ?_⟩
        · simp only [h3, h4, h5, if_true, if_false]
        · simp only [List.length_append, List.length_singleton]; omega
      · right; exact ⟨by simp only [h3, h4, h5, if_true, if_false], Or.inr (by omega)⟩
    · by_cases h4 : v.tok.length < SIZE
      · left
        refine ⟨{ v with tok := v.tok ++ [c] }, ?_, rfl, ?_⟩
        · simp only [h3, h4, h5, if_true, if_false, Bool.false_eq_true]
        · simp only [List.length_append, List.length_singleton]; omega
      · right
        exact ⟨by simp only [h3, h4, h5, if_false, Bool.false_eq_true], Or.inl (by omega)⟩

/-- Characters that are neither blanks nor quotes store nothing: the scan of such a word
keeps `iargv`, or ends in a store outside a buffer. -/
theorem vScan_noBreak (getenv : Env) (malloc : Malloc) (w : List Char)
    (hw : ∀ c ∈ w, isBlank c = false ∧ isQuote c = false) (v : View) :
    (∃ v1, vScan getenv malloc w v = .ok v1 ∧ v1.out = v.out) ∨
      (vScan getenv malloc w v = .fault .outOfBounds ∧
        SIZE < v.tok.length + v.var.length + w.length) := by
  induction w generalizing v with
  | nil => exact Or.inl ⟨v, rfl, rfl⟩
  | cons c w ih =>
    rw [vScan_cons]
    rcases vStep_noBreak getenv malloc c (hw c (List.mem_cons_self _ _)) v with
      ⟨v1, h1, h2, h3⟩ | ⟨h1, h2⟩
    · rw [h1, bind_ok_eq]
      rcases ih (fun d hd => hw d (List.mem_cons_of_mem _ hd)) v1 with ⟨v2, h4, h5⟩ | ⟨h4, h5⟩
      · exact Or.inl ⟨v2, h4, h5.trans h2⟩
      · exact Or.inr ⟨h4, by simp only [List.length_cons]; omega⟩
    · rw [h1]
      exact Or.inr ⟨rfl, by simp only [List.length_cons]; omega⟩

theorem cstrL_append (l w : List Char) :
    ∃ u, cstrL (l ++ w) = cstrL l ++ u ∧ (∀ c ∈ u, c ∈ w) ∧
      (cstrL l).length + u.length ≤ (l ++ w).length := by
  by_cases h : NUL ∈ l
  · refine ⟨[], by rw [cstrL_append_of_mem l w h, List.append_nil], by simp, ?_⟩
    have := (List.takeWhile_sublist (fun c => c != NUL) (l := l)).length_le
    simp only [cstrL, List.length_nil, List.length_append]
    omega
  · refine ⟨cstrL w, ?_, fun c hc => List.takeWhile_subset _ hc, ?_⟩
    · rw [cstrL_append_of_not_mem l w h, cstrL_eq_self l (fun x hx e => h (e ▸ hx))]
    · have h1 := (List.takeWhile_sublist (fun c => c != NUL) (l := l)).length_le
      have h2 := (List.takeWhile_sublist (fun c => c != NUL) (l := w)).length_le
      simp only [cstrL, List.length_append]
      omega

/-- The first half of C9 amended: a trailing word is lost, or the scan of it overflows. -/
theorem tokenize_trailing (getenv : Env) (l w : List Char)
    (hw : ∀ c ∈ w, isBlank c = false ∧ isQuote c = false) :
    tokenize getenv (l ++ w) = tokenize getenv l ∨
      tokenize getenv (l ++ w) = .fault .outOfBounds := by
  obtain ⟨u, hu, hsub, _⟩ := cstrL_append l w
  rw [tokenize_eq_view, tokenize_eq_view, hu, vScan_append]
  cases hv : vScan getenv mallocOk (cstrL l) (initView []) with
  | fault e => exact Or.inl rfl
  | ok v =>
    rw [bind_ok_eq]
    rcases vScan_noBreak getenv mallocOk u (fun c hc => hw c (hsub c hc)) v with
      ⟨v1, h1, h2⟩ | ⟨h1, _⟩
    · left; rw [h1]; simp only [Outcome.map, h2]
    · right; rw [h1]; rfl

/-! ## Expansions that do not grow the text -/

theorem bind_eq_ok {α β : Type} (x : Outcome α) (f : α → Outcome β) (b : β)
    (h : x.bind f = .ok b) : ∃ a, x = .ok a ∧ f a = .ok b := by
  cases x with
  | ok a => exact ⟨a, rfl, h⟩
  | fault e => simp [Outcome.bind] at h

theorem vPushTemp_fields (c : Char) (v v1 : View) (h : vPushTemp c v = .ok v1) :
    v1 = { v with tok := v.tok ++ [c] } := by
  unfold vPushTemp at h
  split_ifs at h
  simp only [Outcome.ok.injEq] at h
  exact h.symm

theorem vPushVar_fields (c : Char) (v v1 : View) (h : vPushVar c v = .ok v1) :
    v1 = { v with var := v.var ++ [c] } := by
  unfold vPushVar at h
  split_ifs at h
  simp only [Outcome.ok.injEq] at h
  exact h.symm

theorem vResolve_bound (getenv : Env) (hng : NoGrowth getenv) (v v1 : View)
    (hv : v.var ≠ []) (h : vResolve getenv v = .ok v1) :
    v1.tok.length ≤ v.tok.length + v.var.length := by
  have hpos := List.length_pos.mpr hv
  unfold vResolve vPushTemp at h
  split_ifs at h with h1 h2 h3
  · simp only [Outcome.map, Outcome.ok.injEq] at h
    subst h
    simp only [List.length_append, List.length_singleton]; omega
  · simp [Outcome.map] at h
  · split at h
    · rename_i val hval
      split_ifs at h
      simp only [Outcome.ok.injEq] at h
      subst h
      have := hng _ _ hval
      have ht : v.var.tail.length + 1 = v.var.length := by
        rw [List.length_tail]; omega
      simp only [List.length_append]
      rw [strlenL] at this
      omega
    · simp only [Outcome.ok.injEq] at h
      subst h
      simp only; omega

theorem vMaybeResolve_bound (getenv : Env) (hng : NoGrowth getenv) (v a : View)
    (hp : Pending v)
    (h : (if v.env_flag = true then vResolve getenv v else Outcome.ok v) = .ok a) :
    Pending a ∧ a.tok.length + a.var.length ≤ v.tok.length + v.var.length ∧
      a.quotes = v.quotes := by
  by_cases hf : v.env_flag = true
  · rw [if_pos hf] at h
    obtain ⟨e1, e2, _, e4⟩ := vResolve_fields getenv v a h
    have := vResolve_bound getenv hng v a (hp hf) h
    refine ⟨fun hh => ?_, ?_, e1⟩
    · rw [e2] at hh; exact absurd hh (by simp)
    · rw [e4]; simp only [List.length_nil]; omega
  · rw [if_neg hf] at h
    simp only [Outcome.ok.injEq] at h
    subst h
    exact ⟨hp, Nat.le_refl _, rfl⟩

theorem vMaybeFinalize_bound (malloc : Malloc) (checked : Bool) (a v1 : View)
    (h : (if 0 < a.tok.length then vFinalize malloc checked a else Outcome.ok a) = .ok v1) :
    v1.tok.length ≤ a.tok.length ∧ v1.var = a.var ∧ v1.env_flag = a.env_flag := by
  by_cases ht : 0 < a.tok.length
  · rw [if_pos ht] at h
    obtain ⟨_, e2, e3, e4, _⟩ := vFinalize_fields malloc checked a v1 h
    exact ⟨by rw [e3]; simp, e4, e2⟩
  · rw [if_neg ht] at h
    simp only [Outcome.ok.injEq] at h
    subst h
    exact ⟨Nat.le_refl _, rfl, rfl⟩

/-- With expansions that do not grow the text, one character adds at most one character
to the two buffers together. -/
theorem vStep_bound (getenv : Env) (malloc : Malloc) (hng : NoGrowth getenv) (c : Char)
    (v v1 : View) (hp : Pending v) (h : vStep getenv malloc c v = .ok v1) :
    Pending v1 ∧ v1.tok.length + v1.var.length ≤ v.tok.length + v.var.length + 1 := by
  unfold vStep at h
  by_cases h1 : isBlank c = true
  · rw [if_pos h1] at h
    unfold vStepBlank at h
    obtain ⟨a, ha, hb⟩ := bind_eq_ok _ _ _ h
    obtain ⟨pa, ba, _⟩ := vMaybeResolve_bound getenv hng v a hp ha
    by_cases hq : a.quotes = 0
    · rw [if_pos hq] at hb
      obtain ⟨e1, e2, e3⟩ := vMaybeFinalize_bound malloc true a v1 hb
      refine ⟨fun hh => ?_, by rw [e2]; omega⟩
      rw [e2]; exact pa (e3 ▸ hh)
    · rw [if_neg hq] at hb
      have := vPushTemp_fields c a v1 hb
      subst this
      exact ⟨pa, by simp only [List.length_append, List.length_singleton]; omega⟩
  · rw [if_neg h1] at h
    by_cases h2 : isQuote c = true
    · rw [if_pos h2] at h
      unfold vStepQuote at h
      by_cases hq : v.quotes = 0
      · rw [if_pos hq] at h
        simp only [Outcome.ok.injEq] at h
        subst h
        exact ⟨hp, by simp⟩
      · rw [if_neg hq] at h
        obtain ⟨a, ha, hb⟩ := bind_eq_ok _ _ _ h
        obtain ⟨pa, ba, _⟩ := vMaybeResolve_bound getenv hng { v with quotes := v.quotes - 1 } a
          hp ha
        obtain ⟨e1, e2, e3⟩ := vMaybeFinalize_bound malloc false a v1 hb
        simp only at ba
        refine ⟨fun hh => ?_, by rw [e2]; omega⟩
        rw [e2]; exact pa (e3 ▸ hh)
    · rw [if_neg h2] at h
      by_cases h3 : c = DOLLAR
      · rw [if_pos h3] at h
        have := vPushVar_fields c _ v1 h
        subst this
        exact ⟨fun _ => by simp, by simp only [List.length_append, List.length_singleton]; omega⟩
      · rw [if_neg h3] at h
        by_cases h4 : v.env_flag = true
        · rw [if_pos h4] at h
          have := vPushVar_fields c _ v1 h
          subst this
          exact ⟨fun _ => by simp,
            by simp only [List.length_append, List.length_singleton]; omega⟩
        · rw [if_neg h4] at h
          have := vPushTemp_fields c _ v1 h
          subst this
          exact ⟨fun hh => absurd hh h4,
            by simp only [List.length_append, List.length_singleton]; omega⟩

theorem vScan_bound (getenv : Env) (malloc : Malloc) (hng : NoGrowth getenv) (cs : List Char)
    (v v1 : View) (hp : Pending v) (h : vScan getenv malloc cs v = .ok v1) :
    Pending v1 ∧ v1.tok.length + v1.var.length ≤ v.tok.length + v.var.length + cs.length := by
  induction cs generalizing v with
  | nil =>
    simp only [vScan, Outcome.ok.injEq] at h
    subst h
    exact ⟨hp, by simp⟩
  | cons c cs ih =>
    rw [vScan_cons] at h
    obtain ⟨a, ha, hb⟩ := bind_eq_ok _ _ _ h
    obtain ⟨pa, ba⟩ := vStep_bound getenv malloc hng c v a hp ha
    obtain ⟨p1, b1⟩ := ih a pa hb
    exact ⟨p1, by simp only [List.length_cons]; omega⟩

theorem initView_pending (arg0 : List Char) : Pending (initView arg0) := by
  intro h; simp [initView] at h

theorem cstrL_almostBigValue : cstrL almostBigValue = almostBigValue :=
  cstrL_eq_self _ (fun c hc => by
    rw [almostBigValue, List.mem_replicate] at hc
    rw [hc.2]; decide)

theorem strlenL_almostBigValue : strlenL almostBigValue = SIZE - 1 := by
  unfold strlenL; rw [cstrL_almostBigValue]; simp [almostBigValue]

theorem envAlmostBig_A : envAlmostBig "A".toList = some almostBigValue := by
  simp [envAlmostBig]

theorem noGrowth_envNone : NoGrowth envNone := by
  intro name val h; simp [envNone] at h

/-- Inside quotes, a value of `SIZE - 1` characters and the blank after it fill `temp`. -/
theorem vScan_quoted_value_full (getenv : Env) (val : List Char)
    (hval : getenv "A".toList = some val) (hlen : strlenL val = SIZE - 1) :
    vScan getenv mallocOk (DQUOTE :: DOLLAR :: "A".toList ++ [SPACE]) (initView [])
      = .ok { out := [[]], tok := cstrL val ++ [SPACE], var := [], quotes := 1,
              env_flag := false } := by
  have hs : SIZE - 1 < SIZE := by decide
  have hsp : isBlank SPACE = true := by decide
  rw [List.cons_append, vScan_cons, vStep_quote_open getenv mallocOk DQUOTE (by decide) _ rfl,
    bind_ok_eq, vScan_append,
    vScan_reference getenv mallocOk "A".toList (by decide) _ rfl (by decide)]
  simp only [bind_ok_eq, vScan, vStep, vStepBlank, hsp, if_true, initView]
  rw [vResolve_defined getenv "A".toList val _ rfl (by decide) (by decide) hval
    (by simp only [List.length_nil, Nat.zero_add, hlen]; omega)]
  have hc : (cstrL val).length < SIZE := by rw [← strlenL, hlen]; exact hs
  simp only [bind_ok_eq, List.nil_append, vPushTemp, hc, if_true, if_false,
    Nat.succ_ne_zero, Nat.reduceEqDiff]

/-- One more character after a full `temp` is stored outside the array. -/
theorem vScan_after_full (getenv : Env) (val : List Char) (hlen : strlenL val = SIZE - 1) :
    vScan getenv mallocOk "b".toList
        { out := [[]], tok := cstrL val ++ [SPACE], var := [], quotes := 1, env_flag := false }
      = .fault .outOfBounds := by
  have h1 : isBlank (Char.ofNat 98) = false := by decide
  have h2 : isQuote (Char.ofNat 98) = false := by decide
  have h3 : ¬ (Char.ofNat 98 = DOLLAR) := by decide
  have hc : ¬ ((cstrL val ++ [SPACE]).length < SIZE) := by
    simp only [List.length_append, List.length_singleton]
    rw [← strlenL, hlen]; decide
  show vScan getenv mallocOk [Char.ofNat 98] _ = _
  simp only [vScan, vStep, h1, h2, h3, if_false, Bool.false_eq_true, vPushTemp, hc]
  rfl

/-- C9 as stated fails: in `envAlmostBig` the line `"$A ` is tokenized to no token, and the
same line followed by the word `b`, which holds no blank and no quote, ends in a store
outside `temp`. -/
theorem trailing_word_overflow :
    (∀ c ∈ "b".toList, isBlank c = false ∧ isQuote c = false) ∧
    tokenize envAlmostBig (DQUOTE :: DOLLAR :: "A".toList ++ [SPACE]) = .ok [] ∧
    tokenize envAlmostBig ((DQUOTE :: DOLLAR :: "A".toList ++ [SPACE]) ++ "b".toList)
      = .fault .outOfBounds ∧
    tokenize envAlmostBig ((DQUOTE :: DOLLAR :: "A".toList ++ [SPACE]) ++ "b".toList)
      ≠ tokenize envAlmostBig (DQUOTE :: DOLLAR :: "A".toList ++ [SPACE]) := by
  have hn1 : cstrL (DQUOTE :: DOLLAR :: "A".toList ++ [SPACE])
      = DQUOTE :: DOLLAR :: "A".toList ++ [SPACE] := by decide
  have hn2 : cstrL ((DQUOTE :: DOLLAR :: "A".toList ++ [SPACE]) ++ "b".toList)
      = (DQUOTE :: DOLLAR :: "A".toList ++ [SPACE]) ++ "b".toList := by decide
  have e1 : tokenize envAlmostBig (DQUOTE :: DOLLAR :: "A".toList ++ [SPACE]) = .ok [] := by
    rw [tokenize_eq_view, hn1,
      vScan_quoted_value_full envAlmostBig almostBigValue envAlmostBig_A strlenL_almostBigValue]
    rfl
  have e2 : tokenize envAlmostBig ((DQUOTE :: DOLLAR :: "A".toList ++ [SPACE]) ++ "b".toList)
      = .fault .outOfBounds := by
    rw [tokenize_eq_view, hn2, vScan_append,
      vScan_quoted_value_full envAlmostBig almostBigValue envAlmostBig_A strlenL_almostBigValue,
      bind_ok_eq, vScan_after_full envAlmostBig almostBigValue strlenL_almostBigValue]
    rfl
  refine ⟨by decide, e1, e2, ?_⟩
  rw [e1, e2]; simp

/-- C9, amended. A trailing word is lost unless its scan overflows a buffer: for every
environment, every line `l` and every string `w` without blank and without quote (it may
hold `$`), the line `l w` is tokenized to the result of `l`, or ends in a store outside a
buffer; when `l w` fits the line buffer and no defined variable has a value longer than
its reference, it is tokenized to the result of `l`. The line `abc` yields no token, and
the reference at the end of the line `x $NAME` is dropped. -/
theorem trailing_word_lost (getenv : Env) (l w : List Char)
    (hw : ∀ c ∈ w, isBlank c = false ∧ isQuote c = false) :
    (tokenize getenv (l ++ w) = tokenize getenv l ∨
      tokenize getenv (l ++ w) = .fault .outOfBounds) ∧
    ((l ++ w).length < SIZE → NoGrowth getenv →
      tokenize getenv (l ++ w) = tokenize getenv l) ∧
    tokenize getenv "abc".toList = .ok [] ∧
    tokenize getenv ("x ".toList ++ DOLLAR :: "NAME".toList) = .ok ["x".toList] := by
  refine ⟨tokenize_trailing getenv l w hw, ?_, rfl, rfl⟩
  intro hlen hng
  obtain ⟨u, hu, hsub, hle⟩ := cstrL_append l w
  rw [tokenize_eq_view, tokenize_eq_view, hu, vScan_append]
  cases hv : vScan getenv mallocOk (cstrL l) (initView []) with
  | fault e => rfl
  | ok v =>
    rw [bind_ok_eq]
    obtain ⟨_, hb⟩ := vScan_bound getenv mallocOk hng (cstrL l) _ v (initView_pending []) hv
    simp only [initView, List.length_nil, Nat.zero_add] at hb
    rcases vScan_noBreak getenv mallocOk u (fun c hc => hw c (hsub c hc)) v with
      ⟨v1, h1, h2⟩ | ⟨_, h2⟩
    · rw [h1]; simp only [Outcome.map, h2]
    · omega

/-- C9 amended, at the line `ab ` and the trailing word `c$d`, with no variable defined. -/
theorem trailing_word_lost_witness :
    (∀ c ∈ "c$d".toList, isBlank c = false ∧ isQuote c = false) ∧
    tokenize envNone ("ab ".toList ++ "c$d".toList) = tokenize envNone "ab ".toList ∧
    tokenize envNone "ab ".toList = .ok ["ab".toList] :=
  ⟨by decide,
   (trailing_word_lost envNone "ab ".toList "c$d".toList (by decide)).2.1 (by decide)
     noGrowth_envNone,
   by decide⟩

/-! ## Quotes and pending references -/

/-- Closing a reference appends its expansion to the token, when it fits. -/
theorem vResolve_ok (getenv : Env) (v : View) (hvar : v.var.length < SIZE)
    (hcap : v.tok.length + (expand getenv v.var).length ≤ SIZE) :
    vResolve getenv v
      = .ok { v with env_flag := false, tok := v.tok ++ expand getenv v.var, var := [] } := by
  unfold vResolve vPushTemp expand
  unfold expand at hcap
  by_cases h1 : v.var.length = 1
  · simp only [h1, if_true] at hcap ⊢
    have h2 : v.tok.length < SIZE := by simp at hcap; omega
    have h3 : (1 : Nat) < SIZE := by decide
    simp only [h2, h3, if_true, Outcome.map]
  · simp only [h1, if_false, hvar, if_true] at hcap ⊢
    cases hg : getenv v.var.tail with
    | none => simp
    | some val =>
      simp only [hg] at hcap
      have : strlenL val = 0 ∨ v.tok.length + strlenL val ≤ SIZE := Or.inr hcap
      simp only [this, if_true]

theorem vResolve_eq (getenv : Env) (v v1 : View) (h : vResolve getenv v = .ok v1) :
    v1 = { v with env_flag := false, tok := v.tok ++ expand getenv v.var, var := [] } := by
  unfold vResolve vPushTemp at h
  unfold expand
  split_ifs at h with h1 h2 h3
  · simp only [Outcome.map, Outcome.ok.injEq] at h
    subst h; simp [h2]
  · simp [Outcome.map] at h
  · split at h
    · rename_i val hval
      split_ifs at h
      simp only [Outcome.ok.injEq] at h
      subst h; simp [h2, hval]
    · rename_i hval
      simp only [Outcome.ok.injEq] at h
      subst h; simp [h2, hval]

theorem rep_of_step_ok (getenv : Env) (malloc : Malloc) (c : Char) (hc : c ≠ NUL)
    (s s1 : State) (hi : Inv s) (h : step getenv malloc c s = .ok s1) :
    vStep getenv malloc c (view s) = .ok (view s1) ∧ Inv s1 := by
  have hr := step_rep getenv malloc c hc s (view s) ⟨hi, rfl⟩
  rw [h] at hr
  cases hv : vStep getenv malloc c (view s) with
  | fault e => rw [hv] at hr; exact absurd hr (by simp [OutRep])
  | ok v1 =>
    rw [hv] at hr
    simp only [OutRep, Rep] at hr
    exact ⟨by rw [hr.2], hr.1⟩

theorem step_ok_of_view (getenv : Env) (malloc : Malloc) (c : Char) (hc : c ≠ NUL)
    (s : State) (v1 : View) (hi : Inv s) (h : vStep getenv malloc c (view s) = .ok v1) :
    ∃ s1, step getenv malloc c s = .ok s1 ∧ view s1 = v1 := by
  have hr := step_rep getenv malloc c hc s (view s) ⟨hi, rfl⟩
  rw [h] at hr
  cases hs : step getenv malloc c s with
  | fault e => rw [hs] at hr; exact absurd hr (by simp [OutRep])
  | ok s1 =>
    rw [hs] at hr
    exact ⟨s1, rfl, hr.2⟩

/-- C10 at its failing input: with `FOO` defined as `bar`, the line `$FOO"x" ` yields no
token (not the token `barx`). The opening quote (lines 165-166) only sets `quotes`: after
it the reference is still pending and the token buffer is empty, so the `x` extends the
name and `getenv` is asked for `FOOx`. Every other character that cannot belong to a name
closes the reference first: a blank outside quotes (`$FOO x ` gives `bar`, `x`), a blank
inside quotes (`"$FOO x" ` gives `bar x`) and a closing quote (`"$FOO"x ` gives `bar`,
`x`). -/
theorem opening_quote_keeps_reference :
    envFoo "FOO".toList = some "bar".toList ∧
    tokenize envFoo (DOLLAR :: "FOO".toList ++ DQUOTE :: "x".toList ++ [DQUOTE, SPACE])
      = .ok [] ∧
    tokenize envFoo (DOLLAR :: "FOO".toList ++ DQUOTE :: "x".toList ++ [DQUOTE, SPACE])
      ≠ .ok ["barx".toList] ∧
    (scan envFoo mallocOk (DOLLAR :: "FOO".toList ++ [DQUOTE]) (initState [])).map
        (fun s => (s.env_flag, s.quotes, s.pos, s.ref))
      = .ok (true, 1, 0, "$FOO".toList) ∧
    referenced envFoo mallocOk (DOLLAR :: "FOO".toList ++ DQUOTE :: "x".toList ++ [DQUOTE, SPACE])
      = ["FOOx".toList] ∧
    initialize_main envFoo mallocOk ["readlink".toList]
        (DOLLAR :: "FOO".toList ++ DQUOTE :: "x".toList ++ [DQUOTE, SPACE, NEWLINE])
      = .ok (1, ["readlink".toList]) ∧
    tokenize envFoo (DOLLAR :: "FOO x ".toList) = .ok ["bar".toList, "x".toList] ∧
    tokenize envFoo (DQUOTE :: DOLLAR :: "FOO x".toList ++ [DQUOTE, SPACE])
      = .ok ["bar x".toList] ∧
    tokenize envFoo (DQUOTE :: DOLLAR :: "FOO".toList ++ DQUOTE :: "x ".toList)
      = .ok ["bar".toList, "x".toList] := by
  decide

/-- The two arms of the quote branch with a reference pending: in every state that the
loop can reach (they satisfy `Inv`, see `scan_rep`) with a reference pending, a quote
character met outside quotes only sets `quotes` to 1, and the reference stays pending;
met inside quotes, it leaves, when the step returns, no reference pending, `env_var`
empty, `quotes` one lower and the token buffer empty, and the token followed by the
expansion of the reference is stored in `iargv` unless it is empty; the step returns when
the reference, the token with the expansion and its terminator, and one more argument fit
the arrays and the allocation succeeds. -/
theorem closing_quote_resolves (getenv : Env) (malloc : Malloc) (c : Char) (s : State)
    (hi : Inv s) (hq : isQuote c = true) (hflag : s.env_flag = true) :
    (s.quotes = 0 → step getenv malloc c s = .ok { s with quotes := 1 }) ∧
    (s.quotes ≠ 0 →
      (∀ s1, step getenv malloc c s = .ok s1 →
        s1.env_flag = false ∧ s1.env_var_size = 0 ∧ s1.quotes = s.quotes - 1 ∧ s1.pos = 0 ∧
        s1.iargv = s.iargv ++
          (if s.tok ++ expand getenv s.ref = [] then [] else [s.tok ++ expand getenv s.ref])) ∧
      (s.env_var_size < SIZE → s.pos + (expand getenv s.ref).length < SIZE →
        s.iargc < SIZE → malloc s.iargc (s.pos + (expand getenv s.ref).length) = true →
        ∃ s1, step getenv malloc c s = .ok s1)) := by
  have hnb := isQuote_not_blank c hq
  have hcn := isQuote_ne_NUL c hq
  refine ⟨?_, ?_⟩
  · intro h0
    simp [step, stepQuote, hnb, hq, h0]
  · intro hn
    have hstep : vStep getenv malloc c (view s)
        = (vResolve getenv { view s with quotes := s.quotes - 1 }).bind fun v1 =>
            if 0 < v1.tok.length then vFinalize malloc false v1 else .ok v1 := by
      have e1 : (view s).quotes = s.quotes := rfl
      have e2 : (view s).env_flag = true := hflag
      simp only [vStep, hnb, hq, if_true, if_false, Bool.false_eq_true, vStepQuote, e1, hn, e2]
    constructor
    · intro s1 h1
      obtain ⟨hv, _⟩ := rep_of_step_ok getenv malloc c hcn s s1 hi h1
      rw [hstep] at hv
      obtain ⟨a, ha, hb⟩ := bind_eq_ok _ _ _ hv
      have ea := vResolve_eq getenv _ a ha
      have hpos : ∀ t : State, (view t).tok = [] → t.pos = 0 := by
        intro t ht
        have := congrArg List.length ht
        simpa [view, slice_length] using this
      have hvar : ∀ t : State, (view t).var = [] → t.env_var_size = 0 := by
        intro t ht
        have := congrArg List.length ht
        simpa [view, slice_length] using this
      have hatok : a.tok = s.tok ++ expand getenv s.ref := by rw [ea]; rfl
      by_cases ht : 0 < a.tok.length
      · rw [if_pos ht] at hb
        obtain ⟨f1, f2, f3, f4, f5⟩ := vFinalize_fields malloc false a (view s1) hb
        have hne : ¬ (s.tok ++ expand getenv s.ref = []) := by
          rw [← hatok]; exact List.length_pos.mp ht
        refine ⟨?_, hvar s1 ?_, ?_, hpos s1 f3, ?_⟩
        · have : (view s1).env_flag = false := by rw [f2, ea]
          exact this
        · rw [f4, ea]
        · have : (view s1).quotes = s.quotes - 1 := by rw [f1, ea]
          exact this
        · rw [if_neg hne, ← hatok]
          have : (view s1).out = s.iargv ++ [a.tok] := by rw [f5, ea]; rfl
          exact this
      · rw [if_neg ht] at hb
        simp only [Outcome.ok.injEq] at hb
        have hnil : a.tok = [] := List.length_eq_zero.mp (by omega)
        have he : s.tok ++ expand getenv s.ref = [] := by rw [← hatok]; exact hnil
        refine ⟨?_, hvar s1 ?_, ?_, hpos s1 ?_, ?_⟩
        · have : (view s1).env_flag = false := by rw [← hb, ea]
          exact this
        · rw [← hb, ea]
        · have : (view s1).quotes = s.quotes - 1 := by rw [← hb, ea]
          exact this
        · rw [← hb]; exact hnil
        · rw [if_pos he, List.append_nil]
          have : (view s1).out = s.iargv := by rw [← hb, ea]; rfl
          exact this
    · intro h1 h2 h3 h4
      have hlen : (view s).tok.length = s.pos := by simp [view, slice_length]
      have hr := vResolve_ok getenv { view s with quotes := s.quotes - 1 }
        (by simpa [view, slice_length] using h1)
        (by
          show (view s).tok.length + (expand getenv s.ref).length ≤ SIZE
          rw [hlen]; omega)
      rw [hr, bind_ok_eq] at hstep
      have hl2 : ((view s).tok ++ expand getenv (view s).var).length
          = s.pos + (expand getenv s.ref).length := by
        rw [List.length_append, hlen]; rfl
      by_cases ht : 0 < ((view s).tok ++ expand getenv (view s).var).length
      · have hfin : vFinalize malloc false
            { out := (view s).out, tok := (view s).tok ++ expand getenv (view s).var, var := [],
              quotes := s.quotes - 1, env_flag := false }
            = .ok { out := (view s).out ++ [(view s).tok ++ expand getenv (view s).var],
                    tok := [], var := [], quotes := s.quotes - 1, env_flag := false } := by
          have c1 : ((view s).tok ++ expand getenv (view s).var).length < SIZE := by
            rw [hl2]; exact h2
          have c2 : (view s).out.length < SIZE := h3
          have c3 : malloc (view s).out.length
              ((view s).tok ++ expand getenv (view s).var).length = true := by
            rw [hl2]; exact h4
          simp only [vFinalize, c1, c2, c3, if_true]
        simp only [ht, if_true] at hstep
        rw [hfin] at hstep
        obtain ⟨s1, hs1, _⟩ := step_ok_of_view getenv malloc c hcn s _ hi hstep
        exact ⟨s1, hs1⟩
      · simp only [ht, if_false] at hstep
        obtain ⟨s1, hs1, _⟩ := step_ok_of_view getenv malloc c hcn s _ hi hstep
        exact ⟨s1, hs1⟩

theorem quotedFooState_inv : Inv quotedFooState :=
  ⟨fun j hj => by simp [quotedFooState] at hj, fun _ => rfl,
   by
    have : ∀ j, j < 4 → "$FOO".toList.getD j NUL ≠ NUL := by decide
    exact this,
   fun _ => by decide⟩

/-- The closing-quote arm at the state after `"$FOO`, with `FOO` defined as `bar`: the
step returns and stores `bar`; and the line `"$FOO"x `, tokenized to `bar` and `x`. -/
theorem closing_quote_resolves_witness :
    (isQuote DQUOTE = true ∧ quotedFooState.env_flag = true ∧ quotedFooState.quotes ≠ 0) ∧
    (∃ s1, step envFoo mallocOk DQUOTE quotedFooState = .ok s1) ∧
    (step envFoo mallocOk DQUOTE quotedFooState).map
        (fun s => (s.env_flag, s.env_var_size, s.quotes, s.pos, s.iargv))
      = .ok (false, 0, 0, 0, [[], "bar".toList]) ∧
    tokenize envFoo (DQUOTE :: DOLLAR :: "FOO".toList ++ DQUOTE :: "x ".toList)
      = .ok ["bar".toList, "x".toList] :=
  ⟨⟨by decide, rfl, by decide⟩,
   ((closing_quote_resolves envFoo mallocOk DQUOTE quotedFooState quotedFooState_inv
      (by decide) rfl).2 (by decide)).2 (by decide) (by decide) (by decide) rfl,
   rfl, by decide⟩

/-! ## The variables a line references -/

theorem lookupOf_rep (c : Char) (s : State) (v : View) (h : Rep s v) :
    lookupOf c s = vLookupOf c v := by
  obtain ⟨hi, rfl⟩ := h
  unfold lookupOf vLookupOf
  simp only [view, slice_length]
  by_cases hc : (isBlank c = true ∨ (isQuote c = true ∧ s.quotes ≠ 0)) ∧ s.env_flag = true ∧
      s.env_var_size < SIZE
  · rw [if_pos hc, if_pos hc]
    obtain ⟨_, hf, hp⟩ := hc
    simp only [strlen, strlen_store_var s hi hp, name_store_var s hi hp (hi.var_pos hf),
      slice_length]
  · rw [if_neg hc, if_neg hc]

theorem lookups_rep (getenv : Env) (malloc : Malloc) (cs : List Char)
    (hcs : ∀ c ∈ cs, c ≠ NUL) (s : State) (v : View) (h : Rep s v) :
    lookups getenv malloc cs s = vLookups getenv malloc cs v := by
  induction cs generalizing s v with
  | nil => rfl
  | cons c cs ih =>
    have hr := step_rep getenv malloc c (hcs c (List.mem_cons_self _ _)) s v h
    simp only [lookups, vLookups, lookupOf_rep c s v h]
    congr 1
    revert hr
    cases step getenv malloc c s <;> cases vStep getenv malloc c v <;>
      simp only [OutRep, false_imp_iff, imp_true_iff]
    intro hr
    exact ih (fun d hd => hcs d (List.mem_cons_of_mem _ hd)) _ _ hr

theorem referenced_eq_view (getenv : Env) (malloc : Malloc) (line : List Char) :
    referenced getenv malloc line = vLookups getenv malloc (cstrL line) (initView []) :=
  lookups_rep getenv malloc (cstrL line) (cstrL_ne line) _ _ (initState_rep [])

theorem vLookups_append (getenv : Env) (malloc : Malloc) (cs ds : List Char) (v v1 : View)
    (h : vScan getenv malloc cs v = .ok v1) :
    vLookups getenv malloc (cs ++ ds) v
      = vLookups getenv malloc cs v ++ vLookups getenv malloc ds v1 := by
  induction cs generalizing v with
  | nil =>
    simp only [vScan, Outcome.ok.injEq] at h
    subst h; rfl
  | cons c cs ih =>
    rw [vScan_cons] at h
    obtain ⟨a, ha, hb⟩ := bind_eq_ok _ _ _ h
    rw [List.cons_append]
    simp only [vLookups, ha]
    rw [ih a hb, List.append_assoc]

/-! ## The scan stays inside the arrays when no expansion grows the text -/

theorem expand_le (getenv : Env) (var : List Char) (hv : var ≠ [])
    (hfit : var.length ≠ 1 → Fits getenv var.tail) :
    (expand getenv var).length ≤ var.length := by
  have hpos := List.length_pos.mpr hv
  unfold expand
  by_cases h1 : var.length = 1
  · simp [h1]
  · rw [if_neg h1]
    cases hg : getenv var.tail with
    | none => simp
    | some val =>
      have := hfit h1 val hg
      rw [List.length_tail, strlenL] at this
      simp only
      omega

theorem within_bind {x : Outcome View} {f : View → Outcome View} {P Q : View → Prop}
    (hx : Within x P) (hf : ∀ a, P a → Within (f a) Q) : Within (x.bind f) Q := by
  cases x with
  | ok a => exact hf a hx
  | fault e => exact hx

theorem within_mono {x : Outcome View} {P Q : View → Prop} (hx : Within x P)
    (h : ∀ a, P a → Q a) : Within x Q := by
  cases x with
  | ok a => exact h a hx
  | fault e => exact hx

theorem vMaybeResolve_fits (getenv : Env) (v : View) (hp : Pending v)
    (hfit : v.env_flag = true → v.var.length ≠ 1 → Fits getenv v.var.tail)
    (hcap : v.tok.length + v.var.length < SIZE) :
    Within (if v.env_flag = true then vResolve getenv v else .ok v) (fun a =>
      Pending a ∧ a.tok.length + a.var.length ≤ v.tok.length + v.var.length ∧
        a.quotes = v.quotes ∧ a.out = v.out) := by
  by_cases hf : v.env_flag = true
  · rw [if_pos hf]
    have hle := expand_le getenv v.var (hp hf) (hfit hf)
    rw [vResolve_ok getenv v (by omega) (by omega)]
    refine ⟨fun h => by simp at h, ?_, rfl, rfl⟩
    simp only [List.length_append, List.length_nil]
    omega
  · rw [if_neg hf]
    exact ⟨hp, Nat.le_refl _, rfl, rfl⟩

theorem vMaybeFinalize_fits (malloc : Malloc) (checked : Bool) (a : View)
    (hcap : a.tok.length < SIZE) (hout : a.out.length < SIZE) :
    Within (if 0 < a.tok.length then vFinalize malloc checked a else .ok a) (fun v1 =>
      v1.tok.length ≤ a.tok.length ∧ v1.var = a.var ∧ v1.env_flag = a.env_flag ∧
        v1.out.length ≤ a.out.length + 1 ∧ v1.quotes = a.quotes) := by
  by_cases ht : 0 < a.tok.length
  · rw [if_pos ht]
    unfold vFinalize
    rw [if_pos hcap, if_pos hout]
    by_cases hm : malloc a.out.length a.tok.length = true
    · rw [if_pos hm]
      exact ⟨by simp, rfl, rfl, by simp, rfl⟩
    · rw [if_neg hm]
      cases checked <;> simp [Within]
  · rw [if_neg ht]
    exact ⟨Nat.le_refl _, rfl, rfl, by omega, rfl⟩

/-- One character, processed with room in the arrays and an expansion that fits: no store
falls outside an array, the two buffers together grow by at most one character, and at
most one argument is stored, by a blank or a quote only. -/
theorem vStep_fits (getenv : Env) (malloc : Malloc) (c : Char) (v : View) (hp : Pending v)
    (hfit : ∀ name ∈ (vLookupOf c v).toList, Fits getenv name)
    (hcap : v.tok.length + v.var.length < SIZE) (hout : v.out.length < SIZE) :
    Within (vStep getenv malloc c v) (fun v1 =>
      Pending v1 ∧ v1.tok.length + v1.var.length ≤ v.tok.length + v.var.length + 1 ∧
        v1.out.length ≤ v.out.length + (if isBreak c = true then 1 else 0)) := by
  unfold vStep
  by_cases h1 : isBlank c = true
  · have hbr : isBreak c = true := by simp [isBreak, h1]
    rw [if_pos h1, if_pos hbr]
    unfold vStepBlank
    have hfit2 : v.env_flag = true → v.var.length ≠ 1 → Fits getenv v.var.tail := by
      intro hf hn
      apply hfit
      have hlt : v.var.length < SIZE := by omega
      simp [vLookupOf, h1, hf, hlt, hn]
    refine within_bind (vMaybeResolve_fits getenv v hp hfit2 hcap) ?_
    rintro a ⟨pa, ba, qa, oa⟩
    by_cases hq : a.quotes = 0
    · rw [if_pos hq]
      refine within_mono (vMaybeFinalize_fits malloc true a (by omega) (by rw [oa]; exact hout)) ?_
      rintro v1 ⟨e1, e2, e3, e4, _⟩
      refine ⟨fun hh => ?_, by rw [e2]; omega, by rw [oa] at e4; exact e4⟩
      rw [e2]; exact pa (e3 ▸ hh)
    · rw [if_neg hq]
      unfold vPushTemp
      rw [if_pos (by omega)]
      refine ⟨pa, ?_, by rw [oa]; omega⟩
      simp only [List.length_append, List.length_singleton]; omega
  · rw [if_neg h1]
    by_cases h2 : isQuote c = true
    · have hbr : isBreak c = true := by simp [isBreak, h2]
      rw [if_pos h2, if_pos hbr]
      unfold vStepQuote
      by_cases hq : v.quotes = 0
      · rw [if_pos hq]
        exact ⟨hp, by simp, by simp⟩
      · rw [if_neg hq]
        have hfit2 : v.env_flag = true → v.var.length ≠ 1 → Fits getenv v.var.tail := by
          intro hf hn
          apply hfit
          have hlt : v.var.length < SIZE := by omega
          simp [vLookupOf, h2, hq, hf, hlt, hn]
        refine within_bind
          (vMaybeResolve_fits getenv { v with quotes := v.quotes - 1 } hp hfit2 hcap) ?_
        rintro a ⟨pa, ba, qa, oa⟩
        simp only at ba oa
        refine within_mono
          (vMaybeFinalize_fits malloc false a (by omega) (by rw [oa]; exact hout)) ?_
        rintro v1 ⟨e1, e2, e3, e4, _⟩
        refine ⟨fun hh => ?_, by rw [e2]; omega, by rw [oa] at e4; exact e4⟩
        rw [e2]; exact pa (e3 ▸ hh)
    · have hbr : ¬ (isBreak c = true) := by simp [isBreak, h1, h2]
      rw [if_neg h2, if_neg hbr]
      by_cases h3 : c = DOLLAR
      · rw [if_pos h3]
        unfold vPushVar
        rw [if_pos (by simp only; omega)]
        exact ⟨fun _ => by simp, by simp only [List.length_append, List.length_singleton]; omega,
          by simp⟩
      · rw [if_neg h3]
        by_cases h4 : v.env_flag = true
        · rw [if_pos h4]
          unfold vPushVar
          rw [if_pos (by omega)]
          exact ⟨fun _ => by simp,
            by simp only [List.length_append, List.length_singleton]; omega, by simp⟩
        · rw [if_neg h4]
          unfold vPushTemp
          rw [if_pos (by omega)]
          exact ⟨fun hh => absurd hh h4,
            by simp only [List.length_append, List.length_singleton]; omega, by simp⟩

theorem vScan_fits (getenv : Env) (malloc : Malloc) (cs : List Char) (v : View)
    (hp : Pending v) (hfit : ∀ name ∈ vLookups getenv malloc cs v, Fits getenv name)
    (hcap : v.tok.length + v.var.length + cs.length ≤ SIZE)
    (hout : v.out.length + cs.length ≤ SIZE) :
    Within (vScan getenv malloc cs v) (fun v1 =>
      Pending v1 ∧ v1.tok.length + v1.var.length ≤ v.tok.length + v.var.length + cs.length ∧
        v1.out.length ≤ v.out.length + cs.countP isBreak) := by
  induction cs generalizing v with
  | nil => exact ⟨hp, by simp, by simp⟩
  | cons c cs ih =>
    simp only [List.length_cons] at hcap hout
    rw [vScan_cons]
    have hfit1 : ∀ name ∈ (vLookupOf c v).toList, Fits getenv name := by
      intro name hn
      apply hfit
      simp only [vLookups, List.mem_append]
      exact Or.inl hn
    have hs := vStep_fits getenv malloc c v hp hfit1 (by omega) (by omega)
    cases hv : vStep getenv malloc c v with
    | fault e => rw [hv] at hs; exact hs
    | ok a =>
      rw [hv] at hs
      obtain ⟨pa, ba, oa⟩ := hs
      rw [bind_ok_eq]
      have hoa : a.out.length ≤ v.out.length + 1 := by
        split_ifs at oa <;> omega
      have hfit2 : ∀ name ∈ vLookups getenv malloc cs a, Fits getenv name := by
        intro name hn
        apply hfit
        simp only [vLookups, hv, List.mem_append]
        exact Or.inr hn
      refine within_mono (ih a pa hfit2 (by omega) (by omega)) ?_
      rintro v1 ⟨p1, b1, o1⟩
      refine ⟨p1, by simp only [List.length_cons]; omega, ?_⟩
      rw [List.countP_cons]
      omega

/-! ## Faults when every allocation succeeds -/

theorem bind_eq_fault {α β : Type} (x : Outcome α) (f : α → Outcome β) (e : Fault)
    (h : x.bind f = .fault e) : x = .fault e ∨ ∃ a, x = .ok a ∧ f a = .fault e := by
  cases x with
  | ok a => exact Or.inr ⟨a, rfl, h⟩
  | fault e1 => exact Or.inl (by simpa [Outcome.bind] using h)

theorem vPushTemp_fault (c : Char) (v : View) (e : Fault) (h : vPushTemp c v = .fault e) :
    e = .outOfBounds := by
  unfold vPushTemp at h
  split_ifs at h
  simp only [Outcome.fault.injEq] at h
  exact h.symm

theorem vPushVar_fault (c : Char) (v : View) (e : Fault) (h : vPushVar c v = .fault e) :
    e = .outOfBounds := by
  unfold vPushVar at h
  split_ifs at h
  simp only [Outcome.fault.injEq] at h
  exact h.symm

theorem vResolve_fault (getenv : Env) (v : View) (e : Fault)
    (h : vResolve getenv v = .fault e) : e = .outOfBounds := by
  unfold vResolve vPushTemp at h
  split_ifs at h
  · simp [Outcome.map] at h
  · simp only [Outcome.map, Outcome.fault.injEq] at h
    exact h.symm
  · split at h
    · split_ifs at h
      simp only [Outcome.fault.injEq] at h
      exact h.symm
    · simp at h
  · simp only [Outcome.fault.injEq] at h
    exact h.symm

theorem vFinalize_mallocOk_fault (checked : Bool) (v : View) (e : Fault)
    (h : vFinalize mallocOk checked v = .fault e) : e = .outOfBounds := by
  unfold vFinalize mallocOk at h
  simp only [if_true] at h
  split_ifs at h <;> simp only [Outcome.fault.injEq] at h <;> exact h.symm

/-- With every allocation succeeding, a step can only fail by a store outside an array. -/
theorem vStep_mallocOk_fault (getenv : Env) (c : Char) (v : View) (e : Fault)
    (h : vStep getenv mallocOk c v = .fault e) : e = .outOfBounds := by
  have hres : ∀ w : View, (if w.env_flag = true then vResolve getenv w else Outcome.ok w)
      = .fault e → e = .outOfBounds := by
    intro w hw
    split_ifs at hw
    · exact vResolve_fault getenv w e hw
  have hfin : ∀ (checked : Bool) (w : View),
      (if 0 < w.tok.length then vFinalize mallocOk checked w else Outcome.ok w) = .fault e →
        e = .outOfBounds := by
    intro checked w hw
    split_ifs at hw
    · exact vFinalize_mallocOk_fault checked w e hw
  unfold vStep at h
  split_ifs at h
  · unfold vStepBlank at h
    rcases bind_eq_fault _ _ _ h with h1 | ⟨a, _, h2⟩
    · exact hres v h1
    · split_ifs at h2
      · exact vFinalize_mallocOk_fault true a e h2
      · exact vPushTemp_fault c a e h2
  · unfold vStepQuote at h
    split_ifs at h
    rcases bind_eq_fault _ _ _ h with h1 | ⟨a, _, h2⟩
    · exact hres _ h1
    · exact hfin false a h2
  · exact vPushVar_fault c _ e h
  · exact vPushVar_fault c _ e h
  · exact vPushTemp_fault c _ e h

theorem vScan_mallocOk_fault (getenv : Env) (cs : List Char) (v : View) (e : Fault)
    (h : vScan getenv mallocOk cs v = .fault e) : e = .outOfBounds := by
  induction cs generalizing v with
  | nil => simp [vScan] at h
  | cons c cs ih =>
    rw [vScan_cons] at h
    rcases bind_eq_fault _ _ _ h with h1 | ⟨a, _, h2⟩
    · exact vStep_mallocOk_fault getenv c v e h1
    · exact ih a h2

theorem fgetsAux_length (k : Nat) (l : List Char) : (fgetsAux k l).length ≤ k := by
  induction k generalizing l with
  | zero => simp [fgetsAux]
  | succ k ih =>
    cases l with
    | nil => simp [fgetsAux]
    | cons c cs =>
      simp only [fgetsAux]
      split_ifs
      · simp
      · simp only [List.length_cons]
        have := ih cs
        omega

/-- A line returned by `fgets (str, SIZE, stdin)` has fewer than `SIZE` characters. -/
theorem fgets_length (stdin line : List Char) (h : fgets SIZE stdin = some line) :
    line.length < SIZE := by
  unfold fgets at h
  cases stdin with
  | nil => simp at h
  | cons c cs =>
    simp only [Option.some.injEq] at h
    have := fgetsAux_length (SIZE - 1) (c :: cs)
    rw [h] at this
    have hs : 0 < SIZE := by decide
    omega

theorem cstrL_length_le (l : List Char) : (cstrL l).length ≤ l.length :=
  (List.takeWhile_sublist (fun c => c != NUL) (l := l)).length_le

/-- A line that fits the line buffer and references only variables that fit is scanned
to the end when every allocation succeeds. -/
theorem vScan_total (getenv : Env) (arg0 line : List Char) (hlen : line.length < SIZE)
    (hfit : ∀ name ∈ vLookups getenv mallocOk (cstrL line) (initView arg0), Fits getenv name) :
    ∃ v, vScan getenv mallocOk (cstrL line) (initView arg0) = .ok v := by
  have hl := cstrL_length_le line
  have h := vScan_fits getenv mallocOk (cstrL line) (initView arg0) (initView_pending arg0) hfit
    (by simp only [initView, List.length_nil]; omega)
    (by simp only [initView, List.length_singleton]; omega)
  cases hv : vScan getenv mallocOk (cstrL line) (initView arg0) with
  | ok v => exact ⟨v, rfl⟩
  | fault e =>
    rw [hv] at h
    exact absurd (vScan_mallocOk_fault getenv _ _ e hv) h

/-! ## Tokenization of a line that was obtained -/

theorem fits_envFoo (name : List Char) : Fits envFoo name := by
  intro val h
  unfold envFoo at h
  split_ifs at h with h1
  simp only [Option.some.injEq] at h
  subst h h1
  decide

/-- C11 as stated fails: the line `$A ` with its newline has four characters, `fgets`
returns it, every allocation succeeds, and in `envBig`, where `A` has a value of `SIZE`
characters, `initialize_main` ends in a store outside `temp`. -/
theorem initialize_main_overflow :
    (DOLLAR :: "A".toList ++ [SPACE, NEWLINE]).length < SIZE ∧
    fgets SIZE (DOLLAR :: "A".toList ++ [SPACE, NEWLINE])
      = some (DOLLAR :: "A".toList ++ [SPACE, NEWLINE]) ∧
    initialize_main envBig mallocOk ["readlink".toList] (DOLLAR :: "A".toList ++ [SPACE, NEWLINE])
      = .fault .outOfBounds := by
  have hf : fgets SIZE (DOLLAR :: "A".toList ++ [SPACE, NEWLINE])
      = some (DOLLAR :: "A".toList ++ [SPACE, NEWLINE]) := by decide
  refine ⟨by decide, hf, ?_⟩
  have hn : cstrL (DOLLAR :: "A".toList ++ [SPACE, NEWLINE])
      = (DOLLAR :: "A".toList ++ [SPACE]) ++ [NEWLINE] := by decide
  unfold initialize_main
  rw [hf]
  simp only [List.headD_cons]
  rw [run_eq_view, hn, vScan_append, vScan_variable_overflow envBig "A".toList bigValue SPACE
    (by decide) (by decide) envBig_A (by rw [strlenL_bigValue]) (by decide) _ rfl rfl rfl rfl
    (by decide)]
  rfl

theorem growthOf_append (getenv : Env) (l1 l2 : List (List Char)) :
    growthOf getenv (l1 ++ l2) = growthOf getenv l1 + growthOf getenv l2 := by
  simp [growthOf]

theorem expand_le_growth (getenv : Env) (var : List Char) (hv : var ≠ []) :
    (expand getenv var).length
      ≤ var.length + (if var.length = 1 then 0 else growth getenv var.tail) := by
  have hpos := List.length_pos.mpr hv
  unfold expand growth
  by_cases h1 : var.length = 1
  · simp [h1]
  · rw [if_neg h1, if_neg h1]
    cases hg : getenv var.tail with
    | none => simp
    | some val =>
      simp only [List.length_tail, strlenL]
      omega

theorem vMaybeResolve_room (getenv : Env) (v : View) (hp : Pending v) (g : Nat)
    (hg : v.env_flag = true → v.var.length ≠ 1 → growth getenv v.var.tail ≤ g)
    (hcap : v.tok.length + v.var.length + g < SIZE) :
    Within (if v.env_flag = true then vResolve getenv v else .ok v) (fun a =>
      Pending a ∧ a.tok.length + a.var.length ≤ v.tok.length + v.var.length + g ∧
        a.quotes = v.quotes ∧ a.out = v.out) := by
  by_cases hf : v.env_flag = true
  · rw [if_pos hf]
    have hle := expand_le_growth getenv v.var (hp hf)
    have hle2 : (expand getenv v.var).length ≤ v.var.length + g := by
      by_cases h1 : v.var.length = 1
      · rw [if_pos h1] at hle; omega
      · rw [if_neg h1] at hle
        have := hg hf h1
        omega
    rw [vResolve_ok getenv v (by omega) (by omega)]
    refine ⟨fun h => by simp at h, ?_, rfl, rfl⟩
    simp only [List.length_append, List.length_nil]
    omega
  · rw [if_neg hf]
    exact ⟨hp, by omega, rfl, rfl⟩

/-- One character, processed with room in the arrays for the expansion it closes: no store
falls outside an array, the two buffers together grow by at most one character and the
growth of the variable looked up, and at most one argument is stored. -/
theorem vStep_room (getenv : Env) (malloc : Malloc) (c : Char) (v : View) (hp : Pending v)
    (hcap : v.tok.length + v.var.length + growthOf getenv (vLookupOf c v).toList < SIZE)
    (hout : v.out.length < SIZE) :
    Within (vStep getenv malloc c v) (fun v1 =>
      Pending v1 ∧
        v1.tok.length + v1.var.length
          ≤ v.tok.length + v.var.length + growthOf getenv (vLookupOf c v).toList + 1 ∧
        v1.out.length ≤ v.out.length + 1) := by
  have hlt : v.var.length < SIZE := by omega
  unfold vStep
  by_cases h1 : isBlank c = true
  · rw [if_pos h1]
    unfold vStepBlank
    have hg : v.env_flag = true → v.var.length ≠ 1 →
        growth getenv v.var.tail ≤ growthOf getenv (vLookupOf c v).toList := by
      intro hf hn
      simp [vLookupOf, h1, hf, hlt, hn, growthOf]
    refine within_bind (vMaybeResolve_room getenv v hp _ hg hcap) ?_
    rintro a ⟨pa, ba, qa, oa⟩
    by_cases hq : a.quotes = 0
    · rw [if_pos hq]
      refine within_mono (vMaybeFinalize_fits malloc true a (by omega) (by rw [oa]; exact hout)) ?_
      rintro v1 ⟨e1, e2, e3, e4, _⟩
      refine ⟨fun hh => ?_, by rw [e2]; omega, by rw [oa] at e4; exact e4⟩
      rw [e2]; exact pa (e3 ▸ hh)
    · rw [if_neg hq]
      unfold vPushTemp
      rw [if_pos (by omega)]
      refine ⟨pa, ?_, by rw [oa]; omega⟩
      simp only [List.length_append, List.length_singleton]; omega
  · rw [if_neg h1]
    by_cases h2 : isQuote c = true
    · rw [if_pos h2]
      unfold vStepQuote
      by_cases hq : v.quotes = 0
      · rw [if_pos hq]
        exact ⟨hp, by simp only; omega, by simp⟩
      · rw [if_neg hq]
        have hg : v.env_flag = true → v.var.length ≠ 1 →
            growth getenv v.var.tail ≤ growthOf getenv (vLookupOf c v).toList := by
          intro hf hn
          simp [vLookupOf, h2, hq, hf, hlt, hn, growthOf]
        refine within_bind
          (vMaybeResolve_room getenv { v with quotes := v.quotes - 1 } hp _ hg hcap) ?_
        rintro a ⟨pa, ba, qa, oa⟩
        simp only at ba oa
        refine within_mono
          (vMaybeFinalize_fits malloc false a (by omega) (by rw [oa]; exact hout)) ?_
        rintro v1 ⟨e1, e2, e3, e4, _⟩
        refine ⟨fun hh => ?_, by rw [e2]; omega, by rw [oa] at e4; exact e4⟩
        rw [e2]; exact pa (e3 ▸ hh)
    · rw [if_neg h2]
      by_cases h3 : c = DOLLAR
      · rw [if_pos h3]
        unfold vPushVar
        rw [if_pos (by simp only; omega)]
        exact ⟨fun _ => by simp, by simp only [List.length_append, List.length_singleton]; omega,
          by simp⟩
      · rw [if_neg h3]
        by_cases h4 : v.env_flag = true
        · rw [if_pos h4]
          unfold vPushVar
          rw [if_pos (by omega)]
          exact ⟨fun _ => by simp,
            by simp only [List.length_append, List.length_singleton]; omega, by simp⟩
        · rw [if_neg h4]
          unfold vPushTemp
          rw [if_pos (by omega)]
          exact ⟨fun hh => absurd hh h4,
            by simp only [List.length_append, List.length_singleton]; omega, by simp⟩

/-- The scan makes no store outside an array when the characters in the two buffers, the
characters still to come and the growth of the variables still to be looked up fit the
buffer together. -/
theorem vScan_room (getenv : Env) (malloc : Malloc) (cs : List Char) (v : View)
    (hp : Pending v)
    (hcap : v.tok.length + v.var.length + cs.length
      + growthOf getenv (vLookups getenv malloc cs v) ≤ SIZE)
    (hout : v.out.length + cs.length ≤ SIZE) :
    Within (vScan getenv malloc cs v) (fun _ => True) := by
  induction cs generalizing v with
  | nil => exact True.intro
  | cons c cs ih =>
    simp only [List.length_cons, vLookups, growthOf_append] at hcap hout
    rw [vScan_cons]
    have hs := vStep_room getenv malloc c v hp (by omega) (by omega)
    cases hv : vStep getenv malloc c v with
    | fault e => rw [hv] at hs; exact hs
    | ok a =>
      rw [hv] at hs hcap
      obtain ⟨pa, ba, oa⟩ := hs
      rw [bind_ok_eq]
      simp only at hcap
      exact ih a pa (by omega) (by omega)

/-- C11, amended. Once a line has been obtained, tokenization fails only by an expansion
that overruns a buffer: for every line and every environment, with every allocation
succeeding, the scan runs to the end of the line and `initialize_main` returns the
program name followed by the tokens, or it stops at a store outside an array, and then
the length of the line and the growth of the variables it looked up (for each call of
`getenv`, what the value has more than its reference `$NAME`) add up to `SIZE` or more.
No exit is taken and no other failure occurs, whatever the quotes and the `$` of the
line. -/
theorem tokenization_total (getenv : Env) (line : List Char) :
    (∃ toks, tokenize getenv line = .ok toks ∧
      (∀ P, run getenv mallocOk P line = .ok (toks.length + 1, P :: toks)) ∧
      (∀ P rest stdin, fgets SIZE stdin = some line →
        initialize_main getenv mallocOk (P :: rest) stdin
          = .ok (toks.length + 1, P :: toks))) ∨
    (SIZE ≤ line.length + totalGrowth getenv line ∧
      tokenize getenv line = .fault .outOfBounds ∧
      (∀ P, run getenv mallocOk P line = .fault .outOfBounds) ∧
      (∀ P rest stdin, fgets SIZE stdin = some line →
        initialize_main getenv mallocOk (P :: rest) stdin = .fault .outOfBounds)) := by
  cases hv : vScan getenv mallocOk (cstrL line) (initView []) with
  | ok v =>
    have ht : tokenize getenv line = .ok v.out.tail := by
      rw [tokenize_eq_view, hv]; rfl
    have hr : ∀ P, run getenv mallocOk P line
        = .ok (v.out.tail.length + 1, P :: v.out.tail) := by
      intro P
      have hs : scanTokens getenv mallocOk line = .ok v.out.tail := ht
      rw [run_arg0, hs]; rfl
    refine Or.inl ⟨v.out.tail, ht, hr, ?_⟩
    intro P rest stdin hline
    unfold initialize_main
    rw [hline]
    exact hr P
  | fault e =>
    have he := vScan_mallocOk_fault getenv _ _ e hv
    subst he
    have ht : tokenize getenv line = .fault .outOfBounds := by
      rw [tokenize_eq_view, hv]; rfl
    have hr : ∀ P, run getenv mallocOk P line = .fault .outOfBounds := by
      intro P
      have hs : scanTokens getenv mallocOk line = .fault .outOfBounds := ht
      rw [run_arg0, hs]; rfl
    refine Or.inr ⟨?_, ht, hr, ?_⟩
    · by_contra hlt
      have hl := cstrL_length_le line
      have hg : totalGrowth getenv line
          = growthOf getenv (vLookups getenv mallocOk (cstrL line) (initView [])) := by
        unfold totalGrowth
        rw [referenced_eq_view]
      have h1 : (initView []).tok.length = 0 := rfl
      have h2 : (initView []).var.length = 0 := rfl
      have h3 : (initView []).out.length = 1 := rfl
      have h := vScan_room getenv mallocOk (cstrL line) (initView []) (initView_pending [])
        (by omega) (by omega)
      rw [hv] at h
      exact h rfl
    · intro P rest stdin hline
      unfold initialize_main
      rw [hline]
      exact hr P

/-- C11 amended, at the line `oddLine`, with `FOO` defined as `barbaz`, a value longer
than the reference `$FOO`: the growth is 2, and the line is tokenized. -/
theorem tokenization_total_witness :
    ((∃ toks, tokenize envLong oddLine = .ok toks ∧
        (∀ P, run envLong mallocOk P oddLine = .ok (toks.length + 1, P :: toks)) ∧
        (∀ P rest stdin, fgets SIZE stdin = some oddLine →
          initialize_main envLong mallocOk (P :: rest) stdin
            = .ok (toks.length + 1, P :: toks))) ∨
      (SIZE ≤ oddLine.length + totalGrowth envLong oddLine ∧
        tokenize envLong oddLine = .fault .outOfBounds ∧
        (∀ P, run envLong mallocOk P oddLine = .fault .outOfBounds) ∧
        (∀ P rest stdin, fgets SIZE stdin = some oddLine →
          initialize_main envLong mallocOk (P :: rest) stdin = .fault .outOfBounds))) ∧
    referenced envLong mallocOk oddLine = ["FOO".toList, "NOPE".toList] ∧
    oddLine.length + totalGrowth envLong oddLine = 22 ∧
    tokenize envLong oddLine = .ok ["a".toList, "barbaz".toList, "$".toList] ∧
    tokenize envLong (DOLLAR :: "FOO".toList ++ [SPACE, NEWLINE]) = .ok ["barbaz".toList] :=
  ⟨tokenization_total envLong oddLine, by decide, by decide, by decide, by decide⟩

/-! ## Allocation failure -/

/-- C12 at its failing input: with every allocation failing, the line `a ` with its
newline (token ended by a blank) takes the exit of line 153, but the line `"a"` with its
newline (token ended by a closing quote) reaches `strncpy (NULL, temp, 1)` at line 194:
the result of `malloc` is not tested on that path. -/
theorem closing_quote_malloc_unchecked :
    initialize_main envNone mallocFail ["readlink".toList] ("a ".toList ++ [NEWLINE])
      = .fault .exitFailure ∧
    initialize_main envNone mallocFail ["readlink".toList] ([DQUOTE] ++ "a".toList ++ [DQUOTE, NEWLINE])
      = .fault .nullDeref ∧
    initialize_main envNone mallocFail ["readlink".toList] ([DQUOTE] ++ "a".toList ++ [DQUOTE, NEWLINE])
      ≠ .fault .exitFailure := by
  decide

/-! ## Closing and opening quotes -/

theorem ordinary_parts (w : List Char) (hw : ∀ d ∈ w, ordinary d = true) :
    (∀ d ∈ w, isBlank d = false ∧ isQuote d = false ∧ d ≠ DOLLAR) ∧
      (∀ d ∈ w, isQuote d = false ∧ d ≠ DOLLAR) ∧ (∀ d ∈ w, d ≠ NUL) := by
  refine ⟨fun d hd => ?_, fun d hd => ?_, fun d hd => ?_⟩
  · have := (ordinary_iff d).mp (hw d hd); exact ⟨this.1, this.2.1, this.2.2.1⟩
  · have := (ordinary_iff d).mp (hw d hd); exact ⟨this.2.1, this.2.2.1⟩
  · exact ((ordinary_iff d).mp (hw d hd)).2.2.2

/-- C13. A closing quote ends the token at once, an opening quote does not: for every
environment, all non-empty words `s` and `t` of ordinary characters, all quote characters
`q1`, `q2` and every blank `c`, the line `q1 s q2 t c` (when it fits the line buffer) is
tokenized to the two tokens `s` and `t`, and the line `s q1 t q2` to the one token `s t`. -/
theorem closing_quote_ends_token (getenv : Env) (q1 q2 c : Char) (s t : List Char)
    (hq1 : isQuote q1 = true) (hq2 : isQuote q2 = true) (hc : isBlank c = true)
    (hs : s ≠ []) (ht : t ≠ []) (hso : ∀ d ∈ s, ordinary d = true)
    (hto : ∀ d ∈ t, ordinary d = true) (hlen : (q1 :: s ++ q2 :: t ++ [c]).length < SIZE) :
    tokenize getenv (q1 :: s ++ q2 :: t ++ [c]) = .ok [s, t] ∧
    tokenize getenv (s ++ q1 :: t ++ [q2]) = .ok [s ++ t] := by
  obtain ⟨hs1, hs2, hs3⟩ := ordinary_parts s hso
  obtain ⟨ht1, ht2, ht3⟩ := ordinary_parts t hto
  have hsl := List.length_pos.mpr hs
  have htl := List.length_pos.mpr ht
  simp only [List.cons_append, List.length_cons, List.length_append, List.length_singleton,
    List.length_nil] at hlen
  constructor
  · have hn : cstrL (q1 :: s ++ q2 :: t ++ [c]) = [q1] ++ (s ++ ([q2] ++ (t ++ [c]))) := by
      rw [cstrL_eq_self]
      · simp
      · intro d hd
        simp only [List.cons_append, List.mem_cons, List.mem_append, List.mem_singleton,
          List.not_mem_nil, or_false] at hd
        rcases hd with e | (h | e | h) | e
        · subst e; exact isQuote_ne_NUL _ hq1
        · exact hs3 d h
        · subst e; exact isQuote_ne_NUL _ hq2
        · exact ht3 d h
        · subst e; exact isBlank_ne_NUL _ hc
    rw [tokenize_eq_view, hn, vScan_append]
    simp only [vScan, bind_ok_eq]
    rw [vStep_quote_open getenv mallocOk q1 hq1 _ rfl]
    simp only [bind_ok_eq, initView]
    rw [vScan_append, vScan_quoted getenv mallocOk s hs2 _ rfl (by simp) (by simp; omega)]
    simp only [bind_ok_eq, List.nil_append]
    rw [vScan_append]
    simp only [vScan, bind_ok_eq]
    rw [vStep_quote_close getenv q2 hq2 _ rfl (by simp) hsl (by simp only; omega)
      (by simp [SIZE])]
    simp only [bind_ok_eq]
    rw [vScan_word_blank getenv t c hto ht hc _ rfl rfl rfl (by omega) (by simp [SIZE])]
    rfl
  · have hn : cstrL (s ++ q1 :: t ++ [q2]) = s ++ ([q1] ++ (t ++ [q2])) := by
      rw [cstrL_eq_self]
      · simp
      · intro d hd
        simp only [List.mem_cons, List.mem_append, List.mem_singleton,
          List.not_mem_nil, or_false] at hd
        rcases hd with (h | e | h) | e
        · exact hs3 d h
        · subst e; exact isQuote_ne_NUL _ hq1
        · exact ht3 d h
        · subst e; exact isQuote_ne_NUL _ hq2
    rw [tokenize_eq_view, hn, vScan_append,
      vScan_word getenv mallocOk s hs1 _ rfl (by simp [initView]; omega)]
    simp only [bind_ok_eq, initView, List.nil_append]
    rw [vScan_append]
    simp only [vScan, bind_ok_eq]
    rw [vStep_quote_open getenv mallocOk q1 hq1 _ rfl]
    simp only [bind_ok_eq]
    rw [vScan_append, vScan_quoted getenv mallocOk t ht2 _ rfl (by simp) (by simp only; omega)]
    simp only [vScan, bind_ok_eq]
    rw [vStep_quote_close getenv q2 hq2 _ rfl (by simp)
      (by simp only [List.length_append]; omega)
      (by simp only [List.length_append]; omega) (by simp [SIZE])]
    rfl

/-- C13, at the words `ab` and `cd`, double quotes and a space. -/
theorem closing_quote_ends_token_witness :
    (isQuote DQUOTE = true ∧ isBlank SPACE = true ∧ "ab".toList ≠ [] ∧ "cd".toList ≠ [] ∧
      (∀ d ∈ "ab".toList, ordinary d = true) ∧ (∀ d ∈ "cd".toList, ordinary d = true) ∧
      (DQUOTE :: "ab".toList ++ DQUOTE :: "cd".toList ++ [SPACE]).length < SIZE) ∧
    tokenize envFoo (DQUOTE :: "ab".toList ++ DQUOTE :: "cd".toList ++ [SPACE])
      = .ok ["ab".toList, "cd".toList] ∧
    tokenize envFoo ("ab".toList ++ DQUOTE :: "cd".toList ++ [DQUOTE]) = .ok ["abcd".toList] :=
  ⟨⟨by decide, by decide, by decide, by decide, by decide, by decide, by decide⟩,
   closing_quote_ends_token envFoo DQUOTE DQUOTE SPACE "ab".toList "cd".toList (by decide)
     (by decide) (by decide) (by decide) (by decide) (by decide) (by decide) (by decide)⟩

/-! ## A blank inside quotes with a reference pending -/

theorem rep_of_step_fault (getenv : Env) (malloc : Malloc) (c : Char) (hc : c ≠ NUL)
    (s : State) (e : Fault) (hi : Inv s) (h : step getenv malloc c s = .fault e) :
    vStep getenv malloc c (view s) = .fault e := by
  have hr := step_rep getenv malloc c hc s (view s) ⟨hi, rfl⟩
  rw [h] at hr
  cases hv : vStep getenv malloc c (view s) with
  | ok v1 => rw [hv] at hr; exact absurd hr (by simp [OutRep])
  | fault e1 =>
    rw [hv] at hr
    simp only [OutRep] at hr
    rw [hr]

theorem vResolve_room (getenv : Env) (v v1 : View) (h : vResolve getenv v = .ok v1) :
    v.var.length < SIZE := by
  unfold vResolve at h
  split_ifs at h with h1
  · exact h1
  · exact h1

/-- C14. Inside a quoted region a blank closes a pending reference and is then kept as
data: in every state that the loop can reach (they satisfy `Inv`, see `scan_rep`) with
`quotes` set and a reference pending, the step on a blank `c`, when it returns, leaves the
token buffer holding the old token, then the expansion of the reference (its value, `$`
for the reference `$` alone, nothing when undefined), then `c`; no reference is pending,
`env_var` is empty and nothing is stored in `iargv`. The step returns exactly when the
reference fits `env_var` with its terminator and the expansion and `c` fit `temp`;
otherwise it is a store outside an array. -/
theorem quoted_blank_closes_reference (getenv : Env) (malloc : Malloc) (c : Char) (s : State)
    (hi : Inv s) (hb : isBlank c = true) (hq : s.quotes ≠ 0) (hf : s.env_flag = true) :
    (∀ s1, step getenv malloc c s = .ok s1 →
      s1.tok = s.tok ++ expand getenv s.ref ++ [c] ∧ s1.env_flag = false ∧
      s1.env_var_size = 0 ∧ s1.iargv = s.iargv ∧ s1.quotes = s.quotes) ∧
    ((∃ s1, step getenv malloc c s = .ok s1) ↔
      (s.env_var_size < SIZE ∧ s.pos + (expand getenv s.ref).length < SIZE)) ∧
    (∀ e, step getenv malloc c s = .fault e → e = .outOfBounds) := by
  have hcn := isBlank_ne_NUL c hb
  have hlen : (view s).tok.length = s.pos := by simp [view, slice_length]
  have hvlen : (view s).var.length = s.env_var_size := by simp [view, slice_length]
  have hstep : vStep getenv malloc c (view s)
      = (vResolve getenv (view s)).bind fun a =>
          if a.quotes = 0 then
            if 0 < a.tok.length then vFinalize malloc true a else .ok a
          else vPushTemp c a := by
    have e2 : (view s).env_flag = true := hf
    simp only [vStep, hb, if_true, vStepBlank, e2]
  have hpush : ∀ a v1, vResolve getenv (view s) = .ok a →
      (if a.quotes = 0 then
          if 0 < a.tok.length then vFinalize malloc true a else Outcome.ok a
        else vPushTemp c a) = .ok v1 →
      v1 = { out := s.iargv, tok := s.tok ++ expand getenv s.ref ++ [c], var := [],
             quotes := s.quotes, env_flag := false } ∧
        s.pos + (expand getenv s.ref).length < SIZE := by
    intro a v1 ha hb1
    have ea := vResolve_eq getenv _ a ha
    have hqa : a.quotes = s.quotes := by rw [ea]; rfl
    rw [if_neg (by rw [hqa]; exact hq)] at hb1
    have e1 := vPushTemp_fields c a v1 hb1
    have hroom : a.tok.length < SIZE := by
      unfold vPushTemp at hb1
      split_ifs at hb1 with h1
      exact h1
    constructor
    · rw [e1, ea]; rfl
    · rw [ea] at hroom
      simp only [List.length_append, hlen] at hroom
      exact hroom
  refine ⟨?_, ⟨?_, ?_⟩, ?_⟩
  · intro s1 h1
    obtain ⟨hv, _⟩ := rep_of_step_ok getenv malloc c hcn s s1 hi h1
    rw [hstep] at hv
    obtain ⟨a, ha, hb1⟩ := bind_eq_ok _ _ _ hv
    obtain ⟨e1, _⟩ := hpush a (view s1) ha hb1
    have ht : (view s1).tok = s.tok ++ expand getenv s.ref ++ [c] := by rw [e1]
    have hvar : (view s1).var = [] := by rw [e1]
    have hflag : (view s1).env_flag = false := by rw [e1]
    have hout : (view s1).out = s.iargv := by rw [e1]
    have hquo : (view s1).quotes = s.quotes := by rw [e1]
    refine ⟨ht, hflag, ?_, hout, hquo⟩
    have := congrArg List.length hvar
    simpa [view, slice_length] using this
  · rintro ⟨s1, h1⟩
    obtain ⟨hv, _⟩ := rep_of_step_ok getenv malloc c hcn s s1 hi h1
    rw [hstep] at hv
    obtain ⟨a, ha, hb1⟩ := bind_eq_ok _ _ _ hv
    have := vResolve_room getenv _ a ha
    rw [hvlen] at this
    exact ⟨this, (hpush a (view s1) ha hb1).2⟩
  · rintro ⟨h1, h2⟩
    have hr := vResolve_ok getenv (view s) (by rw [hvlen]; exact h1)
      (by
        show (view s).tok.length + (expand getenv s.ref).length ≤ SIZE
        rw [hlen]; omega)
    rw [hr, bind_ok_eq] at hstep
    have hq2 : ¬ ((view s).quotes = 0) := hq
    have hroom : ((view s).tok ++ expand getenv (view s).var).length < SIZE := by
      rw [List.length_append, hlen]; exact h2
    simp only [hq2, if_false, vPushTemp, hroom, if_true] at hstep
    obtain ⟨s1, hs1, _⟩ := step_ok_of_view getenv malloc c hcn s _ hi hstep
    exact ⟨s1, hs1⟩
  · intro e he
    have hv := rep_of_step_fault getenv malloc c hcn s e hi he
    rw [hstep] at hv
    rcases bind_eq_fault _ _ _ hv with h1 | ⟨a, ha, h2⟩
    · exact vResolve_fault getenv _ e h1
    · have ea := vResolve_eq getenv _ a ha
      have hqa : a.quotes = s.quotes := by rw [ea]; rfl
      rw [if_neg (by rw [hqa]; exact hq)] at h2
      exact vPushTemp_fault c a e h2

/-- C14, at the state after `"$FOO` and a space, with `FOO` defined as `bar`: the step
returns with the token `bar ` and nothing stored; the line `"$FOO x" ` is tokenized to the
one token `bar x`. -/
theorem quoted_blank_closes_reference_witness :
    (isBlank SPACE = true ∧ quotedFooState.quotes ≠ 0 ∧ quotedFooState.env_flag = true) ∧
    (∃ s1, step envFoo mallocOk SPACE quotedFooState = .ok s1) ∧
    (step envFoo mallocOk SPACE quotedFooState).map
        (fun s => (s.tok, s.env_flag, s.env_var_size, s.iargv, s.quotes))
      = .ok ("bar ".toList, false, 0, [[]], 1) ∧
    tokenize envFoo (DQUOTE :: "$FOO x".toList ++ [DQUOTE, SPACE]) = .ok ["bar x".toList] :=
  ⟨⟨by decide, by decide, rfl⟩,
   (quoted_blank_closes_reference envFoo mallocOk SPACE quotedFooState quotedFooState_inv
      (by decide) (by decide) rfl).2.1.mpr ⟨by decide, by decide⟩,
   rfl, by decide⟩

/-! ## No empty token -/

theorem vMaybeResolve_out (getenv : Env) (v a : View)
    (h : (if v.env_flag = true then vResolve getenv v else Outcome.ok v) = .ok a) :
    a.out = v.out := by
  split_ifs at h
  · exact (vResolve_fields getenv v a h).2.2.1
  · simp only [Outcome.ok.injEq] at h
    rw [← h]

theorem vMaybeFinalize_out (malloc : Malloc) (checked : Bool) (a v1 : View)
    (h : (if 0 < a.tok.length then vFinalize malloc checked a else Outcome.ok a) = .ok v1) :
    v1.out = a.out ∨ ∃ t, t ≠ [] ∧ v1.out = a.out ++ [t] := by
  split_ifs at h with ht
  · right
    exact ⟨a.tok, List.length_pos.mp ht, (vFinalize_fields malloc checked a v1 h).2.2.2.2⟩
  · simp only [Outcome.ok.injEq] at h
    left; rw [← h]

/-- A step stores nothing, or stores one token that is not empty. -/
theorem vStep_out (getenv : Env) (malloc : Malloc) (c : Char) (v v1 : View)
    (h : vStep getenv malloc c v = .ok v1) :
    v1.out = v.out ∨ ∃ t, t ≠ [] ∧ v1.out = v.out ++ [t] := by
  unfold vStep at h
  split_ifs at h
  · unfold vStepBlank at h
    obtain ⟨a, ha, hb⟩ := bind_eq_ok _ _ _ h
    have ea := vMaybeResolve_out getenv v a ha
    split_ifs at hb with hq ht
    · rw [← ea]; exact vMaybeFinalize_out malloc true a v1 (by rw [if_pos ht]; exact hb)
    · simp only [Outcome.ok.injEq] at hb
      left; rw [← hb, ea]
    · left; rw [vPushTemp_fields c a v1 hb]; exact ea
  · unfold vStepQuote at h
    split_ifs at h
    · simp only [Outcome.ok.injEq] at h
      left; rw [← h]
    · obtain ⟨a, ha, hb⟩ := bind_eq_ok _ _ _ h
      have ea := vMaybeResolve_out getenv _ a ha
      simp only at ea
      rw [← ea]
      exact vMaybeFinalize_out malloc false a v1 hb
  · left; rw [vPushVar_fields c _ v1 h]
  · left; rw [vPushVar_fields c _ v1 h]
  · left; rw [vPushTemp_fields c _ v1 h]

theorem mem_tail_append_singleton (o : List (List Char)) (t x : List Char)
    (h : x ∈ (o ++ [t]).tail) : x ∈ o.tail ∨ x = t := by
  cases o with
  | nil => simp at h
  | cons a o =>
    simp only [List.cons_append, List.tail_cons, List.mem_append, List.mem_singleton] at h
    exact h

theorem vScan_no_empty (getenv : Env) (malloc : Malloc) (cs : List Char) (v v1 : View)
    (hv : ∀ t ∈ v.out.tail, t ≠ []) (h : vScan getenv malloc cs v = .ok v1) :
    ∀ t ∈ v1.out.tail, t ≠ [] := by
  induction cs generalizing v with
  | nil =>
    simp only [vScan, Outcome.ok.injEq] at h
    rw [← h]; exact hv
  | cons c cs ih =>
    rw [vScan_cons] at h
    obtain ⟨a, ha, hb⟩ := bind_eq_ok _ _ _ h
    refine ih a ?_ hb
    rcases vStep_out getenv malloc c v a ha with e | ⟨t, ht, e⟩
    · rw [e]; exact hv
    · rw [e]
      intro x hx
      rcases mem_tail_append_singleton _ _ _ hx with h1 | h1
      · exact hv x h1
      · rw [h1]; exact ht

/-- C15. No empty token is ever produced: for every environment, every allocator and
every line, every token the scan stores (every element of the returned vector after
element 0) is a non-empty string; the line `"" '' ` with its newline yields no token, and
neither does the line `$X ` when `X` is undefined. -/
theorem no_empty_token (getenv : Env) (malloc : Malloc) (line : List Char)
    (toks : List (List Char)) (h : scanTokens getenv malloc line = .ok toks) :
    (∀ t ∈ toks, t ≠ []) ∧
    tokenize getenv [DQUOTE, DQUOTE, SPACE, SQUOTE, SQUOTE, SPACE, NEWLINE] = .ok [] ∧
    (getenv "X".toList = none → tokenize getenv (DOLLAR :: "X".toList ++ [SPACE]) = .ok []) := by
  refine ⟨?_, rfl, ?_⟩
  · unfold scanTokens at h
    rw [run_eq_view] at h
    cases hv : vScan getenv malloc (cstrL line) (initView []) with
    | fault e => rw [hv] at h; simp [Outcome.map] at h
    | ok v =>
      rw [hv] at h
      simp only [Outcome.map, Outcome.ok.injEq] at h
      rw [← h]
      exact vScan_no_empty getenv malloc (cstrL line) _ v (by simp [initView]) hv
  · intro hx
    have hn : cstrL (DOLLAR :: "X".toList ++ [SPACE])
        = [] ++ DOLLAR :: "X".toList ++ [SPACE] := by decide
    rw [tokenize_eq_view, hn, vScan_undefined getenv [] "X".toList SPACE (by decide)
      (by decide) (by decide) hx (by decide) _ rfl rfl rfl rfl (by decide) (by decide)]
    rfl

/-- C15, at the line `"" a $NOPE "$FOO" ` in an environment that defines only `FOO`. -/
theorem no_empty_token_witness :
    scanTokens envFoo mallocOk
        ([DQUOTE, DQUOTE] ++ " a $NOPE ".toList ++ DQUOTE :: "$FOO".toList ++ [DQUOTE, SPACE])
      = .ok ["a".toList, "bar".toList] ∧
    (∀ t ∈ ["a".toList, "bar".toList], t ≠ []) :=
  ⟨by decide,
   (no_empty_token envFoo mallocOk
      ([DQUOTE, DQUOTE] ++ " a $NOPE ".toList ++ DQUOTE :: "$FOO".toList ++ [DQUOTE, SPACE])
      ["a".toList, "bar".toList] (by decide)).1⟩

/-! ## Buffer indices -/

theorem rep_of_scan_ok (getenv : Env) (malloc : Malloc) (cs : List Char)
    (hcs : ∀ c ∈ cs, c ≠ NUL) (a : List Char) (s : State)
    (h : scan getenv malloc cs (initState a) = .ok s) :
    vScan getenv malloc cs (initView a) = .ok (view s) ∧ Inv s := by
  have hr := scan_rep getenv malloc cs hcs _ _ (initState_rep a)
  rw [h] at hr
  cases hv : vScan getenv malloc cs (initView a) with
  | fault e => rw [hv] at hr; exact absurd hr (by simp [OutRep])
  | ok v1 =>
    rw [hv] at hr
    simp only [OutRep, Rep] at hr
    exact ⟨by rw [hr.2], hr.1⟩

/-- C16. Buffer indices stay in bounds when expansions do not grow the text: for every
allocator, every line of fewer than `SIZE` characters and every environment in which each
variable the line references is undefined or has a value no longer than its reference,
the state `s` at the start of the processing of character `i` (after the prefix `pre` of
length `i`) satisfies `pos + env_var_size ≤ i`, and the number of stored tokens is at most
the number of blanks and quotes in `pre`; the three indices are below `SIZE` while a
character remains, and no store of the run falls outside `temp`, `env_var` or `iargv`. -/
theorem indices_in_bounds (getenv : Env) (malloc : Malloc) (line : List Char)
    (hlen : line.length < SIZE)
    (hfit : ∀ name ∈ referenced getenv malloc line, Fits getenv name) :
    (∀ pre post s, cstrL line = pre ++ post →
      scan getenv malloc pre (initState []) = .ok s →
        s.pos + s.env_var_size ≤ pre.length ∧ s.iargc ≤ 1 + pre.countP isBreak ∧
        (post ≠ [] → s.pos < SIZE ∧ s.env_var_size < SIZE ∧ s.iargc < SIZE)) ∧
    (∀ P, run getenv malloc P line ≠ .fault .outOfBounds) := by
  rw [referenced_eq_view] at hfit
  have hl := cstrL_length_le line
  constructor
  · intro pre post s hsplit hs
    have hne : ∀ c ∈ pre, c ≠ NUL := by
      intro c hc
      apply cstrL_ne line
      rw [hsplit]; exact List.mem_append_left _ hc
    obtain ⟨hv, _⟩ := rep_of_scan_ok getenv malloc pre hne [] s hs
    have hpl : pre.length + post.length ≤ line.length := by
      have := congrArg List.length hsplit
      rw [List.length_append] at this
      omega
    have hfit1 : ∀ name ∈ vLookups getenv malloc pre (initView []), Fits getenv name := by
      intro name hn
      apply hfit
      rw [hsplit, vLookups_append getenv malloc pre post _ _ hv]
      exact List.mem_append_left _ hn
    have hw := vScan_fits getenv malloc pre (initView []) (initView_pending []) hfit1
      (by simp only [initView, List.length_nil]; omega)
      (by simp only [initView, List.length_singleton]; omega)
    rw [hv] at hw
    obtain ⟨_, hb, ho⟩ := hw
    simp only [view, slice_length, initView, List.length_nil, List.length_singleton,
      Nat.zero_add] at hb ho
    have hcount := List.countP_le_length (p := isBreak) (l := pre)
    refine ⟨hb, by unfold State.iargc; omega, ?_⟩
    intro hpost
    have := List.length_pos.mpr hpost
    unfold State.iargc
    omega
  · intro P hP
    rw [run_arg0] at hP
    unfold scanTokens at hP
    rw [run_eq_view] at hP
    have hw := vScan_fits getenv malloc (cstrL line) (initView []) (initView_pending []) hfit
      (by simp only [initView, List.length_nil]; omega)
      (by simp only [initView, List.length_singleton]; omega)
    cases hv : vScan getenv malloc (cstrL line) (initView []) with
    | ok v => rw [hv] at hP; simp [Outcome.map] at hP
    | fault e =>
      rw [hv] at hP hw
      simp only [Outcome.map, Outcome.fault.injEq] at hP
      exact hw hP

/-- C16, at the line `oddLine` with `FOO` defined as `bar`, and at its prefix `"a' $FOO`. -/
theorem indices_in_bounds_witness :
    (oddLine.length < SIZE ∧
      cstrL oddLine = (DQUOTE :: "a".toList ++ SQUOTE :: " $FOO".toList)
        ++ (" $ $NOPE x".toList ++ [DQUOTE, NEWLINE])) ∧
    (scan envFoo mallocOk (DQUOTE :: "a".toList ++ SQUOTE :: " $FOO".toList) (initState [])).map
        (fun s => (s.pos, s.env_var_size, s.iargc)) = .ok (0, 4, 2) ∧
    run envFoo mallocOk "readlink".toList oddLine ≠ .fault .outOfBounds :=
  ⟨⟨by decide, by decide⟩, by decide,
   (indices_in_bounds envFoo mallocOk oddLine (by decide)
      (fun name _ => fits_envFoo name)).2 "readlink".toList⟩

/-! ## The characters of the tokens -/

theorem isBlank_not_quote (c : Char) (h : isBlank c = true) : isQuote c = false := by
  cases hq : isQuote c with
  | false => rfl
  | true => rw [isQuote_not_blank c hq] at h; exact absurd h (by simp)

theorem kept_store (o : List (List Char)) (t : List Char) (ho : o ≠ []) :
    (o ++ [t]).tail.flatten = o.tail.flatten ++ t := by
  cases o with
  | nil => exact absurd rfl ho
  | cons a o => simp

/-- On a character other than `$`, with no reference pending, a step keeps the character
unless it is a quote or a blank outside quotes, and a quote toggles `quotes`. -/
theorem vStep_kept (getenv : Env) (malloc : Malloc) (c : Char) (cs : List Char) (v v1 : View)
    (hc : c ≠ DOLLAR) (hf : v.env_flag = false) (hq : v.quotes ≤ 1) (ho : v.out ≠ [])
    (h : vStep getenv malloc c v = .ok v1) :
    v1.env_flag = false ∧ v1.quotes ≤ 1 ∧ v1.out ≠ [] ∧
      v1.kept ++ unquote v1.inQ cs = v.kept ++ unquote v.inQ (c :: cs) := by
  obtain ⟨out, tok, var, quotes, flag⟩ := v
  simp only at hf hq ho
  subst hf
  unfold vStep at h
  by_cases h1 : isBlank c = true
  · have h2 := isBlank_not_quote c h1
    simp only [h1, if_true, vStepBlank, Bool.false_eq_true, if_false, bind_ok_eq] at h
    by_cases hq0 : quotes = 0
    · subst hq0
      simp only [if_true] at h
      by_cases ht : 0 < tok.length
      · simp only [ht, if_true] at h
        obtain ⟨e1, e2, e3, _, e5⟩ := vFinalize_fields malloc true _ v1 h
        simp only at e1 e2 e3 e5
        refine ⟨e2, by omega, by rw [e5]; simp, ?_⟩
        simp only [View.kept, View.inQ, e1, e3, e5, kept_store out tok ho, unquote, h1, h2,
          List.append_nil]
        simp
      · simp only [ht, if_false, Outcome.ok.injEq] at h
        subst h
        refine ⟨rfl, by simp, ho, ?_⟩
        simp [View.kept, View.inQ, unquote, h1, h2]
    · have hq1 : quotes = 1 := by omega
      subst hq1
      simp only [Nat.succ_ne_zero, if_false] at h
      have := vPushTemp_fields c _ v1 h
      subst this
      refine ⟨rfl, by simp, ho, ?_⟩
      simp [View.kept, View.inQ, unquote, h1, h2]
  · by_cases h2 : isQuote c = true
    · simp only [h1, h2, if_true, if_false, Bool.false_eq_true, vStepQuote] at h
      by_cases hq0 : quotes = 0
      · subst hq0
        simp only [if_true, Outcome.ok.injEq] at h
        subst h
        refine ⟨rfl, by simp, ho, ?_⟩
        simp [View.kept, View.inQ, unquote, h2]
      · have hq1 : quotes = 1 := by omega
        subst hq1
        simp only [Nat.succ_ne_zero, if_false, Bool.false_eq_true, bind_ok_eq] at h
        by_cases ht : 0 < tok.length
        · simp only [ht, if_true] at h
          obtain ⟨e1, e2, e3, _, e5⟩ := vFinalize_fields malloc false _ v1 h
          simp only at e1 e2 e3 e5
          refine ⟨e2, by omega, by rw [e5]; simp, ?_⟩
          simp only [View.kept, View.inQ, e1, e3, e5, kept_store out tok ho, unquote, h2,
            List.append_nil]
          simp
        · simp only [ht, if_false, Outcome.ok.injEq] at h
          subst h
          refine ⟨rfl, by simp, ho, ?_⟩
          simp [View.kept, View.inQ, unquote, h2]
    · simp only [h1, h2, hc, if_false, Bool.false_eq_true] at h
      have := vPushTemp_fields c _ v1 h
      subst this
      refine ⟨rfl, hq, ho, ?_⟩
      simp [View.kept, View.inQ, unquote, h1, h2]

theorem vScan_kept (getenv : Env) (malloc : Malloc) (cs : List Char) (v v1 : View)
    (hcs : DOLLAR ∉ cs) (hf : v.env_flag = false) (hq : v.quotes ≤ 1) (ho : v.out ≠ [])
    (h : vScan getenv malloc cs v = .ok v1) :
    v1.env_flag = false ∧ v1.quotes ≤ 1 ∧ v1.out ≠ [] ∧
      v1.kept = v.kept ++ unquote v.inQ cs := by
  induction cs generalizing v with
  | nil =>
    simp only [vScan, Outcome.ok.injEq] at h
    subst h
    exact ⟨hf, hq, ho, by simp [unquote]⟩
  | cons c cs ih =>
    rw [vScan_cons] at h
    obtain ⟨a, ha, hb⟩ := bind_eq_ok _ _ _ h
    have hc : c ≠ DOLLAR := fun e => hcs (by simp [e])
    obtain ⟨f1, q1, o1, k1⟩ := vStep_kept getenv malloc c cs v a hc hf hq ho ha
    obtain ⟨f2, q2, o2, k2⟩ := ih a (fun hm => hcs (List.mem_cons_of_mem _ hm)) f1 q1 o1 hb
    exact ⟨f2, q2, o2, by rw [k2, k1]⟩

/-- After a blank or a quote that leaves the scanner outside quotes, the token buffer is
empty. -/
theorem vStep_break_empty (getenv : Env) (malloc : Malloc) (c : Char) (v v1 : View)
    (hc : isBreak c = true) (hf : v.env_flag = false)
    (h : vStep getenv malloc c v = .ok v1) (hq : v1.quotes = 0) : v1.tok = [] := by
  obtain ⟨out, tok, var, quotes, flag⟩ := v
  simp only at hf
  subst hf
  unfold vStep at h
  by_cases h1 : isBlank c = true
  · simp only [h1, if_true, vStepBlank, Bool.false_eq_true, if_false, bind_ok_eq] at h
    by_cases hq0 : quotes = 0
    · simp only [hq0, if_true] at h
      by_cases ht : 0 < tok.length
      · simp only [ht, if_true] at h
        exact (vFinalize_fields malloc true _ v1 h).2.2.1
      · simp only [ht, if_false, Outcome.ok.injEq] at h
        subst h
        exact List.length_eq_zero.mp (by simpa using ht)
    · simp only [hq0, if_false] at h
      have := vPushTemp_fields c _ v1 h
      subst this
      exact absurd hq hq0
  · have h2 : isQuote c = true := by
      simp only [isBreak, Bool.or_eq_true] at hc
      rcases hc with e | e
      · exact absurd e h1
      · exact e
    simp only [h1, h2, if_true, if_false, Bool.false_eq_true, vStepQuote] at h
    by_cases hq0 : quotes = 0
    · simp only [hq0, if_true, Outcome.ok.injEq] at h
      subst h
      simp at hq
    · simp only [hq0, if_false, Bool.false_eq_true, bind_ok_eq] at h
      by_cases ht : 0 < tok.length
      · simp only [ht, if_true] at h
        exact (vFinalize_fields malloc false _ v1 h).2.2.1
      · simp only [ht, if_false, Outcome.ok.injEq] at h
        subst h
        exact List.length_eq_zero.mp (by simpa using ht)

/-- C17. Characters are neither invented nor reordered: for every environment and every
line of fewer than `SIZE` characters without `$` and without NUL whose last character is
a blank or a quote and which does not leave the scanner inside quotes, the line is
tokenized, the scanner ends outside quotes, and the concatenation of the tokens is the
line with every quote character removed and every blank outside a quoted region removed. -/
theorem tokens_concat (getenv : Env) (line : List Char) (hlen : line.length < SIZE)
    (hd : DOLLAR ∉ line) (hn : NUL ∉ line)
    (hlast : ∃ pre c, line = pre ++ [c] ∧ isBreak c = true)
    (hq : ∀ q, quotesAfter getenv line = .ok q → q = 0) :
    quotesAfter getenv line = .ok 0 ∧
      ∃ toks, tokenize getenv line = .ok toks ∧ toks.flatten = unquote false line := by
  have hcl : cstrL line = line := cstrL_eq_self line (fun c hc e => hn (e ▸ hc))
  obtain ⟨v, hv⟩ := vScan_total envNone [] line hlen
    (fun name _ val h => by simp [envNone] at h)
  rw [hcl, vScan_noDollar envNone getenv mallocOk line hd (initView []) rfl] at hv
  rw [quotesAfter_eq_view, hcl, hv] at hq ⊢
  have hq0 : v.quotes = 0 := hq v.quotes rfl
  rw [tokenize_eq_view, hcl, hv]
  obtain ⟨_, _, _, hk⟩ := vScan_kept getenv mallocOk line (initView []) v hd rfl
    (by simp [initView]) (by simp [initView]) hv
  obtain ⟨pre, c, hsplit, hc⟩ := hlast
  have htok : v.tok = [] := by
    rw [hsplit, vScan_append] at hv
    obtain ⟨a, ha, hb⟩ := bind_eq_ok _ _ _ hv
    obtain ⟨fa, _, _, _⟩ := vScan_kept getenv mallocOk pre (initView []) a
      (fun hm => hd (by rw [hsplit]; exact List.mem_append_left _ hm)) rfl
      (by simp [initView]) (by simp [initView]) ha
    rw [vScan_cons] at hb
    obtain ⟨b, hb1, hb2⟩ := bind_eq_ok _ _ _ hb
    simp only [vScan, Outcome.ok.injEq] at hb2
    subst hb2
    exact vStep_break_empty getenv mallocOk c a b hc fa hb1 hq0
  refine ⟨by simp only [Outcome.map, hq0], v.out.tail, rfl, ?_⟩
  have : v.kept = unquote false line := by
    rw [hk]; simp [View.kept, View.inQ, initView]
  rw [← this, View.kept, htok, List.append_nil]

/-- C17, at the line `ab "c d"e 'f' ` with its newline. -/
theorem tokens_concat_witness :
    (("ab ".toList ++ DQUOTE :: "c d".toList ++ DQUOTE :: "e ".toList
        ++ SQUOTE :: "f".toList ++ [SQUOTE, SPACE, NEWLINE]).length < SIZE ∧
      DOLLAR ∉ "ab ".toList ++ DQUOTE :: "c d".toList ++ DQUOTE :: "e ".toList
        ++ SQUOTE :: "f".toList ++ [SQUOTE, SPACE, NEWLINE] ∧
      NUL ∉ "ab ".toList ++ DQUOTE :: "c d".toList ++ DQUOTE :: "e ".toList
        ++ SQUOTE :: "f".toList ++ [SQUOTE, SPACE, NEWLINE] ∧
      isBreak NEWLINE = true) ∧
    (quotesAfter envFoo ("ab ".toList ++ DQUOTE :: "c d".toList ++ DQUOTE :: "e ".toList
        ++ SQUOTE :: "f".toList ++ [SQUOTE, SPACE, NEWLINE]) = .ok 0 ∧
      ∃ toks, tokenize envFoo ("ab ".toList ++ DQUOTE :: "c d".toList ++ DQUOTE :: "e ".toList
        ++ SQUOTE :: "f".toList ++ [SQUOTE, SPACE, NEWLINE]) = .ok toks ∧
      toks.flatten = unquote false ("ab ".toList ++ DQUOTE :: "c d".toList
        ++ DQUOTE :: "e ".toList ++ SQUOTE :: "f".toList ++ [SQUOTE, SPACE, NEWLINE])) ∧
    tokenize envFoo ("ab ".toList ++ DQUOTE :: "c d".toList ++ DQUOTE :: "e ".toList
        ++ SQUOTE :: "f".toList ++ [SQUOTE, SPACE, NEWLINE])
      = .ok ["ab".toList, "c d".toList, "e".toList, "f".toList] ∧
    unquote false ("ab ".toList ++ DQUOTE :: "c d".toList ++ DQUOTE :: "e ".toList
        ++ SQUOTE :: "f".toList ++ [SQUOTE, SPACE, NEWLINE]) = "abc def".toList :=
  ⟨⟨by decide, by decide, by decide, by decide⟩,
   tokens_concat envFoo _ (by decide) (by decide) (by decide)
     ⟨"ab ".toList ++ DQUOTE :: "c d".toList ++ DQUOTE :: "e ".toList
        ++ SQUOTE :: "f".toList ++ [SQUOTE, SPACE], NEWLINE, by decide, by decide⟩
     (fun q h => by
       have e : quotesAfter envFoo ("ab ".toList ++ DQUOTE :: "c d".toList
           ++ DQUOTE :: "e ".toList ++ SQUOTE :: "f".toList ++ [SQUOTE, SPACE, NEWLINE])
           = .ok 0 := by decide
       rw [e] at h
       exact (Outcome.ok.inj h).symm),
   by decide, by decide⟩

/-! ## The stored block -/

theorem maybeResolve_inv (getenv : Env) (s s1 : State) (hi : Inv s)
    (h : (if s.env_flag = true then resolve getenv s else .ok s) = .ok s1) : Inv s1 := by
  have hr := maybeResolve_rep getenv s (view s) ⟨hi, rfl⟩
  rw [h] at hr
  cases hv : (if (view s).env_flag = true then vResolve getenv (view s) else .ok (view s)) with
  | fault e => rw [hv] at hr; exact absurd hr (by simp [OutRep])
  | ok v => rw [hv] at hr; exact hr.1

/-- A token that is stored occupies a block of exactly `pos` bytes, which was requested
with that size and holds the characters `temp[0 .. pos)`, none of them NUL. -/
theorem finalize_stored (malloc : Malloc) (checked : Bool) (s s2 : State) (hi : Inv s)
    (h : finalize malloc checked s = .ok s2) :
    s2.iargv = s.iargv ++ [slice s.temp 0 s.pos] ∧ malloc s.iargc s.pos = true ∧
      (slice s.temp 0 s.pos).length = s.pos ∧ NUL ∉ slice s.temp 0 s.pos := by
  have hr := finalize_rep malloc checked s (view s) ⟨hi, rfl⟩
  rw [h] at hr
  refine ⟨?_, ?_, slice_length _ _ _, ?_⟩
  · cases hv : vFinalize malloc checked (view s) with
    | fault e => rw [hv] at hr; exact absurd hr (by simp [OutRep])
    | ok v =>
      rw [hv] at hr
      have e := (vFinalize_fields malloc checked _ v hv).2.2.2.2
      rw [← hr.2] at e
      exact e
  · unfold finalize at h
    by_cases hm : malloc s.iargc s.pos = true
    · exact hm
    · simp only [] at h
      rw [if_neg hm] at h
      split_ifs at h
  · intro hm
    obtain ⟨j, _, hj, e⟩ := mem_slice _ _ _ _ hm
    exact hi.temp_ne j (by omega) e

/-- C18 at its failing input: the token `ab` is stored in a block of exactly 2 bytes,
on the blank path (line `ab ` with its newline) and on the closing-quote path (line
`"ab"` with its newline): the run succeeds with an allocator that grants only requests
for 2 bytes and takes the exit of line 153 with one that grants only requests for 3 bytes,
and the 2 bytes stored are `a` and `b`, with no NUL among them. -/
theorem stored_argument_unterminated :
    initialize_main envNone (mallocExactly 2) ["readlink".toList] ("ab ".toList ++ [NEWLINE])
      = .ok (2, ["readlink".toList, "ab".toList]) ∧
    initialize_main envNone (mallocExactly 2) ["readlink".toList]
        (DQUOTE :: "ab".toList ++ [DQUOTE, NEWLINE])
      = .ok (2, ["readlink".toList, "ab".toList]) ∧
    initialize_main envNone (mallocExactly 3) ["readlink".toList] ("ab ".toList ++ [NEWLINE])
      = .fault .exitFailure ∧
    "ab".toList.length = 2 ∧ NUL ∉ "ab".toList := by
  decide

/-! ## A variable set to the empty string -/

theorem blit_nil (a : CArray) (i : Nat) : blit a i [] = a := by
  funext j
  simp [blit]

theorem resolve_empty (g1 g2 : Env)
    (hrel : ∀ name, g1 name = g2 name ∨ (g1 name = some [] ∧ g2 name = none) ∨
      (g1 name = none ∧ g2 name = some []))
    (s : State) : resolve g1 s = resolve g2 s := by
  unfold resolve
  by_cases hp : s.env_var_size < SIZE
  · simp only [hp, if_true]
    by_cases h1 : strlen (store s.env_var s.env_var_size NUL) SIZE = 1
    · simp only [h1, if_true]
    · simp only [h1, if_false]
      rcases hrel (cstr (store s.env_var s.env_var_size NUL) 1 (SIZE - 1)) with e | ⟨e1, e2⟩ | ⟨e1, e2⟩
      · rw [e]
      · rw [e1, e2]
        simp [strlenL, cstrL, strncpy, blit_nil]
      · rw [e1, e2]
        simp [strlenL, cstrL, strncpy, blit_nil]
  · simp only [hp, if_false]

theorem step_empty (g1 g2 : Env)
    (hrel : ∀ name, g1 name = g2 name ∨ (g1 name = some [] ∧ g2 name = none) ∨
      (g1 name = none ∧ g2 name = some []))
    (malloc : Malloc) (c : Char) (s : State) : step g1 malloc c s = step g2 malloc c s := by
  unfold step stepBlank stepQuote
  simp only [resolve_empty g1 g2 hrel]

theorem scan_empty (g1 g2 : Env)
    (hrel : ∀ name, g1 name = g2 name ∨ (g1 name = some [] ∧ g2 name = none) ∨
      (g1 name = none ∧ g2 name = some []))
    (malloc : Malloc) (cs : List Char) (s : State) :
    scan g1 malloc cs s = scan g2 malloc cs s := by
  induction cs generalizing s with
  | nil => rfl
  | cons c cs ih =>
    simp only [scan, step_empty g1 g2 hrel]
    cases step g2 malloc c s with
    | ok s1 => exact ih s1
    | fault e => rfl

/-- C19. A variable defined as the empty string is indistinguishable from an undefined
one: for every line and every two environments that give every name the same value,
except that names may have the empty string in one and no value in the other, the two
runs give the same result: the same tokens, and the same argument count and vector (or
the same failure) for every allocator and every program name. -/
theorem empty_value_as_undefined (g1 g2 : Env)
    (hrel : ∀ name, g1 name = g2 name ∨ (g1 name = some [] ∧ g2 name = none) ∨
      (g1 name = none ∧ g2 name = some []))
    (line : List Char) :
    tokenize g1 line = tokenize g2 line ∧
      ∀ malloc argv, initialize_main g1 malloc argv line = initialize_main g2 malloc argv line := by
  constructor
  · simp only [tokenize, run, scan_empty g1 g2 hrel]
  · intro malloc argv
    simp only [initialize_main, run, scan_empty g1 g2 hrel]

/-- C19, at the line `a$FOO b "$FOO" ` with its newline, with `FOO` set to the empty
string in one environment and undefined in the other. -/
theorem empty_value_as_undefined_witness :
    (∀ name, envEmptyFoo name = envNone name ∨ (envEmptyFoo name = some [] ∧ envNone name = none)
      ∨ (envEmptyFoo name = none ∧ envNone name = some [])) ∧
    (tokenize envEmptyFoo ("a$FOO b ".toList ++ DQUOTE :: "$FOO".toList ++ [DQUOTE, SPACE, NEWLINE])
        = tokenize envNone ("a$FOO b ".toList ++ DQUOTE :: "$FOO".toList ++ [DQUOTE, SPACE, NEWLINE]) ∧
      ∀ malloc argv,
        initialize_main envEmptyFoo malloc argv
            ("a$FOO b ".toList ++ DQUOTE :: "$FOO".toList ++ [DQUOTE, SPACE, NEWLINE])
          = initialize_main envNone malloc argv
            ("a$FOO b ".toList ++ DQUOTE :: "$FOO".toList ++ [DQUOTE, SPACE, NEWLINE])) ∧
    tokenize envEmptyFoo ("a$FOO b ".toList ++ DQUOTE :: "$FOO".toList ++ [DQUOTE, SPACE, NEWLINE])
      = .ok ["a".toList, "b".toList] ∧
    envEmptyFoo "FOO".toList = some [] ∧ envNone "FOO".toList = none :=
  ⟨fun name => by
      unfold envEmptyFoo envNone
      by_cases h : name = "FOO".toList
      · exact Or.inr (Or.inl ⟨if_pos h, rfl⟩)
      · exact Or.inl (if_neg h),
   empty_value_as_undefined envEmptyFoo envNone
     (fun name => by
       unfold envEmptyFoo envNone
       by_cases h : name = "FOO".toList
       · exact Or.inr (Or.inl ⟨if_pos h, rfl⟩)
       · exact Or.inl (if_neg h)) _,
   by decide, by decide, rfl⟩

/-! ## The emptiness test on the token buffer -/

theorem testPoint_inv (getenv : Env) (c : Char) (s s1 : State) (hi : Inv s)
    (ht : testPoint getenv c s = some s1) : Inv s1 := by
  unfold testPoint at ht
  by_cases h1 : isBlank c = true
  · rw [if_pos h1] at ht
    cases hr : (if s.env_flag = true then resolve getenv s else .ok s) with
    | fault e => rw [hr] at ht; simp at ht
    | ok s3 =>
      rw [hr] at ht
      simp only at ht
      split_ifs at ht
      simp only [Option.some.injEq] at ht
      subst ht
      exact maybeResolve_inv getenv s s3 hi hr
  · rw [if_neg h1] at ht
    by_cases h2 : isQuote c = true
    · rw [if_pos h2] at ht
      by_cases hq : s.quotes = 0
      · rw [if_pos hq] at ht; simp at ht
      · rw [if_neg hq] at ht
        have hi0 : Inv { s with quotes := s.quotes - 1 } :=
          ⟨hi.temp_ne, hi.temp_zero, hi.var_ne, hi.var_pos⟩
        simp only at ht
        cases hr : (if s.env_flag = true then resolve getenv { s with quotes := s.quotes - 1 }
            else .ok { s with quotes := s.quotes - 1 }) with
        | fault e => rw [hr] at ht; simp at ht
        | ok s3 =>
          rw [hr] at ht
          simp only [Option.some.injEq] at ht
          subst ht
          exact maybeResolve_inv getenv _ s3 hi0 hr
    · rw [if_neg h2] at ht; simp at ht

/-- At a test point the step is the test `strlen (temp) > 0` and the storing of the token
that it guards. -/
theorem step_testPoint (getenv : Env) (malloc : Malloc) (c : Char) (s s1 : State)
    (ht : testPoint getenv c s = some s1) :
    step getenv malloc c s
      = if 0 < strlen s1.temp SIZE then finalize malloc (isBlank c) s1 else .ok s1 := by
  unfold testPoint at ht
  unfold step
  by_cases h1 : isBlank c = true
  · rw [if_pos h1] at ht
    rw [if_pos h1, h1]
    unfold stepBlank
    cases hr : (if s.env_flag = true then resolve getenv s else .ok s) with
    | fault e => rw [hr] at ht; simp at ht
    | ok s3 =>
      rw [hr] at ht
      simp only at ht
      split_ifs at ht with hq
      simp only [Option.some.injEq] at ht
      subst ht
      simp only [Outcome.bind, hq, if_true]
  · rw [if_neg h1] at ht
    have h1f : isBlank c = false := by simpa using h1
    rw [if_neg h1, h1f]
    by_cases h2 : isQuote c = true
    · rw [if_pos h2] at ht
      rw [if_pos h2]
      unfold stepQuote
      by_cases hq : s.quotes = 0
      · rw [if_pos hq] at ht; simp at ht
      · rw [if_neg hq] at ht
        rw [if_neg hq]
        simp only at ht ⊢
        cases hr : (if s.env_flag = true then resolve getenv { s with quotes := s.quotes - 1 }
            else .ok { s with quotes := s.quotes - 1 }) with
        | fault e => rw [hr] at ht; simp at ht
        | ok s3 =>
          rw [hr] at ht
          simp only [Option.some.injEq] at ht
          subst ht
          simp only [Outcome.bind]
    · rw [if_neg h2] at ht; simp at ht

/-- C20. The emptiness test on the token buffer agrees with the length counter: for every
line without NUL, every environment and every allocator, in the state `s1` in which
`strlen (temp) > 0` is evaluated for a character of the line (on a blank outside quotes
or a closing quote, after the characters before it have been processed), `temp[0]` is
not NUL exactly when `pos > 0`, so that the test holds exactly when `pos > 0`, and the
token that is stored when the test holds is `temp[0 .. pos)`. -/
theorem emptiness_test_agrees (getenv : Env) (malloc : Malloc) (a line pre post : List Char)
    (c : Char) (s s1 : State) (hn : NUL ∉ line) (hsplit : line = pre ++ c :: post)
    (hs : scan getenv malloc pre (initState a) = .ok s)
    (ht : testPoint getenv c s = some s1) :
    (s1.temp 0 ≠ NUL ↔ 0 < s1.pos) ∧ (0 < strlen s1.temp SIZE ↔ 0 < s1.pos) ∧
      step getenv malloc c s
        = (if 0 < strlen s1.temp SIZE then finalize malloc (isBlank c) s1 else .ok s1) ∧
      ∀ s2, finalize malloc (isBlank c) s1 = .ok s2 →
        s2.iargv = s1.iargv ++ [slice s1.temp 0 s1.pos] := by
  have hpre : ∀ x ∈ pre, x ≠ NUL := fun x hx e =>
    hn (by rw [hsplit, ← e]; exact List.mem_append_left _ hx)
  have hi := (rep_of_scan_ok getenv malloc pre hpre a s hs).2
  have hi1 := testPoint_inv getenv c s s1 hi ht
  refine ⟨?_, strlen_temp_pos s1 hi1, step_testPoint getenv malloc c s s1 ht, ?_⟩
  · constructor
    · intro h
      by_contra h0
      exact h (hi1.temp_zero (by omega))
    · intro h
      exact hi1.temp_ne 0 h
  · intro s2 h2
    exact (finalize_stored malloc (isBlank c) s1 s2 hi1 h2).1

/-- C20, at the second blank of the line `abc de ` with its newline: the test is evaluated
with `pos = 2` while `strlen (temp)` is 3, because the `c` of the first token is still in
`temp[2]`; the token stored is `de`. -/
theorem emptiness_test_agrees_witness :
    ∃ s s1, NUL ∉ "abc de ".toList ++ [NEWLINE] ∧
      scan envNone mallocOk "abc de".toList (initState []) = .ok s ∧
      testPoint envNone SPACE s = some s1 ∧
      ((s1.temp 0 ≠ NUL ↔ 0 < s1.pos) ∧ (0 < strlen s1.temp SIZE ↔ 0 < s1.pos) ∧
        step envNone mallocOk SPACE s
          = (if 0 < strlen s1.temp SIZE then finalize mallocOk (isBlank SPACE) s1 else .ok s1) ∧
        ∀ s2, finalize mallocOk (isBlank SPACE) s1 = .ok s2 →
          s2.iargv = s1.iargv ++ [slice s1.temp 0 s1.pos]) ∧
      strlen s1.temp SIZE = 3 ∧ s1.pos = 2 ∧ slice s1.temp 0 s1.pos = "de".toList ∧
      s1.temp 2 = 'c' := by
  have hm : (scan envNone mallocOk "abc de".toList (initState [])).map
      (fun s => (s.env_flag, s.quotes, strlen s.temp SIZE, s.pos, slice s.temp 0 s.pos, s.temp 2))
      = .ok (false, 0, 3, 2, "de".toList, 'c') := rfl
  cases hs : scan envNone mallocOk "abc de".toList (initState []) with
  | fault e => rw [hs] at hm; simp [Outcome.map] at hm
  | ok s =>
    rw [hs] at hm
    simp only [Outcome.map, Outcome.ok.injEq, Prod.mk.injEq] at hm
    obtain ⟨e1, e2, e3, e4, e5, e6⟩ := hm
    have ht : testPoint envNone SPACE s = some s := by
      unfold testPoint
      rw [if_pos (by decide), e1]
      simp only [Bool.false_eq_true, if_false]
      rw [if_pos e2]
    exact ⟨s, s, by decide, rfl, ht,
      emptiness_test_agrees envNone mallocOk [] ("abc de ".toList ++ [NEWLINE]) "abc de".toList
        [NEWLINE] SPACE s s (by decide) (by decide) hs ht,
      e3, e4, e5, e6⟩

end Readlink
